import Mathlib

/-!
# Verification of the 2048 decision engine (`tiles2048.cpp`)

A shallow embedding of the core of the repository `pineal/2048-cpp`:
the xorshift random generator, the board model with its slide/merge
(`tilt`) algorithm, tile placement, the undo/redo history ring, the
transposition cache, and the searcher family (naive minimax, alpha-beta,
caching minimax, caching alpha-beta), together with proofs of the spec's
testable properties.

Machine integers are modelled as `Nat` with explicit reductions
`% 2^32` / `% 2^64` / `% 256` at the points where the C code's fixed
width matters; C `int` scores are modelled as `Int` (no intermediate
arithmetic on scores can overflow: the code only compares and copies
them).
-/

namespace Tiles2048

/-! ## RNG (struct RNG, tiles2048.cpp lines 54-86)

Four 32-bit words of xorshift state.  `uint32_t` arithmetic is `Nat`
arithmetic reduced `% 2^32`; note `x << k` must be reduced while
`x >> k` and `xor` need no reduction for inputs below `2^32`. -/

def U32 : Nat := 2 ^ 32

structure RNG where
  x : Nat
  y : Nat
  z : Nat
  w : Nat
deriving Repr, DecidableEq

/-- One step of the seeding scramble: `v ^= v >> 17` etc. applied to
`a^(a<<13)` as in `RNG::reset`. -/
def seedStep (a : Nat) : Nat :=
  let v := a ^^^ ((a <<< 13) % U32)
  let v := v ^^^ (v >>> 17)
  v ^^^ ((v <<< 5) % U32)

/-- `RNG::reset(seed)`. -/
def RNG.reset (seed : Nat) : RNG :=
  let x := if seed ≠ 0 then seed else 123456789
  let y := seedStep x
  let z := seedStep y
  let w := seedStep z
  ⟨x, y, z, w⟩

/-- `RNG::next32`: xorshift128 step, returns the new `w and the advanced
state. -/
def RNG.next32 (r : RNG) : Nat × RNG :=
  let t := r.x ^^^ ((r.x <<< 15) % U32)
  let t := (r.w ^^^ (r.w >>> 21)) ^^^ (t ^^^ (t >>> 4))
  (t, ⟨r.y, r.z, r.w, t⟩)

/-- `UINT32_MAX - (UINT32_MAX % n)`: the bound below which a raw draw is
accepted by `RNG::next_n` (draws `≥ nextNRange n` are rejected and
redrawn). -/
def nextNRange (n : Nat) : Nat := (U32 - 1) - ((U32 - 1) % n)

/-- The divisor `(range - 1) / n + 1` used to map an accepted raw draw
into `[0, n)`. -/
def nextNDiv (n : Nat) : Nat := (nextNRange n - 1) / n + 1

/-- `value / ((range - 1) / n + 1)`: the result extracted from an
accepted raw draw. -/
def nextNMap (n v : Nat) : Nat := v / nextNDiv n

/-- The rejection loop of `RNG::next_n`, with explicit fuel.  The C loop
`do { value = next32(); } while (value >= range)` redraws until the raw
draw is below `nextNRange n`; the loop has no bound in the source, so the
model carries fuel.  On fuel exhaustion the final draw is mapped through
`% n` so that the result is in `[0, n)` on every path (the source would
keep looping; no claim depends on the exhaustion path, and fuel 64 is
never exhausted for any input appearing in a witness). -/
def nextNGo (n : Nat) : Nat → RNG → Nat × RNG
  | 0, r =>
      let (v, r') := r.next32
      (v % n, r')
  | fuel + 1, r =>
      let (v, r') := r.next32
      if v < nextNRange n then (nextNMap n v, r') else nextNGo n fuel r'

/-- `RNG::next_n(n)`: uniform integer in `[0, n)` by rejection
sampling. -/
def RNG.next_n (r : RNG) (n : Nat) : Nat × RNG := nextNGo n 64 r

/-! ## Board (struct Board, tiles2048.cpp lines 299-432)

`BoardState` is `uint8_t[16]`, row-major 4×4; the model is a
`List Nat` of length 16 with cell writes reduced `% 256` where the
source stores a computed value into a `uint8_t`. -/

/-- `DIR_DX` (tiles2048.cpp line 51). -/
def DIR_DX : Nat → Int
  | 0 => -1
  | 1 => 1
  | _ => 0

/-- `DIR_DY` (tiles2048.cpp line 52). -/
def DIR_DY : Nat → Int
  | 2 => -1
  | 3 => 1
  | _ => 0

/-- `count_free`: positions of the empty cells in row-major order (the
array the source fills); the source's return value is the length. -/
def count_free (b : List Nat) : List Nat :=
  (List.range 16).filter (fun p => b.getD p 0 = 0)

/-- `has_direct_matches`: some two horizontally or vertically adjacent
cells hold equal non-zero values. -/
def has_direct_matches (b : List Nat) : Bool :=
  ((List.range 4).any fun i => (List.range 3).any fun j =>
     b.getD (i * 4 + j) 0 ≠ 0 && b.getD (i * 4 + j) 0 = b.getD (i * 4 + j + 1) 0) ||
  ((List.range 4).any fun j => (List.range 3).any fun i =>
     b.getD (i * 4 + j) 0 ≠ 0 && b.getD (i * 4 + j) 0 = b.getD ((i + 1) * 4 + j) 0)

/-- `finished`: no free cell and no direct match. -/
def finished (b : List Nat) : Bool :=
  (count_free b).length = 0 && !has_direct_matches b

/-- The loop body of `place`: draw the tile tier (`next_n(10) < 9` low
tier), draw the slot among the free cells, write the tile, and remove
the chosen slot by shifting the subsequent free-slot indices down by one
(`List.eraseIdx`), exactly as the source's copy loop does — not by
swapping with the last slot. -/
def placeGo : Nat → List Nat → List Nat → RNG → List Nat × RNG
  | 0, _, b, rng => (b, rng)
  | count + 1, free, b, rng =>
      if free.length = 0 then (b, rng)
      else
        let d := rng.next_n 10
        let value := if d.1 < 9 then 1 else 2
        let w := d.2.next_n free.length
        placeGo count (free.eraseIdx w.1) (b.set (free.getD w.1 0) value) w.2

/-- `Board::place(count, rng)` (tiles2048.cpp lines 341-363): fill
`count` empty cells (or as many as exist) chosen via the generator. -/
def place (b : List Nat) (count : Nat) (rng : RNG) : List Nat × RNG :=
  placeGo count (count_free b) b rng

/-! ### `Board::tilt` (tiles2048.cpp lines 365-423)

The source walks, for each of the four lines perpendicular to the move
axis, the cell indices `begin + i*step_major + j*step_minor` in travel
order, maintaining a pending `last_value`/`last_from` and a write cursor
`to`.  All reads `state[from]` happen at indices the write cursor has not
passed (the single in-iteration overlap `to == from` is guarded by the
`tmp` copy), so the per-line loop is equivalent to a pure function of the
line's initial cells; the model extracts each line, runs that function,
and writes the results back. -/

/-- `begin`: `NUM_TILES-1` when `(dx|dy) > 0` (for the valid direction
vectors, one component is zero, so the bitwise or is the sum). -/
def tiltBegin (dx dy : Int) : Int := if 0 < dx + dy then 15 else 0

/-- `step_major = -(dx*TILES_X + dy)`. -/
def stepMajor (dx dy : Int) : Int := -(dx * 4 + dy)

/-- `step_minor = -(dy*TILES_X + dx)`. -/
def stepMinor (dx dy : Int) : Int := -(dy * 4 + dx)

/-- Board index of slot `j` of line `i` in travel order. -/
def lineIdx (dx dy : Int) (i j : Nat) : Nat :=
  (tiltBegin dx dy + i * stepMajor dx dy + j * stepMinor dx dy).toNat

/-- The four lines (each four board indices in travel order). -/
def lineIdxs (dx dy : Int) : List (List Nat) :=
  (List.range 4).map fun i => (List.range 4).map fun j => lineIdx dx dy i j

/-- Result of sliding/merging one line (or a whole board). -/
structure LineResult where
  out : List Nat
  moved : Bool
  score : Nat
  merged : List Nat
deriving Repr, DecidableEq

/-- The per-line scan of `tilt`.  `pending = some (last_value,
last_from)` with `last_from` the scan position it was read from; `acc`
is the list of values written so far, so `acc.length` is the write
cursor's slot.  A merge writes `last_value + 1` (a `uint8_t` store, so
reduced `% 256`) and credits `1 << (last_value + 1)` to the score; a
displaced pending value is written at the cursor and sets `moved` iff it
changed position.  `merged` records the `last_value` of each merge. -/
def tiltLineGo : List Nat → Nat → Option (Nat × Nat) → List Nat → Bool → Nat → List Nat → LineResult
  | [], _, pending, acc, moved, score, merged =>
      match pending with
      | some (lv, lf) => ⟨acc ++ [lv], moved || decide (lf ≠ acc.length), score, merged⟩
      | none => ⟨acc, moved, score, merged⟩
  | c :: rest, fromIdx, pending, acc, moved, score, merged =>
      if c ≠ 0 then
        match pending with
        | some (lv, lf) =>
            if lv = c then
              tiltLineGo rest (fromIdx + 1) none (acc ++ [(lv + 1) % 256]) true
                (score + 2 ^ (lv + 1)) (merged ++ [lv])
            else
              tiltLineGo rest (fromIdx + 1) (some (c, fromIdx)) (acc ++ [lv])
                (moved || decide (lf ≠ acc.length)) score merged
        | none => tiltLineGo rest (fromIdx + 1) (some (c, fromIdx)) acc moved score merged
      else tiltLineGo rest (fromIdx + 1) pending acc moved score merged

/-- One full line: scan, flush the pending value, zero-fill the rest of
the line (the source's `while (to != stop) state[to] = 0` loop). -/
def tiltLine (l : List Nat) : LineResult :=
  let r := tiltLineGo l 0 none [] false 0 []
  ⟨r.out ++ List.replicate (l.length - r.out.length) 0, r.moved, r.score, r.merged⟩

/-- Read the cells at the given board indices. -/
def getCells (b : List Nat) (ps : List Nat) : List Nat :=
  ps.map fun p => b.getD p 0

/-- Write values back at the given board indices. -/
def setCells : List Nat → List Nat → List Nat → List Nat
  | b, p :: ps, v :: vs => setCells (b.set p v) ps vs
  | b, _, _ => b

/-- Process one line of the board in place. -/
def tiltStep (acc : LineResult) (idxs : List Nat) : LineResult :=
  let r := tiltLine (getCells acc.out idxs)
  ⟨setCells acc.out idxs r.out, acc.moved || r.moved, acc.score + r.score,
    acc.merged ++ r.merged⟩

/-- `Board::tilt(dx, dy)`: slide and merge every line; `out` is the new
board, `moved` whether anything changed place or merged, `score` the
accumulated `*score` delta. -/
def tilt (b : List Nat) (dx dy : Int) : LineResult :=
  (lineIdxs dx dy).foldl tiltStep ⟨b, false, 0, []⟩

/-- `tilt` in one of the four `MoveDir` directions. -/
def tiltDir (b : List Nat) (dir : Nat) : LineResult :=
  tilt b (DIR_DX dir) (DIR_DY dir)

/-- `Board::move(dir, rng)` (tiles2048.cpp lines 425-431): tilt, and on
success place exactly one new tile.  Returns the new board, the `moved`
flag, the score delta and the advanced generator. -/
def move (b : List Nat) (dir : Nat) (rng : RNG) : List Nat × Bool × Nat × RNG :=
  let t := tiltDir b dir
  if t.moved then
    let p := place t.out 1 rng
    (p.1, true, t.score, p.2)
  else (t.out, false, t.score, rng)

/-! ### Observations used by the claims -/

/-- Number of non-empty cells of a line. -/
def countNZ (l : List Nat) : Nat := (l.filter (· ≠ 0)).length

/-- Value mass of a line: sum of `2^v` over non-empty cells. -/
def massList (l : List Nat) : Nat :=
  (l.map fun v => if v = 0 then 0 else 2 ^ v).sum

/-- Number of non-empty cells of a board. -/
def countBoard (b : List Nat) : Nat := countNZ (getCells b (List.range 16))

/-- Value mass of a board. -/
def massBoard (b : List Nat) : Nat := massList (getCells b (List.range 16))

/-! ### Elementary facts about the observation functions -/

@[simp] lemma countNZ_nil : countNZ [] = 0 := rfl

@[simp] lemma countNZ_cons (v : Nat) (l : List Nat) :
    countNZ (v :: l) = (if v = 0 then 0 else 1) + countNZ l := by
  by_cases h : v = 0
  · simp [countNZ, List.filter_cons, h]
  · simp only [countNZ, List.filter_cons, if_neg h, decide_not]
    simp [h]
    omega

@[simp] lemma countNZ_append (l₁ l₂ : List Nat) :
    countNZ (l₁ ++ l₂) = countNZ l₁ + countNZ l₂ := by
  simp [countNZ, List.filter_append]

@[simp] lemma countNZ_replicate_zero (k : Nat) : countNZ (List.replicate k 0) = 0 := by
  induction k with
  | zero => rfl
  | succ n ih => simp [List.replicate_succ, ih]

@[simp] lemma massList_nil : massList [] = 0 := rfl

@[simp] lemma massList_cons (v : Nat) (l : List Nat) :
    massList (v :: l) = (if v = 0 then 0 else 2 ^ v) + massList l := by
  simp [massList]

@[simp] lemma massList_append (l₁ l₂ : List Nat) :
    massList (l₁ ++ l₂) = massList l₁ + massList l₂ := by
  simp [massList]

@[simp] lemma massList_replicate_zero (k : Nat) : massList (List.replicate k 0) = 0 := by
  induction k with
  | zero => rfl
  | succ n ih => simp [List.replicate_succ, ih]

/-- Pending-slot count used in the accounting lemma. -/
def pendCount : Option (Nat × Nat) → Nat
  | none => 0
  | some _ => 1

/-- Pending mass used in the accounting lemma. -/
def pendMass : Option (Nat × Nat) → Nat
  | none => 0
  | some (lv, _) => 2 ^ lv

/-! ### The per-line accounting lemma

One merge removes two tiles of value `v` and writes one of value `v+1`;
since `2^v + 2^v = 2^(v+1)` the value mass is conserved, the non-empty
count drops by one per merge, and the score accumulates `2^(v+1)` per
merge.  The `≤ 254` hypothesis rules out the `uint8_t` wrap of the
merged store. -/

lemma tiltLineGo_spec (cells : List Nat) :
    ∀ (fromIdx : Nat) (pending : Option (Nat × Nat)) (acc : List Nat)
      (m : Bool) (s : Nat) (mg : List Nat),
    (∀ v ∈ cells, v ≤ 254) →
    (∀ lv lf, pending = some (lv, lf) → lv ≠ 0 ∧ lv ≤ 254) →
    ∃ δ : List Nat,
      (tiltLineGo cells fromIdx pending acc m s mg).merged = mg ++ δ ∧
      (tiltLineGo cells fromIdx pending acc m s mg).score
        = s + (δ.map fun v => 2 ^ (v + 1)).sum ∧
      countNZ (tiltLineGo cells fromIdx pending acc m s mg).out + δ.length
        = countNZ acc + pendCount pending + countNZ cells ∧
      massList (tiltLineGo cells fromIdx pending acc m s mg).out
        = massList acc + pendMass pending + massList cells ∧
      (tiltLineGo cells fromIdx pending acc m s mg).out.length + δ.length
        = acc.length + pendCount pending + countNZ cells := by
  induction cells with
  | nil =>
      intro fromIdx pending acc m s mg _ hpend
      match pending with
      | none => exact ⟨[], by simp [tiltLineGo, pendCount, pendMass]⟩
      | some (lv, lf) =>
          obtain ⟨hlv0, _⟩ := hpend lv lf rfl
          exact ⟨[], by simp [tiltLineGo, pendCount, pendMass, hlv0]⟩
  | cons c rest ih =>
      intro fromIdx pending acc m s mg hcells hpend
      have hc : c ≤ 254 := hcells c (by simp)
      have hrest : ∀ v ∈ rest, v ≤ 254 := fun v hv => hcells v (by simp [hv])
      by_cases hc0 : c ≠ 0
      · match pending with
        | none =>
            obtain ⟨δ, h1, h2, h3, h4, h5⟩ :=
              ih (fromIdx + 1) (some (c, fromIdx)) acc m s mg hrest
                (by rintro lv lf ⟨rfl, rfl⟩; exact ⟨hc0, hc⟩)
            refine ⟨δ, ?_⟩
            simp only [tiltLineGo, if_pos hc0]
            simp only [pendCount, pendMass, countNZ_cons, massList_cons, if_neg hc0] at h3 h4 h5 ⊢
            exact ⟨h1, h2, by omega, by omega, by omega⟩
        | some (lv, lf) =>
            obtain ⟨hlv0, hlv⟩ := hpend lv lf rfl
            by_cases heq : lv = c
            · obtain ⟨δ, h1, h2, h3, h4, h5⟩ :=
                ih (fromIdx + 1) none (acc ++ [(lv + 1) % 256]) true
                  (s + 2 ^ (lv + 1)) (mg ++ [lv]) hrest (by simp)
              refine ⟨lv :: δ, ?_⟩
              simp only [tiltLineGo, if_pos hc0, if_pos heq]
              have hw : (lv + 1) % 256 = lv + 1 := Nat.mod_eq_of_lt (by omega)
              have hpow : 2 ^ (lv + 1) = 2 ^ lv + 2 ^ lv := by rw [pow_succ]; ring
              subst heq
              simp only [pendCount, pendMass, countNZ_cons, massList_cons, countNZ_append,
                massList_append, countNZ_nil, massList_nil, List.length_append,
                List.length_cons, List.length_nil, List.map_cons, List.sum_cons, hw,
                if_neg hc0, if_neg (by omega : ¬ lv + 1 = 0)] at h1 h2 h3 h4 h5 ⊢
              exact ⟨by simpa using h1, by omega, by omega, by omega, by omega⟩
            · obtain ⟨δ, h1, h2, h3, h4, h5⟩ :=
                ih (fromIdx + 1) (some (c, fromIdx)) (acc ++ [lv])
                  (m || decide (lf ≠ acc.length)) s mg hrest
                  (by rintro lv' lf' ⟨rfl, rfl⟩; exact ⟨hc0, hc⟩)
              refine ⟨δ, ?_⟩
              simp only [tiltLineGo, if_pos hc0, if_neg heq]
              simp only [pendCount, pendMass, countNZ_cons, massList_cons, countNZ_append,
                massList_append, countNZ_nil, massList_nil, List.length_append,
                List.length_cons, List.length_nil, if_neg hc0, if_neg hlv0] at h3 h4 h5 ⊢
              exact ⟨h1, h2, by omega, by omega, by omega⟩
      · obtain ⟨δ, h1, h2, h3, h4, h5⟩ := ih (fromIdx + 1) pending acc m s mg hrest hpend
        refine ⟨δ, ?_⟩
        simp only [tiltLineGo, if_neg hc0]
        push_neg at hc0
        simp only [countNZ_cons, massList_cons, if_pos hc0] at h3 h4 h5 ⊢
        exact ⟨h1, h2, by omega, by omega, by omega⟩

/-- The write cursor never overtakes the scan: the output is no longer
than the processed input. -/
lemma tiltLineGo_out_length (cells : List Nat) :
    ∀ (fromIdx : Nat) (pending : Option (Nat × Nat)) (acc : List Nat)
      (m : Bool) (s : Nat) (mg : List Nat),
    (tiltLineGo cells fromIdx pending acc m s mg).out.length
      ≤ acc.length + pendCount pending + cells.length := by
  induction cells with
  | nil =>
      intro fromIdx pending acc m s mg
      match pending with
      | none => simp [tiltLineGo, pendCount]
      | some (lv, lf) => simp [tiltLineGo, pendCount]
  | cons c rest ih =>
      intro fromIdx pending acc m s mg
      by_cases hc0 : c ≠ 0
      · match pending with
        | none =>
            simp only [tiltLineGo, if_pos hc0]
            have := ih (fromIdx + 1) (some (c, fromIdx)) acc m s mg
            simp only [pendCount, List.length_cons] at this ⊢
            omega
        | some (lv, lf) =>
            by_cases heq : lv = c
            · simp only [tiltLineGo, if_pos hc0, if_pos heq]
              have := ih (fromIdx + 1) none (acc ++ [(lv + 1) % 256]) true
                (s + 2 ^ (lv + 1)) (mg ++ [lv])
              simp only [pendCount, List.length_append, List.length_cons,
                List.length_nil] at this ⊢
              omega
            · simp only [tiltLineGo, if_pos hc0, if_neg heq]
              have := ih (fromIdx + 1) (some (c, fromIdx)) (acc ++ [lv])
                (m || decide (lf ≠ acc.length)) s mg
              simp only [pendCount, List.length_append, List.length_cons,
                List.length_nil] at this ⊢
              omega
      · simp only [tiltLineGo, if_neg hc0]
        have := ih (fromIdx + 1) pending acc m s mg
        simp only [List.length_cons] at this ⊢
        omega

/-- The padded output of one line has the line's length. -/
lemma tiltLine_out_length (l : List Nat) : (tiltLine l).out.length = l.length := by
  have h := tiltLineGo_out_length l 0 none [] false 0 []
  simp only [pendCount, List.length_nil] at h
  simp only [tiltLine, List.length_append, List.length_replicate]
  omega

/-- Once `moved` is set it stays set. -/
lemma tiltLineGo_moved_mono (cells : List Nat) :
    ∀ (fromIdx : Nat) (pending : Option (Nat × Nat)) (acc : List Nat)
      (s : Nat) (mg : List Nat),
    (tiltLineGo cells fromIdx pending acc true s mg).moved = true := by
  induction cells with
  | nil =>
      intro fromIdx pending acc s mg
      match pending with
      | none => simp [tiltLineGo]
      | some (lv, lf) => simp [tiltLineGo]
  | cons c rest ih =>
      intro fromIdx pending acc s mg
      by_cases hc0 : c ≠ 0
      · match pending with
        | none => simp only [tiltLineGo, if_pos hc0]; exact ih ..
        | some (lv, lf) =>
            by_cases heq : lv = c
            · simp only [tiltLineGo, if_pos hc0, if_pos heq]; exact ih ..
            · simp only [tiltLineGo, if_pos hc0, if_neg heq, Bool.true_or]; exact ih ..
      · simp only [tiltLineGo, if_neg hc0]; exact ih ..

/-- `merged` only grows. -/
lemma tiltLineGo_merged_prefix (cells : List Nat) :
    ∀ (fromIdx : Nat) (pending : Option (Nat × Nat)) (acc : List Nat)
      (m : Bool) (s : Nat) (mg : List Nat),
    ∃ δ, (tiltLineGo cells fromIdx pending acc m s mg).merged = mg ++ δ := by
  induction cells with
  | nil =>
      intro fromIdx pending acc m s mg
      match pending with
      | none => exact ⟨[], by simp [tiltLineGo]⟩
      | some (lv, lf) => exact ⟨[], by simp [tiltLineGo]⟩
  | cons c rest ih =>
      intro fromIdx pending acc m s mg
      by_cases hc0 : c ≠ 0
      · match pending with
        | none => simp only [tiltLineGo, if_pos hc0]; exact ih ..
        | some (lv, lf) =>
            by_cases heq : lv = c
            · simp only [tiltLineGo, if_pos hc0, if_pos heq]
              obtain ⟨δ, hδ⟩ := ih (fromIdx + 1) none (acc ++ [(lv + 1) % 256]) true
                (s + 2 ^ (lv + 1)) (mg ++ [lv])
              exact ⟨lv :: δ, by simpa using hδ⟩
            · simp only [tiltLineGo, if_pos hc0, if_neg heq]; exact ih ..
      · simp only [tiltLineGo, if_neg hc0]; exact ih ..

/-- Pending value as a (zero- or one-element) list. -/
def pendList : Option (Nat × Nat) → List Nat
  | none => []
  | some (lv, _) => [lv]

/-- If no merge happened, the output is the input's non-zero cells in
order, and that sequence has no two adjacent equal values (each
adjacent pair was compared against the pending value and found
different). -/
lemma tiltLineGo_no_merge (cells : List Nat) :
    ∀ (fromIdx : Nat) (pending : Option (Nat × Nat)) (acc : List Nat)
      (m : Bool) (s : Nat) (mg : List Nat),
    (tiltLineGo cells fromIdx pending acc m s mg).merged = mg →
    (tiltLineGo cells fromIdx pending acc m s mg).out
        = acc ++ pendList pending ++ cells.filter (· ≠ 0) ∧
      List.Chain' (· ≠ ·) (pendList pending ++ cells.filter (· ≠ 0)) := by
  induction cells with
  | nil =>
      intro fromIdx pending acc m s mg _
      match pending with
      | none => simp [tiltLineGo, pendList]
      | some (lv, lf) => simp [tiltLineGo, pendList]
  | cons c rest ih =>
      intro fromIdx pending acc m s mg hm
      by_cases hc0 : c ≠ 0
      · match pending with
        | none =>
            simp only [tiltLineGo, if_pos hc0] at hm ⊢
            obtain ⟨h1, h2⟩ := ih (fromIdx + 1) (some (c, fromIdx)) acc m s mg hm
            simp only [pendList] at h1 h2 ⊢
            simp [List.filter_cons, hc0] at h1 h2 ⊢
            exact ⟨h1, h2⟩
        | some (lv, lf) =>
            by_cases heq : lv = c
            · exfalso
              simp only [tiltLineGo, if_pos hc0, if_pos heq] at hm
              obtain ⟨δ, hδ⟩ := tiltLineGo_merged_prefix rest (fromIdx + 1) none
                (acc ++ [(lv + 1) % 256]) true (s + 2 ^ (lv + 1)) (mg ++ [lv])
              rw [hδ] at hm
              have := congrArg List.length hm
              simp at this
            · simp only [tiltLineGo, if_pos hc0, if_neg heq] at hm ⊢
              obtain ⟨h1, h2⟩ := ih (fromIdx + 1) (some (c, fromIdx)) (acc ++ [lv])
                (m || decide (lf ≠ acc.length)) s mg hm
              simp only [pendList] at h1 h2 ⊢
              simp [List.filter_cons, hc0, List.chain'_cons, heq] at h1 h2 ⊢
              exact ⟨h1, h2⟩
      · simp only [tiltLineGo, if_neg hc0] at hm ⊢
        push_neg at hc0
        subst hc0
        obtain ⟨h1, h2⟩ := ih (fromIdx + 1) pending acc m s mg hm
        simp only [List.filter_cons, decide_not, decide_true_eq_true] at h1 h2 ⊢
        constructor
        · simpa using h1
        · simpa using h2

/-- Trailing zeros are skipped: only the flush remains, and the flush
does not look at the scan position. -/
lemma tiltLineGo_zeros (k : Nat) :
    ∀ (fromIdx : Nat) (pending : Option (Nat × Nat)) (acc : List Nat)
      (m : Bool) (s : Nat) (mg : List Nat),
    tiltLineGo (List.replicate k 0) fromIdx pending acc m s mg
      = tiltLineGo [] 0 pending acc m s mg := by
  induction k with
  | zero => intro _ _ _ _ _ _; rfl
  | succ n ih =>
      intro fromIdx pending acc m s mg
      simp only [List.replicate_succ, tiltLineGo,
        if_neg (fun h : (0 : Nat) ≠ 0 => h rfl)]
      exact ih ..

/-- Scanning an already-compacted line (non-zero values, no two adjacent
equal, zeros only at the tail) with the pending value sitting at the
write cursor produces no move. -/
lemma tiltLineGo_sync_pending (q : List Nat) :
    ∀ (k lv : Nat) (acc : List Nat) (s : Nat) (mg : List Nat),
    (∀ v ∈ q, v ≠ 0) → List.Chain' (· ≠ ·) (lv :: q) →
    (tiltLineGo (q ++ List.replicate k 0) (acc.length + 1)
        (some (lv, acc.length)) acc false s mg).moved = false := by
  induction q with
  | nil =>
      intro k lv acc s mg _ _
      simp [tiltLineGo_zeros, tiltLineGo]
  | cons c rest ih =>
      intro k lv acc s mg hq hch
      have hc0 : c ≠ 0 := hq c (by simp)
      have hne : lv ≠ c := (List.chain'_cons.mp hch).1
      simp only [List.cons_append, tiltLineGo, if_pos hc0, if_neg hne]
      have h := ih k c (acc ++ [lv]) s mg (fun v hv => hq v (by simp [hv]))
        (List.chain'_cons.mp hch).2
      simp only [List.length_append, List.length_cons, List.length_nil] at h
      simpa using h

/-- Starting a scan at the write cursor over a compacted line produces
no move. -/
lemma tiltLineGo_sync_start (q : List Nat) (k : Nat) (acc : List Nat)
    (s : Nat) (mg : List Nat)
    (hq : ∀ v ∈ q, v ≠ 0) (hch : List.Chain' (· ≠ ·) q) :
    (tiltLineGo (q ++ List.replicate k 0) acc.length none acc false s mg).moved
      = false := by
  match q with
  | [] =>
      simp only [List.nil_append, tiltLineGo_zeros, tiltLineGo]
  | c :: rest =>
      have hc0 : c ≠ 0 := hq c (by simp)
      simp only [List.cons_append, tiltLineGo, if_pos hc0]
      exact tiltLineGo_sync_pending rest k c acc s mg
        (fun v hv => hq v (by simp [hv])) hch

/-- If the first tilt of a line merged nothing, tilting its output again
reports no move. -/
lemma tiltLine_no_merge_idem (l : List Nat)
    (h : (tiltLine l).merged = []) :
    (tiltLine (tiltLine l).out).moved = false := by
  have hgo : (tiltLineGo l 0 none [] false 0 []).merged = [] := by
    simpa [tiltLine] using h
  obtain ⟨h1, h2⟩ := tiltLineGo_no_merge l 0 none [] false 0 [] hgo
  simp only [pendList, List.nil_append, List.append_nil] at h1 h2
  have hout : (tiltLine l).out
      = l.filter (· ≠ 0) ++ List.replicate (l.length - (l.filter (· ≠ 0)).length) 0 := by
    simp [tiltLine, h1]
  rw [hout]
  have := tiltLineGo_sync_start (l.filter (· ≠ 0))
    (l.length - (l.filter (· ≠ 0)).length) [] 0 []
    (fun v hv => by simpa using (List.of_mem_filter hv)) h2
  simpa [tiltLine] using this

/-- Characterization of runs that report no move: nothing merged, every
value was written back where it stood, so the input was already
compacted and the output reproduces it. -/
lemma tiltLineGo_moved_false (cells : List Nat) :
    ∀ (fromIdx : Nat) (pending : Option (Nat × Nat)) (acc : List Nat)
      (m : Bool) (s : Nat) (mg : List Nat),
    (match pending with
     | none => acc.length ≤ fromIdx
     | some _ => acc.length + 1 ≤ fromIdx) →
    (tiltLineGo cells fromIdx pending acc m s mg).moved = false →
    m = false ∧
    (match pending with
     | none =>
         if fromIdx = acc.length then
           ∃ p k, cells = p ++ List.replicate k 0 ∧
             (tiltLineGo cells fromIdx pending acc m s mg).out = acc ++ p
         else (∀ v ∈ cells, v = 0) ∧
           (tiltLineGo cells fromIdx pending acc m s mg).out = acc
     | some (lv, lf) =>
         lf = acc.length ∧
         (if fromIdx = acc.length + 1 then
           ∃ p k, cells = p ++ List.replicate k 0 ∧
             (tiltLineGo cells fromIdx pending acc m s mg).out = acc ++ lv :: p
         else (∀ v ∈ cells, v = 0) ∧
           (tiltLineGo cells fromIdx pending acc m s mg).out = acc ++ [lv])) := by
  induction cells with
  | nil =>
      intro fromIdx pending acc m s mg hge hmv
      match pending with
      | none =>
          simp only [tiltLineGo] at hmv ⊢
          refine ⟨hmv, ?_⟩
          by_cases hf : fromIdx = acc.length
          · rw [if_pos hf]
            refine ⟨[], 0, by simp, by simp [tiltLineGo]⟩
          · rw [if_neg hf]
            exact ⟨by simp, by simp [tiltLineGo]⟩
      | some (lv, lf) =>
          simp only [tiltLineGo, Bool.or_eq_false_iff, decide_eq_false_iff_not,
            Decidable.not_not] at hmv
          obtain ⟨hm, hlf⟩ := hmv
          refine ⟨hm, hlf, ?_⟩
          by_cases hf : fromIdx = acc.length + 1
          · rw [if_pos hf]
            refine ⟨[], 0, by simp, by simp [tiltLineGo]⟩
          · rw [if_neg hf]
            exact ⟨by simp, by simp [tiltLineGo]⟩
  | cons c rest ih =>
      intro fromIdx pending acc m s mg hge hmv
      by_cases hc0 : c ≠ 0
      · match pending with
        | none =>
            simp only [tiltLineGo, if_pos hc0] at hmv ⊢
            have hge' : acc.length + 1 ≤ fromIdx + 1 := by
              simp only at hge; omega
            obtain ⟨hm, hsome⟩ := ih (fromIdx + 1) (some (c, fromIdx)) acc m s mg hge' hmv
            obtain ⟨hlf, hrest⟩ := hsome
            refine ⟨hm, ?_⟩
            simp only [if_pos hlf]
            have hfrom1 : fromIdx + 1 = acc.length + 1 := by omega
            simp only [if_pos hfrom1] at hrest
            obtain ⟨p, k, hcells, hout⟩ := hrest
            exact ⟨c :: p, k, by simp [hcells], hout⟩
        | some (lv, lf) =>
            by_cases heq : lv = c
            · exfalso
              simp only [tiltLineGo, if_pos hc0, if_pos heq] at hmv
              rw [tiltLineGo_moved_mono] at hmv
              exact Bool.true_eq_false.mp hmv
            · simp only [tiltLineGo, if_pos hc0, if_neg heq] at hmv ⊢
              have hge' : (acc ++ [lv]).length + 1 ≤ fromIdx + 1 := by
                simp only [List.length_append, List.length_cons, List.length_nil] at hge ⊢
                omega
              obtain ⟨hm', hsome⟩ := ih (fromIdx + 1) (some (c, fromIdx)) (acc ++ [lv])
                (m || decide (lf ≠ acc.length)) s mg hge' hmv
              simp only [Bool.or_eq_false_iff, decide_eq_false_iff_not,
                Decidable.not_not] at hm'
              obtain ⟨hm, hlf⟩ := hm'
              obtain ⟨hlf', hrest⟩ := hsome
              refine ⟨hm, hlf, ?_⟩
              simp only [List.length_append, List.length_cons, List.length_nil] at hlf' hrest
              have hfrom : fromIdx = acc.length + 1 := by omega
              simp only [if_pos hfrom]
              have : fromIdx + 1 = acc.length + 1 + 1 := by omega
              simp only [if_pos this] at hrest
              obtain ⟨p, k, hcells, hout⟩ := hrest
              refine ⟨c :: p, k, by simp [hcells], ?_⟩
              simpa using hout
      · push_neg at hc0
        subst hc0
        match pending with
        | none =>
            simp only [tiltLineGo, if_neg (fun h : (0 : Nat) ≠ 0 => h rfl)] at hmv ⊢
            simp only at hge
            have hge' : acc.length ≤ fromIdx + 1 := by omega
            obtain ⟨hm, hrest⟩ := ih (fromIdx + 1) none acc m s mg hge' hmv
            refine ⟨hm, ?_⟩
            have hne : ¬ (fromIdx + 1 = acc.length) := by omega
            rw [if_neg hne] at hrest
            obtain ⟨hz, hout⟩ := hrest
            have hz' : ∀ v ∈ (0 :: rest : List Nat), v = 0 := by
              intro v hv
              rcases List.mem_cons.mp hv with h | h
              · exact h
              · exact hz v h
            by_cases hf : fromIdx = acc.length
            · rw [if_pos hf]
              refine ⟨[], rest.length + 1, ?_, by simpa using hout⟩
              rw [List.nil_append, List.eq_replicate_iff]
              exact ⟨by simp, hz'⟩
            · rw [if_neg hf]
              exact ⟨hz', by simpa using hout⟩
        | some (lv, lf) =>
            simp only [tiltLineGo, if_neg (fun h : (0 : Nat) ≠ 0 => h rfl)] at hmv ⊢
            simp only at hge
            have hge' : acc.length + 1 ≤ fromIdx + 1 := by omega
            obtain ⟨hm, hsome⟩ := ih (fromIdx + 1) (some (lv, lf)) acc m s mg hge' hmv
            obtain ⟨hlf, hrest⟩ := hsome
            refine ⟨hm, hlf, ?_⟩
            have hne : ¬ (fromIdx + 1 = acc.length + 1) := by omega
            rw [if_neg hne] at hrest
            obtain ⟨hz, hout⟩ := hrest
            have hz' : ∀ v ∈ (0 :: rest : List Nat), v = 0 := by
              intro v hv
              rcases List.mem_cons.mp hv with h | h
              · exact h
              · exact hz v h
            by_cases hf : fromIdx = acc.length + 1
            · rw [if_pos hf]
              refine ⟨[], rest.length + 1, ?_, by simpa using hout⟩
              rw [List.nil_append, List.eq_replicate_iff]
              exact ⟨by simp, hz'⟩
            · rw [if_neg hf]
              exact ⟨hz', by simpa using hout⟩

/-- A line tilt that reports no move leaves the line unchanged. -/
lemma tiltLine_not_moved (l : List Nat) (h : (tiltLine l).moved = false) :
    (tiltLine l).out = l := by
  have hgo : (tiltLineGo l 0 none [] false 0 []).moved = false := by
    simpa [tiltLine] using h
  obtain ⟨-, hchar⟩ := tiltLineGo_moved_false l 0 none [] false 0 []
    (by simp) hgo
  simp only [List.length_nil, if_pos rfl] at hchar
  obtain ⟨p, k, hcells, hout⟩ := hchar
  simp only [List.nil_append] at hout
  have hlen : l.length = p.length + k := by simp [hcells]
  simp only [tiltLine]
  rw [hout, hlen]
  have h2 : p.length + k - p.length = k := by omega
  rw [h2]
  exact hcells.symm

/-! ### Reading and writing disjoint lines -/

lemma setCells_length : ∀ (ps vs b : List Nat), (setCells b ps vs).length = b.length := by
  intro ps
  induction ps with
  | nil => intro vs b; cases vs <;> rfl
  | cons p ps ih =>
      intro vs b
      cases vs with
      | nil => rfl
      | cons v vs => simp [setCells, ih, List.length_set]

lemma getD_setCells_not_mem : ∀ (ps vs b : List Nat) (q : Nat), q ∉ ps →
    (setCells b ps vs).getD q 0 = b.getD q 0 := by
  intro ps
  induction ps with
  | nil => intro vs b q _; cases vs <;> rfl
  | cons p ps ih =>
      intro vs b q hq
      cases vs with
      | nil => rfl
      | cons v vs =>
          simp only [setCells]
          rw [ih vs (b.set p v) q (fun h => hq (List.mem_cons_of_mem _ h))]
          have hqp : p ≠ q := fun h => hq (by subst h; exact List.mem_cons_self _ _)
          simp [List.getD_eq_getElem?_getD, List.getElem?_set_ne hqp]

lemma getCells_congr (b b' : List Nat) (ps : List Nat)
    (h : ∀ q ∈ ps, b.getD q 0 = b'.getD q 0) : getCells b ps = getCells b' ps := by
  simp only [getCells]
  exact List.map_congr_left h

lemma getCells_length (b ps : List Nat) : (getCells b ps).length = ps.length := by
  simp [getCells]

lemma getCells_setCells_self : ∀ (ps vs b : List Nat), ps.Nodup →
    vs.length = ps.length → (∀ p ∈ ps, p < b.length) →
    getCells (setCells b ps vs) ps = vs := by
  intro ps
  induction ps with
  | nil => intro vs b _ hlen _; cases vs with
      | nil => rfl
      | cons v vs => simp at hlen
  | cons p ps ih =>
      intro vs b hnd hlen hbd
      cases vs with
      | nil => simp at hlen
      | cons v vs =>
          simp only [setCells, getCells, List.map_cons]
          have hp : p ∉ ps := (List.nodup_cons.mp hnd).1
          have h1 : (setCells (b.set p v) ps vs).getD p 0 = v := by
            rw [getD_setCells_not_mem ps vs (b.set p v) p hp]
            have hpb : p < b.length := hbd p (by simp)
            simp [List.getD_eq_getElem?_getD, List.getElem?_set_self',
              List.getElem?_eq_getElem hpb]
          have h2 := ih vs (b.set p v) (List.nodup_cons.mp hnd).2
            (by simpa using hlen)
            (fun q hq => by simpa using hbd q (by simp [hq]))
          simp only [getCells] at h2
          rw [h1, h2]

/-! ### The board fold: each direction's four lines are pairwise
disjoint, so tilting the board equals tilting each line of the original
board independently. -/

lemma tilt_fold_spec (L : List (List Nat)) :
    ∀ (st : LineResult),
    L.flatten.Nodup →
    (∀ p ∈ L.flatten, p < st.out.length) →
    (L.foldl tiltStep st).out.length = st.out.length ∧
    (∀ q, q ∉ L.flatten → (L.foldl tiltStep st).out.getD q 0 = st.out.getD q 0) ∧
    (∀ l ∈ L, getCells (L.foldl tiltStep st).out l
        = (tiltLine (getCells st.out l)).out) ∧
    (L.foldl tiltStep st).moved
        = (st.moved || (L.map fun l => (tiltLine (getCells st.out l)).moved).any id) ∧
    (L.foldl tiltStep st).score
        = st.score + ((L.map fun l => (tiltLine (getCells st.out l)).score).sum) ∧
    (L.foldl tiltStep st).merged
        = st.merged ++ (L.map fun l => (tiltLine (getCells st.out l)).merged).flatten := by
  induction L with
  | nil =>
      intro st _ _
      simp
  | cons l0 L' ih =>
      intro st hnd hbd
      have hnd0 : l0.Nodup := (List.nodup_append.mp (by simpa using hnd)).1
      have hndL : L'.flatten.Nodup := (List.nodup_append.mp (by simpa using hnd)).2.1
      have hdisj : ∀ q ∈ l0, q ∉ L'.flatten := by
        have := (List.nodup_append.mp (by simpa using hnd)).2.2
        intro q hq hq'
        exact this hq hq'
      have hbd0 : ∀ p ∈ l0, p < st.out.length := fun p hp => hbd p (by simp [hp])
      have hbdL : ∀ p ∈ L'.flatten, p < st.out.length := fun p hp => hbd p (by simp [hp])
      set r0 := tiltLine (getCells st.out l0) with hr0
      have hr0len : r0.out.length = l0.length := by
        rw [hr0, tiltLine_out_length, getCells_length]
      set st1 := tiltStep st l0 with hst1
      have hst1out : st1.out = setCells st.out l0 r0.out := rfl
      have hst1len : st1.out.length = st.out.length := by
        rw [hst1out]; exact setCells_length ..
      have hget1 : ∀ (l : List Nat), (∀ q ∈ l, q ∉ l0) →
          getCells st1.out l = getCells st.out l := by
        intro l hl
        apply getCells_congr
        intro q hq
        rw [hst1out]
        exact getD_setCells_not_mem _ _ _ _ (hl q hq)
      have hbd1 : ∀ p ∈ L'.flatten, p < st1.out.length := by
        intro p hp; rw [hst1len]; exact hbdL p hp
      obtain ⟨ih1, ih2, ih3, ih4, ih5, ih6⟩ := ih st1 hndL hbd1
      have hgetCst1 : ∀ l ∈ L', getCells st1.out l = getCells st.out l := by
        intro l hl
        apply hget1
        intro q hq hq0
        exact hdisj q hq0 (List.mem_flatten.mpr ⟨l, hl, hq⟩)
      have hl0final : getCells (L'.foldl tiltStep st1).out l0 = r0.out := by
        have huntouched : ∀ q ∈ l0, (L'.foldl tiltStep st1).out.getD q 0
            = st1.out.getD q 0 := by
          intro q hq
          exact ih2 q (hdisj q hq)
        rw [getCells_congr _ _ _ huntouched, hst1out]
        exact getCells_setCells_self l0 r0.out st.out hnd0
          (by rw [hr0len]) hbd0
      refine ⟨?_, ?_, ?_, ?_, ?_, ?_⟩
      · simp only [List.foldl_cons, ← hst1]
        rw [ih1, hst1len]
      · intro q hq
        simp only [List.flatten_cons, List.mem_append] at hq
        push_neg at hq
        simp only [List.foldl_cons, ← hst1]
        rw [ih2 q hq.2, hst1out,
          getD_setCells_not_mem _ _ _ _ hq.1]
      · intro l hl
        simp only [List.foldl_cons, ← hst1]
        rcases List.mem_cons.mp hl with rfl | hl'
        · exact hl0final
        · rw [ih3 l hl', hgetCst1 l hl']
      · simp only [List.foldl_cons, ← hst1, List.map_cons, List.any_cons]
        rw [ih4]
        have : st1.moved = (st.moved || r0.moved) := rfl
        rw [this]
        have hmap : (L'.map fun l => (tiltLine (getCells st1.out l)).moved)
            = L'.map fun l => (tiltLine (getCells st.out l)).moved := by
          apply List.map_congr_left
          intro l hl
          rw [hgetCst1 l hl]
        rw [hmap]
        cases st.moved <;> cases r0.moved <;> simp [hr0]
      · simp only [List.foldl_cons, ← hst1, List.map_cons, List.sum_cons]
        rw [ih5]
        have : st1.score = st.score + r0.score := rfl
        rw [this]
        have hmap : (L'.map fun l => (tiltLine (getCells st1.out l)).score)
            = L'.map fun l => (tiltLine (getCells st.out l)).score := by
          apply List.map_congr_left
          intro l hl
          rw [hgetCst1 l hl]
        rw [hmap, hr0]
        omega
      · simp only [List.foldl_cons, ← hst1, List.map_cons, List.flatten_cons]
        rw [ih6]
        have : st1.merged = st.merged ++ r0.merged := rfl
        rw [this]
        have hmap : (L'.map fun l => (tiltLine (getCells st1.out l)).merged)
            = L'.map fun l => (tiltLine (getCells st.out l)).merged := by
          apply List.map_congr_left
          intro l hl
          rw [hgetCst1 l hl]
        rw [hmap, hr0, List.append_assoc]

lemma map_eq_forall {α β : Type} {f g : α → β} :
    ∀ (l : List α), l.map f = l.map g → ∀ a ∈ l, f a = g a := by
  intro l
  induction l with
  | nil => intro _ a ha; cases ha
  | cons x xs ih =>
      intro h a ha
      simp only [List.map_cons, List.cons.injEq] at h
      rcases List.mem_cons.mp ha with rfl | ha'
      · exact h.1
      · exact ih h.2 a ha'

/-- Accounting for one whole line. -/
lemma tiltLine_spec (l : List Nat) (h254 : ∀ v ∈ l, v ≤ 254) :
    countNZ (tiltLine l).out + (tiltLine l).merged.length = countNZ l ∧
    massList (tiltLine l).out = massList l ∧
    (tiltLine l).score = ((tiltLine l).merged.map fun v => 2 ^ (v + 1)).sum := by
  obtain ⟨δ, h1, h2, h3, h4, h5⟩ := tiltLineGo_spec l 0 none [] false 0 [] h254
    (by intro lv lf h; cases h)
  have hmg : (tiltLine l).merged = δ := by simpa [tiltLine] using h1
  have hsc : (tiltLine l).score = (tiltLineGo l 0 none [] false 0 []).score := rfl
  refine ⟨?_, ?_, ?_⟩
  · have : countNZ (tiltLine l).out = countNZ (tiltLineGo l 0 none [] false 0 []).out := by
      simp [tiltLine]
    rw [this, hmg]
    simpa [pendCount] using h3
  · have : massList (tiltLine l).out = massList (tiltLineGo l 0 none [] false 0 []).out := by
      simp [tiltLine]
    rw [this]
    simpa [pendMass] using h4
  · rw [hsc, hmg]
    simpa using h2

/-- Sum of the per-line masses over a flattened index family. -/
lemma massList_getCells_flatten (b : List Nat) :
    ∀ (L : List (List Nat)),
    massList (getCells b L.flatten) = ((L.map fun l => massList (getCells b l)).sum) := by
  intro L
  induction L with
  | nil => simp [getCells]
  | cons l L' ih => simp [getCells, massList, List.map_append] at ih ⊢; omega

lemma countNZ_getCells_flatten (b : List Nat) :
    ∀ (L : List (List Nat)),
    countNZ (getCells b L.flatten) = ((L.map fun l => countNZ (getCells b l)).sum) := by
  intro L
  induction L with
  | nil => simp [getCells]
  | cons l L' ih => simp [getCells, List.map_append] at ih ⊢; omega

/-- The four lines of each direction are exactly a permutation of the
sixteen board positions. -/
lemma lineIdxs_facts (dir : Nat) (hdir : dir < 4) :
    (lineIdxs (DIR_DX dir) (DIR_DY dir)).flatten.Perm (List.range 16) ∧
    (lineIdxs (DIR_DX dir) (DIR_DY dir)).flatten.Nodup ∧
    (∀ p ∈ (lineIdxs (DIR_DX dir) (DIR_DY dir)).flatten, p < 16) := by
  interval_cases dir
  · exact ⟨by decide, by decide, by decide⟩
  · exact ⟨by decide, by decide, by decide⟩
  · exact ⟨by decide, by decide, by decide⟩
  · exact ⟨by decide, by decide, by decide⟩

/-- Mass over the board equals mass over any permutation of its
positions. -/
lemma massOn_perm (b : List Nat) {ps qs : List Nat} (h : ps.Perm qs) :
    massList (getCells b ps) = massList (getCells b qs) := by
  unfold massList getCells
  exact ((h.map _).map _).sum_eq

lemma countOn_perm (b : List Nat) {ps qs : List Nat} (h : ps.Perm qs) :
    countNZ (getCells b ps) = countNZ (getCells b qs) := by
  unfold countNZ getCells
  exact ((h.map _).filter _).length_eq

/-- All conclusions of the fold lemma, instantiated for a direction. -/
lemma tiltDir_spec (b : List Nat) (dir : Nat) (hdir : dir < 4) (hb : b.length = 16) :
    (tiltDir b dir).out.length = 16 ∧
    (∀ l ∈ lineIdxs (DIR_DX dir) (DIR_DY dir),
      getCells (tiltDir b dir).out l = (tiltLine (getCells b l)).out) ∧
    (tiltDir b dir).moved
      = ((lineIdxs (DIR_DX dir) (DIR_DY dir)).map
          fun l => (tiltLine (getCells b l)).moved).any id ∧
    (tiltDir b dir).score
      = ((lineIdxs (DIR_DX dir) (DIR_DY dir)).map
          fun l => (tiltLine (getCells b l)).score).sum ∧
    (tiltDir b dir).merged
      = ((lineIdxs (DIR_DX dir) (DIR_DY dir)).map
          fun l => (tiltLine (getCells b l)).merged).flatten := by
  obtain ⟨hperm, hnd, hbd⟩ := lineIdxs_facts dir hdir
  have hbd' : ∀ p ∈ (lineIdxs (DIR_DX dir) (DIR_DY dir)).flatten,
      p < (⟨b, false, 0, []⟩ : LineResult).out.length := by
    intro p hp; rw [hb]; exact hbd p hp
  obtain ⟨h1, h2, h3, h4, h5, h6⟩ :=
    tilt_fold_spec (lineIdxs (DIR_DX dir) (DIR_DY dir)) ⟨b, false, 0, []⟩ hnd hbd'
  exact ⟨by simpa [tiltDir, tilt, hb] using h1,
    by simpa [tiltDir, tilt] using h3,
    by simpa [tiltDir, tilt] using h4,
    by simpa [tiltDir, tilt] using h5,
    by simpa [tiltDir, tilt] using h6⟩

/-- A tilt that reports no move leaves the board unchanged (the source
rewrites each cell, but writes back exactly the values that were
there). -/
lemma tiltDir_not_moved (b : List Nat) (dir : Nat) (hdir : dir < 4)
    (hb : b.length = 16) (hmv : (tiltDir b dir).moved = false) :
    (tiltDir b dir).out = b := by
  obtain ⟨h1, h2, h3, -, -⟩ := tiltDir_spec b dir hdir hb
  obtain ⟨hperm, -, -⟩ := lineIdxs_facts dir hdir
  rw [hmv] at h3
  have hlines : ∀ l ∈ lineIdxs (DIR_DX dir) (DIR_DY dir),
      (tiltLine (getCells b l)).moved = false := by
    intro l hl
    by_contra hne
    have : ((lineIdxs (DIR_DX dir) (DIR_DY dir)).map
        fun l => (tiltLine (getCells b l)).moved).any id = true := by
      rw [List.any_eq_true]
      exact ⟨true, List.mem_map.mpr ⟨l, hl, by simpa using hne⟩, rfl⟩
    rw [← h3] at this
    exact Bool.false_ne_true this
  have hpt : ∀ p, p < 16 → (tiltDir b dir).out.getD p 0 = b.getD p 0 := by
    intro p hp
    have hpf : p ∈ (lineIdxs (DIR_DX dir) (DIR_DY dir)).flatten :=
      hperm.mem_iff.mpr (List.mem_range.mpr hp)
    obtain ⟨l, hl, hpl⟩ := List.mem_flatten.mp hpf
    have hout : getCells (tiltDir b dir).out l = getCells b l := by
      rw [h2 l hl, tiltLine_not_moved _ (hlines l hl)]
    exact map_eq_forall l hout p hpl
  apply List.ext_getElem (by rw [h1, hb])
  intro i hi hi'
  have hi16 : i < 16 := by rwa [h1] at hi
  have := hpt i hi16
  rwa [List.getD_eq_getElem _ 0 hi, List.getD_eq_getElem _ 0 hi'] at this

/-- If a tilt merged nothing, tilting the result again in the same
direction reports no move. -/
lemma tiltDir_no_merge_idem (b : List Nat) (dir : Nat) (hdir : dir < 4)
    (hb : b.length = 16) (hmg : (tiltDir b dir).merged = []) :
    (tiltDir (tiltDir b dir).out dir).moved = false := by
  obtain ⟨h1, h2, -, -, h5⟩ := tiltDir_spec b dir hdir hb
  obtain ⟨h1', h2', h3', -, -⟩ := tiltDir_spec (tiltDir b dir).out dir hdir h1
  rw [h3']
  have hlines : ∀ l ∈ lineIdxs (DIR_DX dir) (DIR_DY dir),
      (tiltLine (getCells (tiltDir b dir).out l)).moved = false := by
    intro l hl
    rw [h2 l hl]
    apply tiltLine_no_merge_idem
    rw [hmg] at h5
    have := (List.flatten_eq_nil_iff.mp h5.symm) _
      (List.mem_map.mpr ⟨l, hl, rfl⟩)
    exact this
  rw [List.any_eq_false]
  intro x hx
  obtain ⟨l, hl, rfl⟩ := List.mem_map.mp hx
  simpa using hlines l hl

lemma getD_le_254 (b : List Nat) (h : ∀ v ∈ b, v ≤ 254) (p : Nat) :
    b.getD p 0 ≤ 254 := by
  rcases Nat.lt_or_ge p b.length with hp | hp
  · rw [List.getD_eq_getElem _ 0 hp]
    exact h _ (List.getElem_mem hp)
  · rw [List.getD_eq_default _ 0 hp]
    omega

lemma sum_map_add {α : Type} (l : List α) (f g : α → Nat) :
    (l.map fun x => f x + g x).sum = (l.map f).sum + (l.map g).sum := by
  induction l with
  | nil => simp
  | cons x xs ih => simp [ih]; omega

/-- Tilting conserves the value mass, removes exactly one non-empty
cell per merge, and credits the score with the merged magnitude
`2^(v+1)` for each merge of a pair of `v` tiles. -/
lemma tiltDir_conservation (b : List Nat) (dir : Nat) (hdir : dir < 4)
    (hb : b.length = 16) (h254 : ∀ v ∈ b, v ≤ 254) :
    massBoard (tiltDir b dir).out = massBoard b ∧
    countBoard (tiltDir b dir).out + (tiltDir b dir).merged.length = countBoard b ∧
    (tiltDir b dir).score = ((tiltDir b dir).merged.map fun v => 2 ^ (v + 1)).sum := by
  obtain ⟨h1, h2, -, h4, h5⟩ := tiltDir_spec b dir hdir hb
  obtain ⟨hperm, -, -⟩ := lineIdxs_facts dir hdir
  set L := lineIdxs (DIR_DX dir) (DIR_DY dir) with hL
  have hline254 : ∀ l ∈ L, ∀ v ∈ getCells b l, v ≤ 254 := by
    intro l _ v hv
    obtain ⟨p, -, rfl⟩ := List.mem_map.mp hv
    exact getD_le_254 b h254 p
  refine ⟨?_, ?_, ?_⟩
  · calc massBoard (tiltDir b dir).out
        = massList (getCells (tiltDir b dir).out L.flatten) :=
          massOn_perm _ hperm.symm
      _ = (L.map fun l => massList (getCells (tiltDir b dir).out l)).sum :=
          massList_getCells_flatten _ L
      _ = (L.map fun l => massList (getCells b l)).sum := by
          apply congrArg List.sum
          apply List.map_congr_left
          intro l hl
          rw [h2 l hl]
          exact (tiltLine_spec _ (hline254 l hl)).2.1
      _ = massList (getCells b L.flatten) := (massList_getCells_flatten _ L).symm
      _ = massBoard b := massOn_perm _ hperm
  · have hmglen : (tiltDir b dir).merged.length
        = (L.map fun l => (tiltLine (getCells b l)).merged.length).sum := by
      rw [h5, List.length_flatten, List.map_map]
      rfl
    have hcount : countBoard (tiltDir b dir).out
        = (L.map fun l => countNZ (tiltLine (getCells b l)).out).sum := by
      calc countBoard (tiltDir b dir).out
          = countNZ (getCells (tiltDir b dir).out L.flatten) :=
            countOn_perm _ hperm.symm
        _ = (L.map fun l => countNZ (getCells (tiltDir b dir).out l)).sum :=
            countNZ_getCells_flatten _ L
        _ = _ := by
            apply congrArg List.sum
            apply List.map_congr_left
            intro l hl
            rw [h2 l hl]
    have hcountb : countBoard b = (L.map fun l => countNZ (getCells b l)).sum := by
      calc countBoard b
          = countNZ (getCells b L.flatten) := countOn_perm _ hperm.symm
        _ = _ := countNZ_getCells_flatten _ L
    rw [hcount, hmglen, hcountb, ← sum_map_add]
    apply congrArg List.sum
    apply List.map_congr_left
    intro l hl
    exact (tiltLine_spec _ (hline254 l hl)).1
  · rw [h4, h5]
    have : ((L.map fun l => (tiltLine (getCells b l)).merged).flatten.map
        fun v => 2 ^ (v + 1)).sum
        = (L.map fun l =>
            (((tiltLine (getCells b l)).merged).map fun v => 2 ^ (v + 1)).sum).sum := by
      rw [List.map_flatten, List.sum_flatten, List.map_map, List.map_map]
      rfl
    rw [this]
    apply congrArg List.sum
    apply List.map_congr_left
    intro l hl
    exact (tiltLine_spec _ (hline254 l hl)).2.2

/-! ## BoardHistory (tiles2048.cpp lines 434-534)

A ring of `MAX_UNDO` snapshots, each holding a board, the generator
state and the cumulative score, plus the current index and the undo/redo
availability counters.  The ring is modelled as `Nat → HistoryState`. -/

/-- `enum { MAX_UNDO = 4096 }`. -/
def MAX_UNDO : Nat := 4096

/-- The empty board (`Board::reset`). -/
def emptyBoard : List Nat := List.replicate 16 0

structure HistoryState where
  board : List Nat
  rng : RNG
  score : Nat

/-- `HistoryState::move(dir)`: apply `Board::move` to the snapshot,
advancing its generator and accumulating its score. -/
def HistoryState.move (h : HistoryState) (dir : Nat) : HistoryState × Bool :=
  let r := Tiles2048.move h.board dir h.rng
  (⟨r.1, r.2.2.2, h.score + r.2.2.1⟩, r.2.1)

structure BoardHistory where
  history : Nat → HistoryState
  current : Nat
  undo_avail : Nat
  redo_avail : Nat

/-- `BoardHistory::move(dir)` (tiles2048.cpp lines 523-533): copy the
current snapshot, move the copy; if it moved, advance the ring index,
store the copy, bump `undo_avail` (the source's cap test is
`undo_avail < MAX_UNDO`) and discard the redo branch. -/
def BoardHistory.move (h : BoardHistory) (dir : Nat) : BoardHistory :=
  let r := (h.history h.current).move dir
  if r.2 then
    { history := fun i => if i = (h.current + 1) % MAX_UNDO then r.1 else h.history i
      current := (h.current + 1) % MAX_UNDO
      undo_avail := if h.undo_avail < MAX_UNDO then h.undo_avail + 1 else h.undo_avail
      redo_avail := 0 }
  else h

/-- `BoardHistory::undo`. -/
def BoardHistory.undo (h : BoardHistory) : BoardHistory :=
  if h.undo_avail ≠ 0 then
    { h with
      undo_avail := h.undo_avail - 1
      redo_avail := h.redo_avail + 1
      current := (h.current + MAX_UNDO - 1) % MAX_UNDO }
  else h

/-- `BoardHistory::redo`. -/
def BoardHistory.redo (h : BoardHistory) : BoardHistory :=
  if h.redo_avail ≠ 0 then
    { h with
      redo_avail := h.redo_avail - 1
      undo_avail := h.undo_avail + 1
      current := (h.current + 1) % MAX_UNDO }
  else h

/-- `BoardHistory::clear_history`: reset slot 0 to an empty board
keeping the live generator, zero the counters. -/
def BoardHistory.clear_history (h : BoardHistory) : BoardHistory :=
  { history := fun i =>
      if i = 0 then ⟨emptyBoard, (h.history h.current).rng, 0⟩ else h.history i
    current := 0
    undo_avail := 0
    redo_avail := 0 }

/-- `BoardHistory::reset(seed)`. -/
def BoardHistory.reset (h : BoardHistory) (seed : Nat) : BoardHistory :=
  { history := fun i =>
      if i = 0 then ⟨emptyBoard, RNG.reset seed, 0⟩ else h.history i
    current := 0
    undo_avail := 0
    redo_avail := 0 }

/-- `BoardHistory::new_game`: clear, then place two tiles on slot 0. -/
def BoardHistory.new_game (h : BoardHistory) : BoardHistory :=
  let h' := h.clear_history
  { h' with history := fun i =>
      if i = 0 then
        let st := h'.history 0
        let r := place st.board 2 st.rng
        ⟨r.1, r.2, st.score⟩
      else h'.history i }

/-! ## Claim C2 -/

/-- **Claim C2, as stated, is false**: on the board whose first row is
`[1,1,2,0]` a left tilt yields first row `[2,2,0,0]`, and a second left
tilt merges the two 2-tiles, so the second call reports `moved = true`. -/
theorem C2_counterexample :
    (tiltDir ([1,1,2,0, 0,0,0,0, 0,0,0,0, 0,0,0,0] : List Nat) 0).out
      = [2,2,0,0, 0,0,0,0, 0,0,0,0, 0,0,0,0] ∧
    (tiltDir (tiltDir ([1,1,2,0, 0,0,0,0, 0,0,0,0, 0,0,0,0] : List Nat) 0).out 0).moved
      = true := by
  constructor
  · rfl
  · rfl

/-- **Claim C2 (amended)**: if the first tilt performs no merge, then a
second tilt in the same direction reports `moved = false`.  (The claim
as stated fails when the first tilt's merges create a new adjacent equal
pair, see the counterexample.) -/
theorem C2_second_tilt_no_move (b : List Nat) (dir : Nat)
    (hdir : dir < 4) (hb : b.length = 16)
    (hmg : (tiltDir b dir).merged = []) :
    (tiltDir (tiltDir b dir).out dir).moved = false :=
  tiltDir_no_merge_idem b dir hdir hb hmg

/-- Witness for C2 at a concrete merge-free slide. -/
theorem C2_second_tilt_no_move_witness :
    (0 : Nat) < 4 ∧
    ([0,1,2,3, 0,0,0,0, 0,0,0,0, 0,0,0,0] : List Nat).length = 16 ∧
    (tiltDir ([0,1,2,3, 0,0,0,0, 0,0,0,0, 0,0,0,0] : List Nat) 0).merged = [] ∧
    (tiltDir (tiltDir ([0,1,2,3, 0,0,0,0, 0,0,0,0, 0,0,0,0] : List Nat) 0).out 0).moved
      = false :=
  ⟨by decide, by decide, by decide,
    C2_second_tilt_no_move _ 0 (by decide) (by decide) (by decide)⟩

/-! ## Claim C4 -/

/-- **Claim C4, as stated, is false**: on the board whose first row is
`[1,1,0,0]` a left tilt performs one merge, yet the value mass is `4`
both before and after (a merge replaces `2^1 + 2^1` by `2^2`): the mass
does not strictly increase. -/
theorem C4_counterexample :
    (tiltDir ([1,1,0,0, 0,0,0,0, 0,0,0,0, 0,0,0,0] : List Nat) 0).merged = [1] ∧
    massBoard (tiltDir ([1,1,0,0, 0,0,0,0, 0,0,0,0, 0,0,0,0] : List Nat) 0).out = 4 ∧
    massBoard ([1,1,0,0, 0,0,0,0, 0,0,0,0, 0,0,0,0] : List Nat) = 4 := by
  refine ⟨by rfl, by rfl, by rfl⟩

/-- **Claim C4 (amended)**: after `Board::tilt` the number of non-empty
cells equals the number before minus the number of merges, the total
value mass is exactly conserved (each merge replaces two `2^v` tiles by
one `2^(v+1)`; the claim's "strictly increases" is wrong — it is the
*score* that increases by the merged magnitude), and the accumulated
score delta is exactly the sum of the merged magnitudes `2^(v+1)`.
The `≤ 254` bound is the `uint8_t` no-wrap precondition. -/
theorem C4_tilt_accounting (b : List Nat) (dir : Nat) (hdir : dir < 4)
    (hb : b.length = 16) (h254 : ∀ v ∈ b, v ≤ 254) :
    countBoard (tiltDir b dir).out + (tiltDir b dir).merged.length = countBoard b ∧
    massBoard (tiltDir b dir).out = massBoard b ∧
    (tiltDir b dir).score = ((tiltDir b dir).merged.map fun v => 2 ^ (v + 1)).sum := by
  obtain ⟨h1, h2, h3⟩ := tiltDir_conservation b dir hdir hb h254
  exact ⟨h2, h1, h3⟩

/-- Witness for C4 on a board with one merge and one slide. -/
theorem C4_tilt_accounting_witness :
    (1 : Nat) < 4 ∧
    ([1,1,2,0, 0,0,0,0, 0,3,0,3, 0,0,0,0] : List Nat).length = 16 ∧
    (∀ v ∈ ([1,1,2,0, 0,0,0,0, 0,3,0,3, 0,0,0,0] : List Nat), v ≤ 254) ∧
    (countBoard (tiltDir ([1,1,2,0, 0,0,0,0, 0,3,0,3, 0,0,0,0] : List Nat) 1).out
        + (tiltDir ([1,1,2,0, 0,0,0,0, 0,3,0,3, 0,0,0,0] : List Nat) 1).merged.length
      = countBoard ([1,1,2,0, 0,0,0,0, 0,3,0,3, 0,0,0,0] : List Nat) ∧
      massBoard (tiltDir ([1,1,2,0, 0,0,0,0, 0,3,0,3, 0,0,0,0] : List Nat) 1).out
        = massBoard ([1,1,2,0, 0,0,0,0, 0,3,0,3, 0,0,0,0] : List Nat) ∧
      (tiltDir ([1,1,2,0, 0,0,0,0, 0,3,0,3, 0,0,0,0] : List Nat) 1).score
        = (((tiltDir ([1,1,2,0, 0,0,0,0, 0,3,0,3, 0,0,0,0] : List Nat) 1).merged.map
            fun v => 2 ^ (v + 1)).sum)) :=
  ⟨by decide, by decide, by decide,
    C4_tilt_accounting _ 1 (by decide) (by decide) (by decide)⟩

/-! ## Claim C8 -/

/-- **Claim C8**: a null slide (`tilt` reports `moved = false`) makes
`Board::move` return `false`, place no tile, and leave the board and the
generator unchanged; `BoardHistory::move` then leaves the entire history
(ring contents, current index and both counters) unchanged. -/
theorem C8_null_move (b : List Nat) (dir : Nat) (rng : RNG)
    (hdir : dir < 4) (hb : b.length = 16)
    (hmv : (tiltDir b dir).moved = false) :
    move b dir rng = (b, false, (tiltDir b dir).score, rng) ∧
    ∀ (hist : BoardHistory), (hist.history hist.current).board = b →
      hist.move dir = hist := by
  have hout : (tiltDir b dir).out = b := tiltDir_not_moved b dir hdir hb hmv
  constructor
  · simp [Tiles2048.move, hmv, hout]
  · intro hist hcur
    have : ((hist.history hist.current).move dir).2 = false := by
      simp [HistoryState.move, Tiles2048.move, hcur, hmv]
    simp [BoardHistory.move, this]

/-- Witness for C8 on a full checkerboard (no legal left slide). -/
theorem C8_null_move_witness :
    (0 : Nat) < 4 ∧
    ([1,2,1,2, 2,1,2,1, 1,2,1,2, 2,1,2,1] : List Nat).length = 16 ∧
    (tiltDir ([1,2,1,2, 2,1,2,1, 1,2,1,2, 2,1,2,1] : List Nat) 0).moved = false ∧
    (move ([1,2,1,2, 2,1,2,1, 1,2,1,2, 2,1,2,1] : List Nat) 0 (RNG.reset 1)
        = (([1,2,1,2, 2,1,2,1, 1,2,1,2, 2,1,2,1] : List Nat), false,
           (tiltDir ([1,2,1,2, 2,1,2,1, 1,2,1,2, 2,1,2,1] : List Nat) 0).score,
           RNG.reset 1) ∧
      ∀ (hist : BoardHistory),
        (hist.history hist.current).board
          = ([1,2,1,2, 2,1,2,1, 1,2,1,2, 2,1,2,1] : List Nat) →
        hist.move 0 = hist) :=
  ⟨by decide, by decide, by decide,
    C8_null_move _ 0 (RNG.reset 1) (by decide) (by decide) (by decide)⟩

/-! ## Claim C5: sequential placement equals batch placement -/

lemma eraseIdx_eq_erase_getD : ∀ (l : List Nat), l.Nodup → ∀ w, w < l.length →
    l.eraseIdx w = l.erase (l.getD w 0) := by
  intro l
  induction l with
  | nil => intro _ w hw; simp at hw
  | cons x xs ih =>
      intro hnd w hw
      match w with
      | 0 => simp [List.eraseIdx, List.erase_cons_head]
      | w' + 1 =>
          have hw' : w' < xs.length := by simpa using hw
          have ha : xs.getD w' 0 ∈ xs := by
            rw [List.getD_eq_getElem _ 0 hw']
            exact List.getElem_mem hw'
          have hne : x ≠ xs.getD w' 0 := by
            intro h
            exact (List.nodup_cons.mp hnd).1 (h ▸ ha)
          simp only [List.eraseIdx, List.getD_cons_succ]
          rw [List.erase_cons_tail (by simpa using hne)]
          rw [ih (List.nodup_cons.mp hnd).2 w' hw']

/-- Pointwise change of a filter at a single position of a duplicate-free
list removes exactly that element. -/
lemma filter_update_erase (p₀ : Nat) (P P' : Nat → Bool) :
    ∀ (l : List Nat), l.Nodup →
    (∀ p ∈ l, p ≠ p₀ → P' p = P p) → P' p₀ = false → P p₀ = true →
    l.filter P' = (l.filter P).erase p₀ := by
  intro l
  induction l with
  | nil => intro _ _ _ _; simp
  | cons x xs ih =>
      intro hnd hagree hP' hP
      have hxs : x ∉ xs := (List.nodup_cons.mp hnd).1
      by_cases hx : x = p₀
      · subst hx
        rw [List.filter_cons_of_neg (by simp [hP']),
          List.filter_cons_of_pos hP, List.erase_cons_head]
        apply List.filter_congr
        intro p hp
        exact hagree p (List.mem_cons_of_mem _ hp)
          (fun h => hxs (h ▸ hp))
      · have hPx : P' x = P x := hagree x (List.mem_cons_self _ _) hx
        have hrec := ih (List.nodup_cons.mp hnd).2
          (fun p hp hne => hagree p (List.mem_cons_of_mem _ hp) hne) hP' hP
        cases hPc : P x with
        | true =>
            rw [List.filter_cons_of_pos (by rw [hPx, hPc]),
              List.filter_cons_of_pos hPc,
              List.erase_cons_tail (by simpa using hx), hrec]
        | false =>
            rw [List.filter_cons_of_neg (by rw [hPx, hPc]; simp),
              List.filter_cons_of_neg (by simp [hPc]), hrec]

/-- Setting a free cell to a non-zero value removes exactly that
position from the free list (which keeps its order: shift-down
semantics, matching the source's copy loop). -/
lemma count_free_set (b : List Nat) (hb : b.length = 16) (w : Nat) (v : Nat)
    (hv : v ≠ 0) (hw : w < (count_free b).length) :
    count_free (b.set ((count_free b).getD w 0) v) = (count_free b).eraseIdx w := by
  set p₀ := (count_free b).getD w 0 with hp₀
  have hmem : p₀ ∈ count_free b := by
    rw [hp₀, List.getD_eq_getElem _ 0 hw]
    exact List.getElem_mem hw
  have hp₀16 : p₀ < 16 := by
    have := List.mem_filter.mp hmem
    simpa using List.mem_range.mp this.1
  have hp₀free : b.getD p₀ 0 = 0 := by
    have := List.mem_filter.mp hmem
    simpa using this.2
  have hnd : (count_free b).Nodup :=
    (List.nodup_range 16).filter _
  rw [eraseIdx_eq_erase_getD _ hnd w hw, ← hp₀]
  unfold count_free
  apply filter_update_erase p₀ _ _ _ (List.nodup_range 16)
  · intro p _ hne
    have h : (b.set p₀ v).getD p 0 = b.getD p 0 := by
      simp [List.getD_eq_getElem?_getD,
        List.getElem?_set_ne (fun hh => hne hh.symm)]
    rw [h]
  · have h : (b.set p₀ v).getD p₀ 0 = v := by
      simp [List.getD_eq_getElem?_getD, List.getElem?_set_self',
        List.getElem?_eq_getElem (show p₀ < b.length by omega)]
    rw [h]
    simp [hv]
  · simpa [List.getD_eq_getElem?_getD] using hp₀free

/-! ## RNG facts (claims C5 and C6) -/

lemma div_eq_iff_of_pos {m : Nat} (h : 0 < m) (v r : Nat) :
    v / m = r ↔ r * m ≤ v ∧ v < (r + 1) * m := by
  constructor
  · rintro rfl
    have h1 := Nat.div_add_mod v m
    have h2 := Nat.mod_lt v h
    constructor
    · have := Nat.div_mul_le_self v m
      omega
    · have hmul : (v / m + 1) * m = m * (v / m) + m := by ring
      omega
  · rintro ⟨h1, h2⟩
    exact Nat.div_eq_of_lt_le h1 h2

lemma nextNRange_eq (n : Nat) (_hn : 0 < n) :
    nextNRange n = n * ((U32 - 1) / n) := by
  have h := Nat.mod_add_div (U32 - 1) n
  unfold nextNRange
  omega

lemma nextNDiv_eq (n : Nat) (hn : 0 < n) (hm : 0 < (U32 - 1) / n) :
    nextNDiv n = (U32 - 1) / n := by
  set m := (U32 - 1) / n with hmdef
  have hrange : nextNRange n = n * m := nextNRange_eq n hn
  unfold nextNDiv
  rw [hrange]
  have hsub : (m - 1) * n = m * n - n := Nat.sub_one_mul m n
  have hge : n ≤ m * n := Nat.le_mul_of_pos_left n hm
  have hcomm : n * m = m * n := Nat.mul_comm n m
  have hdiv : (n * m - 1) / n = m - 1 := by
    apply Nat.div_eq_of_lt_le
    · omega
    · have : (m - 1 + 1) * n = (m - 1) * n + n := by ring
      omega
  rw [hdiv]
  omega

lemma nextNMap_lt (n v : Nat) (hn : 0 < n) (hm : 0 < (U32 - 1) / n)
    (hv : v < nextNRange n) : nextNMap n v < n := by
  unfold nextNMap
  rw [nextNDiv_eq n hn hm]
  rw [Nat.div_lt_iff_lt_mul hm]
  rw [nextNRange_eq n hn] at hv
  exact hv

/-- Fueled rejection sampling always lands in `[0, n)`. -/
lemma nextNGo_fst_lt (n : Nat) (hn : 0 < n) (hm : 0 < (U32 - 1) / n) :
    ∀ (fuel : Nat) (r : RNG), (nextNGo n fuel r).1 < n := by
  intro fuel
  induction fuel with
  | zero => intro r; exact Nat.mod_lt _ hn
  | succ f ih =>
      intro r
      simp only [nextNGo]
      split
      · exact nextNMap_lt n _ hn hm (by assumption)
      · exact ih _

lemma nextN_fst_lt (r : RNG) (n : Nat) (hn : 0 < n) (hn2 : n ≤ U32 - 1) :
    (r.next_n n).1 < n := by
  have hm : 0 < (U32 - 1) / n := Nat.one_le_div_iff hn |>.mpr hn2
  exact nextNGo_fst_lt n hn hm 64 r

/-- Each result in `[0, n)` has exactly `(2^32-1)/n` accepted raw draws
mapping to it. -/
lemma nextNMap_uniform (n r : Nat) (hn : 0 < n) (hm : 0 < (U32 - 1) / n)
    (hr : r < n) :
    ((Finset.range (nextNRange n)).filter fun v => nextNMap n v = r).card
      = (U32 - 1) / n := by
  set m := (U32 - 1) / n with hmdef
  have hrange : nextNRange n = n * m := nextNRange_eq n hn
  have hmap : ∀ v, nextNMap n v = v / m := by
    intro v
    unfold nextNMap
    rw [nextNDiv_eq n hn hm]
  have hset : ((Finset.range (nextNRange n)).filter fun v => nextNMap n v = r)
      = Finset.Ico (r * m) ((r + 1) * m) := by
    ext v
    simp only [Finset.mem_filter, Finset.mem_range, Finset.mem_Ico, hmap,
      div_eq_iff_of_pos hm]
    constructor
    · rintro ⟨-, h1, h2⟩
      exact ⟨h1, h2⟩
    · rintro ⟨h1, h2⟩
      refine ⟨?_, h1, h2⟩
      calc v < (r + 1) * m := h2
        _ ≤ n * m := Nat.mul_le_mul_right m hr
        _ = nextNRange n := hrange.symm

  rw [hset, Nat.card_Ico]
  have : (r + 1) * m = r * m + m := by ring
  omega

/-! ## Claim C6 -/

/-- **Claim C6, as stated, is false**: it places the rejection threshold
at the largest multiple of `n` that is `≤ 2^32`.  For `n = 2` that
multiple is `2^32` itself, so no draw would be rejected, but the code's
threshold is `UINT32_MAX - (UINT32_MAX % 2) = 2^32 - 2`: the raw draw
`2^32 - 2` is rejected by the code yet lies below the claim's
threshold. -/
theorem C6_counterexample :
    nextNRange 2 = 2 ^ 32 - 2 ∧
    2 ^ 32 / 2 * 2 = 2 ^ 32 ∧
    ¬ (2 ^ 32 - 2) < nextNRange 2 ∧
    (2 ^ 32 - 2) < 2 ^ 32 / 2 * 2 := by
  refine ⟨by norm_num [nextNRange, U32], by norm_num, by norm_num [nextNRange, U32], by norm_num⟩

/-- **Claim C6 (amended)**: for `1 ≤ n ≤ 2^31 - 1` (a positive C `int`
bound), `next_n` returns a value in `[0, n)`; the rejection threshold is
the largest multiple of `n` that is `≤ 2^32 - 1` (`UINT32_MAX`), i.e.
`range ≤ 2^32 - 1 < range + n` with `n ∣ range`; and the map from
accepted raw draws to results sends exactly `(2^32-1)/n` raw values to
each result in `[0, n)`. -/
theorem C6_next_n_rejection (n : Nat) (hn : 0 < n) (hint : n ≤ 2 ^ 31 - 1) :
    (∀ r : RNG, (r.next_n n).1 < n) ∧
    nextNRange n = (U32 - 1) / n * n ∧
    nextNRange n ≤ U32 - 1 ∧
    U32 - 1 < nextNRange n + n ∧
    (∀ r : Nat, r < n →
      ((Finset.range (nextNRange n)).filter fun v => nextNMap n v = r).card
        = (U32 - 1) / n) := by
  have hn2 : n ≤ U32 - 1 := by unfold U32; omega
  have hm : 0 < (U32 - 1) / n := Nat.one_le_div_iff hn |>.mpr hn2
  have hma := Nat.mod_add_div (U32 - 1) n
  have hml := Nat.mod_lt (U32 - 1) hn
  refine ⟨fun r => nextN_fst_lt r n hn hn2, ?_, ?_, ?_, ?_⟩
  · rw [nextNRange_eq n hn, Nat.mul_comm]
  · unfold nextNRange
    omega
  · unfold nextNRange
    omega
  · intro r hr
    exact nextNMap_uniform n r hn hm hr

/-- Witness for C6 at `n = 10` (the tile-tier draw). -/
theorem C6_next_n_rejection_witness :
    (0 : Nat) < 10 ∧ (10 : Nat) ≤ 2 ^ 31 - 1 ∧
    ((∀ r : RNG, (r.next_n 10).1 < 10) ∧
      nextNRange 10 = (U32 - 1) / 10 * 10 ∧
      nextNRange 10 ≤ U32 - 1 ∧
      U32 - 1 < nextNRange 10 + 10 ∧
      (∀ r : Nat, r < 10 →
        ((Finset.range (nextNRange 10)).filter fun v => nextNMap 10 v = r).card
          = (U32 - 1) / 10)) :=
  ⟨by norm_num, by norm_num, C6_next_n_rejection 10 (by norm_num) (by norm_num)⟩

lemma placeGo_succ (c : Nat) (free b : List Nat) (rng : RNG)
    (h : ¬ free.length = 0) :
    placeGo (c + 1) free b rng
      = placeGo c (free.eraseIdx ((rng.next_n 10).2.next_n free.length).1)
          (b.set (free.getD ((rng.next_n 10).2.next_n free.length).1 0)
            (if (rng.next_n 10).1 < 9 then 1 else 2))
          ((rng.next_n 10).2.next_n free.length).2 := by
  simp only [placeGo, if_neg h]

/-- **Claim C5**: on a board with at least two free cells,
`place(2, rng)` and `place(1, rng); place(1, rng)` produce the same
final board and the same final generator state: the free-slot list
maintained by shift-down removal coincides with the free list the second
`place` call recomputes from the updated board. -/
theorem C5_place_two_eq_sequential (b : List Nat) (rng : RNG)
    (hb : b.length = 16) (hfree : 2 ≤ (count_free b).length) :
    place b 2 rng = place (place b 1 rng).1 1 (place b 1 rng).2 := by
  have hnz : ¬ ((count_free b).length = 0) := by omega
  have h16 : (count_free b).length ≤ 16 := by
    unfold count_free
    exact (List.length_filter_le _ _).trans (by simp)
  set W := ((rng.next_n 10).2.next_n (count_free b).length).1 with hWdef
  set R2 := ((rng.next_n 10).2.next_n (count_free b).length).2 with hR2def
  set V1 : Nat := if (rng.next_n 10).1 < 9 then 1 else 2 with hV1def
  have hwlt : W < (count_free b).length := by
    rw [hWdef]
    exact nextN_fst_lt _ _ (by omega) (by unfold U32; omega)
  have hv1nz : V1 ≠ 0 := by rw [hV1def]; split <;> simp
  set B1 := b.set ((count_free b).getD W 0) V1 with hB1def
  have hcf : count_free B1 = (count_free b).eraseIdx W :=
    count_free_set b hb W V1 hv1nz hwlt
  have h1 : place b 1 rng = (B1, R2) := by
    calc place b 1 rng
        = placeGo (0 + 1) (count_free b) b rng := rfl
      _ = placeGo 0 ((count_free b).eraseIdx W) B1 R2 :=
          placeGo_succ 0 (count_free b) b rng hnz
      _ = (B1, R2) := rfl
  calc place b 2 rng
      = placeGo (1 + 1) (count_free b) b rng := rfl
    _ = placeGo 1 ((count_free b).eraseIdx W) B1 R2 :=
        placeGo_succ 1 (count_free b) b rng hnz
    _ = placeGo 1 (count_free B1) B1 R2 := by rw [hcf]
    _ = place B1 1 R2 := rfl
    _ = place (place b 1 rng).1 1 (place b 1 rng).2 := by rw [h1]

/-- Witness for C5 on an empty board. -/
theorem C5_place_two_eq_sequential_witness :
    (List.replicate 16 0 : List Nat).length = 16 ∧
    2 ≤ (count_free (List.replicate 16 0)).length ∧
    place (List.replicate 16 0) 2 (RNG.reset 1)
      = place (place (List.replicate 16 0) 1 (RNG.reset 1)).1 1
          (place (List.replicate 16 0) 1 (RNG.reset 1)).2 :=
  ⟨by decide, by decide,
    C5_place_two_eq_sequential _ (RNG.reset 1) (by decide) (by decide)⟩

/-! ## Claim C3: the undo/redo counter invariant

`BoardHistory::move` bumps `undo_avail` under the test
`undo_avail < MAX_UNDO`, so `undo_avail` can reach `MAX_UNDO = 4096`
itself, not `MAX_UNDO - 1` as the spec requires. -/

/-- **Claim C3 is violated by the code** (the cap is off by one): from a
history state satisfying the claimed invariant with
`undo_avail = MAX_UNDO - 1` — the state reached after 4095 committed
moves — one more committed move yields
`undo_avail + redo_avail = MAX_UNDO > MAX_UNDO - 1`.  With
`undo_avail = MAX_UNDO` the 4096th undo wraps the ring all the way back
to the newest snapshot's slot, so the claimed cap is the correct
behaviour and the code's `undo_avail < MAX_UNDO` test is a slip. -/
theorem C3_undo_cap_reaches_capacity :
    ∃ (h : BoardHistory) (dir : Nat),
      h.undo_avail + h.redo_avail = MAX_UNDO - 1 ∧
      ((h.move dir).undo_avail + (h.move dir).redo_avail = MAX_UNDO) := by
  refine ⟨⟨fun _ => ⟨[1,1,0,0, 0,0,0,0, 0,0,0,0, 0,0,0,0], RNG.reset 1, 0⟩,
    0, MAX_UNDO - 1, 0⟩, 0, by decide, ?_⟩
  have hmoved : ((⟨[1,1,0,0, 0,0,0,0, 0,0,0,0, 0,0,0,0], RNG.reset 1, 0⟩ :
      HistoryState).move 0).2 = true := by decide
  simp only [BoardHistory.move, hmoved, if_pos]
  decide

/-! ## BoardCache (template class BoardCache, tiles2048.cpp lines 536-710)

`pack_board_state` packs the sixteen 4-bit cells into a `uint64_t`
(most-significant nibble first), `mix64` is the avalanche hash, and the
cache is `BUCKET_COUNT = 4096` buckets of `BUCKET_SIZE = 8` slots,
modelled as `Nat → List (Nat × V)` with `calloc`-zeroed slots
`(0, nil)`. -/

def U64 : Nat := 2 ^ 64

/-- `pack_board_state` (tiles2048.cpp lines 536-544):
`k = (k << 4) | state[i]` over the sixteen cells. -/
def pack_board_state (b : List Nat) : Nat :=
  (List.range 16).foldl (fun k i => ((k * 16) % U64) ||| b.getD i 0) 0

/-- `mix64` (tiles2048.cpp lines 557-567), 64-bit arithmetic modelled
`% 2^64`; `~key` is `2^64 - 1 - key`. -/
def mix64 (key : Nat) : Nat :=
  let k0 := key % U64
  let k1 := ((U64 - 1 - k0) + ((k0 <<< 21) % U64)) % U64
  let k2 := k1 ^^^ (k1 >>> 24)
  let k3 := (k2 * 265) % U64
  let k4 := k3 ^^^ (k3 >>> 14)
  let k5 := (k4 * 21) % U64
  let k6 := k5 ^^^ (k5 >>> 28)
  (k6 + ((k6 <<< 31) % U64)) % U64

def BUCKET_SIZE : Nat := 8

def BUCKET_COUNT : Nat := 4096

/-- A cache is an array of buckets; `where(k)` selects the bucket via
`mix64(k) & BUCKET_INDEX_MASK`. -/
def BoardCache (V : Type) : Type := Nat → List (Nat × V)

/-- `BoardCache::where(k)`. -/
def cacheWhere (k : Nat) : Nat := mix64 k &&& (BUCKET_COUNT - 1)

/-- The freshly `calloc`ed cache: every slot key 0, zeroed value. -/
def emptyCache {V : Type} (nil : V) : BoardCache V :=
  fun _ => List.replicate BUCKET_SIZE (0, nil)

/-- `BoardCache::get(k, where)`: linear scan for an exact key match. -/
def bucket_get {V : Type} (bu : List (Nat × V)) (k : Nat) : Option V :=
  (bu.find? fun e => e.1 = k).map (·.2)

/-- Overwrite the first slot holding `k` (the keys already match, only
the value is stored). -/
def overwriteFirst {V : Type} : List (Nat × V) → Nat → V → List (Nat × V)
  | [], _, _ => []
  | e :: rest, k, v => if e.1 = k then (k, v) :: rest else e :: overwriteFirst rest k v

/-- `BoardCache::put(k, where, v)`: overwrite in place on a key match,
otherwise insert at slot 0, shifting every other slot down one and
dropping the last. -/
def bucket_put {V : Type} (bu : List (Nat × V)) (k : Nat) (v : V) : List (Nat × V) :=
  if bu.any (fun e => e.1 = k) then overwriteFirst bu k v
  else ((k, v) :: bu).take BUCKET_SIZE

/-- `get` through the location handle. -/
def cache_get {V : Type} (c : BoardCache V) (k : Nat) : Option V :=
  bucket_get (c (cacheWhere k)) k

/-- `put` through the location handle. -/
def cache_put {V : Type} (c : BoardCache V) (k : Nat) (v : V) : BoardCache V :=
  fun i => if i = cacheWhere k then bucket_put (c (cacheWhere k)) k v else c i

/-- Insert a list of (key, value) pairs in order. -/
def putList {V : Type} (c : BoardCache V) (ps : List (Nat × V)) : BoardCache V :=
  ps.foldl (fun c p => cache_put c p.1 p.2) c

/-! ### Cache lemmas for claim C7 -/

lemma bucket_get_overwriteFirst {V : Type} (k : Nat) (v : V) :
    ∀ (bu : List (Nat × V)), bu.any (fun e => e.1 = k) →
    bucket_get (overwriteFirst bu k v) k = some v := by
  intro bu
  induction bu with
  | nil => intro h; simp at h
  | cons e rest ih =>
      intro h
      by_cases he : e.1 = k
      · simp [overwriteFirst, he, bucket_get, List.find?]
      · simp only [overwriteFirst, if_neg he]
        have hrest : rest.any (fun e => e.1 = k) := by
          simp only [List.any_cons] at h
          rcases Bool.or_eq_true_iff.mp h with h' | h'
          · exact absurd (by simpa using h') he
          · exact h'
        simp only [bucket_get, List.find?, decide_eq_false he]
        simpa [bucket_get] using ih hrest

/-- put followed by get returns the stored value, for every bucket
state. -/
lemma bucket_put_get {V : Type} (bu : List (Nat × V)) (k : Nat) (v : V) :
    bucket_get (bucket_put bu k v) k = some v := by
  unfold bucket_put
  split
  · exact bucket_get_overwriteFirst k v bu (by assumption)
  · rw [show BUCKET_SIZE = 7 + 1 from rfl, List.take_succ_cons]
    simp [bucket_get, List.find?]

lemma bucket_put_fresh {V : Type} (bu : List (Nat × V)) (k : Nat) (v : V)
    (h : ∀ e ∈ bu, e.1 ≠ k) :
    bucket_put bu k v = ((k, v) :: bu).take BUCKET_SIZE := by
  have hfalse : bu.any (fun e => e.1 = k) = false := by
    rw [List.any_eq_false]
    intro e he
    simpa using h e he
  unfold bucket_put
  rw [if_neg (by simp [hfalse])]

lemma take_append_take (n : Nat) (xs ys : List α) :
    (xs ++ ys.take n).take n = (xs ++ ys).take n := by
  rw [List.take_append_eq_append_take, List.take_append_eq_append_take,
    List.take_take]
  congr 1
  rw [Nat.min_eq_left (by omega)]

/-- Folding fresh inserts over a bucket keeps the most recent
`BUCKET_SIZE` entries, newest first. -/
lemma foldl_bucket_put_fresh {V : Type} :
    ∀ (ps : List (Nat × V)) (bu : List (Nat × V)),
    bu.length ≤ BUCKET_SIZE →
    (∀ p ∈ ps, ∀ e ∈ bu, e.1 ≠ p.1) →
    (ps.map Prod.fst).Nodup →
    ps.foldl (fun b p => bucket_put b p.1 p.2) bu
      = (ps.reverse ++ bu).take BUCKET_SIZE := by
  intro ps
  induction ps with
  | nil =>
      intro bu hlen _ _
      simp [List.take_of_length_le hlen]
  | cons p ps' ih =>
      intro bu hlen hfresh hnd
      simp only [List.foldl_cons]
      rw [bucket_put_fresh bu p.1 p.2 (fun e he => hfresh p (by simp) e he)]
      have hnd' : (p.1 :: ps'.map Prod.fst).Nodup := by
        rw [← List.map_cons]
        exact hnd
      obtain ⟨hhead, htail⟩ := List.nodup_cons.mp hnd'
      rw [ih (((p.1, p.2) :: bu).take BUCKET_SIZE)
        (List.length_take_le BUCKET_SIZE _) ?fresh htail]
      case fresh =>
        intro q hq e he
        have he' : e ∈ (p.1, p.2) :: bu := List.take_subset _ _ he
        rcases List.mem_cons.mp he' with rfl | he''
        · intro hcontra
          exact hhead (by
            rw [hcontra]
            exact List.mem_map.mpr ⟨q, hq, rfl⟩)
        · exact hfresh q (by simp [hq]) e he''
      · rw [take_append_take, List.reverse_cons, List.append_assoc]
        rfl

lemma putList_apply {V : Type} :
    ∀ (ps : List (Nat × V)) (c : BoardCache V) (w : Nat),
    (∀ p ∈ ps, cacheWhere p.1 = w) →
    (putList c ps) w = ps.foldl (fun bu p => bucket_put bu p.1 p.2) (c w) ∧
    (∀ i, i ≠ w → (putList c ps) i = c i) := by
  intro ps
  induction ps with
  | nil => intro c w _; exact ⟨rfl, fun _ _ => rfl⟩
  | cons p ps' ih =>
      intro c w hw
      have hp : cacheWhere p.1 = w := hw p (by simp)
      have hstep : ∀ i, (cache_put c p.1 p.2) i
          = if i = w then bucket_put (c w) p.1 p.2 else c i := by
        intro i
        simp only [cache_put, hp]
      obtain ⟨ih1, ih2⟩ := ih (cache_put c p.1 p.2) w
        (fun q hq => hw q (by simp [hq]))
      constructor
      · show (putList (cache_put c p.1 p.2) ps') w = _
        rw [ih1, hstep w, if_pos rfl]
        rfl
      · intro i hi
        show (putList (cache_put c p.1 p.2) ps') i = c i
        rw [ih2 i hi, hstep i, if_neg hi]

lemma bucket_get_eq_none {V : Type} (B : List (Nat × V)) (k : Nat)
    (h : ∀ e ∈ B, e.1 ≠ k) : bucket_get B k = none := by
  unfold bucket_get
  rw [List.find?_eq_none.mpr]
  · rfl
  · intro e he
    simpa using h e he

lemma bucket_get_of_mem_nodup {V : Type} :
    ∀ (B : List (Nat × V)) (k : Nat) (v : V),
    (B.map Prod.fst).Nodup → (k, v) ∈ B → bucket_get B k = some v := by
  intro B
  induction B with
  | nil => intro k v _ hm; cases hm
  | cons e rest ih =>
      intro k v hnd hm
      have hnd' : (e.1 :: rest.map Prod.fst).Nodup := by
        rw [← List.map_cons]
        exact hnd
      obtain ⟨hhead, htail⟩ := List.nodup_cons.mp hnd'
      rcases List.mem_cons.mp hm with rfl | hm'
      · simp [bucket_get, List.find?]
      · have hek : e.1 ≠ k := by
          intro hcontra
          exact hhead (by
            rw [hcontra]
            exact List.mem_map.mpr ⟨(k, v), hm', rfl⟩)
        simp only [bucket_get, List.find?, decide_eq_false hek]
        simpa [bucket_get] using ih k v htail hm'

/-- **Claim C7**: `put(k, where(k), v)` immediately followed by
`get(k, where(k))` returns `v` from any cache state; and after
inserting `BUCKET_SIZE + 1` distinct (non-zero, as the `assert(k)`
contract requires) keys that hash to one bucket into a fresh cache, the
first-inserted (least-recently-touched) key is no longer retrievable
while the eight more recent ones all are. -/
theorem C7_cache_put_get_lru :
    (∀ (V : Type) (c : BoardCache V) (k : Nat) (v : V),
        cache_get (cache_put c k v) k = some v) ∧
    (∀ (V : Type) (nil : V) (p1 : Nat × V) (tl : List (Nat × V)),
        ((p1 :: tl).map Prod.fst).Nodup →
        (∀ p ∈ p1 :: tl, p.1 ≠ 0) →
        (∀ p ∈ p1 :: tl, cacheWhere p.1 = cacheWhere p1.1) →
        tl.length = BUCKET_SIZE →
        cache_get (putList (emptyCache nil) (p1 :: tl)) p1.1 = none ∧
        (∀ p ∈ tl,
          cache_get (putList (emptyCache nil) (p1 :: tl)) p.1 = some p.2)) := by
  constructor
  · intro V c k v
    unfold cache_get cache_put
    rw [if_pos rfl]
    exact bucket_put_get _ k v
  · intro V nil p1 tl hnd hnz hhash hlen
    obtain ⟨hhead, htail⟩ : p1.1 ∉ tl.map Prod.fst ∧ (tl.map Prod.fst).Nodup := by
      constructor
      · exact (List.nodup_cons.mp (by simpa using hnd)).1
      · exact (List.nodup_cons.mp (by simpa using hnd)).2
    obtain ⟨hA, -⟩ := putList_apply (p1 :: tl) (emptyCache nil) (cacheWhere p1.1)
      (fun p hp => hhash p hp)
    have hB : (putList (emptyCache nil) (p1 :: tl)) (cacheWhere p1.1)
        = tl.reverse := by
      rw [hA, foldl_bucket_put_fresh (p1 :: tl) _ (by simp [emptyCache, BUCKET_SIZE])
        ?fresh (by simpa using hnd)]
      case fresh =>
        intro p hp e he
        have : e = (0, nil) := List.eq_of_mem_replicate he
        rw [this]
        exact fun hc => (hnz p hp) hc.symm
      rw [List.reverse_cons, List.append_assoc,
        List.take_append_of_le_length (by simp [hlen, BUCKET_SIZE]),
        List.take_of_length_le (by simp [hlen])]
    refine ⟨?_, ?_⟩
    · unfold cache_get
      rw [hB]
      apply bucket_get_eq_none
      intro e he
      intro hc
      exact hhead (by
        rw [← hc]
        exact List.mem_map.mpr ⟨e, List.mem_reverse.mp he, rfl⟩)
    · intro p hp
      unfold cache_get
      rw [hhash p (by simp [hp]), hB]
      exact bucket_get_of_mem_nodup tl.reverse p.1 p.2
        (by rw [List.map_reverse]; exact List.nodup_reverse.mpr htail)
        (by rw [List.mem_reverse]; simpa using hp)

/-- Witness for C7: nine concrete keys that all hash to bucket 4060. -/
theorem C7_cache_put_get_lru_witness :
    (([(611, 101), (613, 102), (1480, 103), (2135, 104), (4759, 105),
        (5012, 106), (6119, 107), (6909, 108), (7694, 109)] :
        List (Nat × Nat)).map Prod.fst).Nodup ∧
    (∀ p ∈ ([(611, 101), (613, 102), (1480, 103), (2135, 104), (4759, 105),
        (5012, 106), (6119, 107), (6909, 108), (7694, 109)] :
        List (Nat × Nat)), p.1 ≠ 0) ∧
    (∀ p ∈ ([(611, 101), (613, 102), (1480, 103), (2135, 104), (4759, 105),
        (5012, 106), (6119, 107), (6909, 108), (7694, 109)] :
        List (Nat × Nat)), cacheWhere p.1 = cacheWhere 611) ∧
    (cache_get (putList (emptyCache 0) ([(611, 101), (613, 102), (1480, 103),
        (2135, 104), (4759, 105), (5012, 106), (6119, 107), (6909, 108),
        (7694, 109)] : List (Nat × Nat))) 611 = none ∧
      (∀ p ∈ ([(613, 102), (1480, 103), (2135, 104), (4759, 105), (5012, 106),
          (6119, 107), (6909, 108), (7694, 109)] : List (Nat × Nat)),
        cache_get (putList (emptyCache 0) ([(611, 101), (613, 102), (1480, 103),
          (2135, 104), (4759, 105), (5012, 106), (6119, 107), (6909, 108),
          (7694, 109)] : List (Nat × Nat))) p.1 = some p.2)) := by
  refine ⟨by decide, by decide, by decide, ?_⟩
  exact (C7_cache_put_get_lru.2 Nat 0 (611, 101)
    [(613, 102), (1480, 103), (2135, 104), (4759, 105), (5012, 106),
      (6119, 107), (6909, 108), (7694, 109)]
    (by decide) (by decide) (by decide) (by decide))

/-! ## The searcher family (tiles2048.cpp lines 712-1098)

Scores are C `int`s, modelled as `Int` (the code only copies and
compares them).  The cooperative cancellation flag is modelled by an
oracle `o : Nat → Bool` giving the value returned by the `n`-th read of
the flag during one search; a time counter threads through every
function, each `cancelled()` call reading `o t` and advancing to
`t + 1`.  A flag that is only ever set during the search corresponds to
a monotone oracle; an uncancelled run is the constantly-false oracle.
The `num_moves` statistics counter and the `PRINT_CACHE_STATS` footers
have no behavioural effect and are not modelled. -/

def INT_MIN : Int := -2147483648

def INT_MAX : Int := 2147483647

def Evaluator : Type := List Nat → Int

/-- The never-cancelled oracle. -/
def noCancel : Nat → Bool := fun _ => false

/-- `Searcher::search` (tiles2048.cpp lines 724-735): reset the state,
run the virtual `do_search`, and if the flag was observed set, return
the `INT_MIN` sentinel with `best_first_move` still `-1`; otherwise
publish the score and move.  Generic in `do_search`, exactly as the
base class is. -/
def searchWrapper (do_search : List Nat → RNG → Nat → Nat → Int × Int × Nat)
    (o : Nat → Bool) (b : List Nat) (rng : RNG) (lookahead t : Nat) :
    Int × Int × Nat :=
  let r := do_search b rng lookahead t
  if o r.2.2 then (INT_MIN, -1, r.2.2 + 1) else (r.1, r.2.1, r.2.2 + 1)

section Searchers

variable (ev : Evaluator) (o : Nat → Bool)

/-! ### SearcherNaiveMinimax (tiles2048.cpp lines 787-835)

`do_search_real` returns the best score and (at the top level) writes
the best first move; the model returns `(score, move, time)` with
`move = -1` where the source leaves the output `-1`. -/

mutual

def naiveGo (d : Nat) (b : List Nat) (t : Nat) : Int × Int × Nat :=
  match d with
  | 0 => if o t then (INT_MIN, -1, t + 1) else (ev b, -1, t + 1)
  | d' + 1 =>
      if (d' + 1) % 2 = 1 then
        let r := naiveMiniLoop d' b (List.range 16) t INT_MAX
        (r.1, -1, r.2)
      else
        let r := naiveMaxiLoop d' b [0, 1, 2, 3] t INT_MIN (-1)
        (r.1, r.2.1, r.2.2)
  termination_by (d, 0, 0)

def naiveMiniLoop (d' : Nat) (b : List Nat) (cells : List Nat) (t : Nat)
    (best : Int) : Int × Nat :=
  match cells with
  | [] => (best, t)
  | i :: rest =>
      if b.getD i 0 ≠ 0 then naiveMiniLoop d' b rest t best
      else
        let r1 := naiveGo d' (b.set i 1) t
        if o r1.2.2 then (INT_MIN, r1.2.2 + 1)
        else
          let best1 := if r1.1 < best then r1.1 else best
          let r2 := naiveGo d' (b.set i 2) (r1.2.2 + 1)
          if o r2.2.2 then (INT_MIN, r2.2.2 + 1)
          else
            let best2 := if r2.1 < best1 then r2.1 else best1
            naiveMiniLoop d' b rest (r2.2.2 + 1) best2
  termination_by (d', 1, cells.length)

def naiveMaxiLoop (d' : Nat) (b : List Nat) (dirs : List Nat) (t : Nat)
    (best mv : Int) : Int × Int × Nat :=
  match dirs with
  | [] => (best, mv, t)
  | i :: rest =>
      let tl := tiltDir b i
      if tl.moved = false then naiveMaxiLoop d' b rest t best mv
      else
        let r := naiveGo d' tl.out t
        if o r.2.2 then (INT_MIN, mv, r.2.2 + 1)
        else if r.1 > best then naiveMaxiLoop d' b rest (r.2.2 + 1) r.1 i
        else naiveMaxiLoop d' b rest (r.2.2 + 1) best mv
  termination_by (d', 1, dirs.length)

end

/-- `SearcherNaiveMinimax::do_search`: `do_search_real(board, lookahead*2,
move)`. -/
def searchNaive (b : List Nat) (rng : RNG) (lookahead t : Nat) :
    Int × Int × Nat :=
  searchWrapper (fun b _ L t => naiveGo ev o (L * 2) b t) o b rng lookahead t

/-! ### SearcherAlphaBeta (tiles2048.cpp lines 837-889)

`do_search_maxi` returns the running `alpha` (and the move at the top),
`do_search_mini` the running `beta`; pruning returns early when
`alpha >= beta`.  A cancelled maxi node returns `INT_MIN`, a cancelled
mini node `INT_MAX` (the wrapper converts either to the sentinel). -/

mutual

def abMaxi (d : Nat) (b : List Nat) (alpha beta : Int) (t : Nat) :
    Int × Int × Nat :=
  match d with
  | 0 => if o t then (INT_MIN, -1, t + 1) else (ev b, -1, t + 1)
  | d' + 1 => abMaxiLoop d' b [0, 1, 2, 3] alpha beta t (-1)
  termination_by (d, 0, 0)

def abMaxiLoop (d' : Nat) (b : List Nat) (dirs : List Nat)
    (alpha beta : Int) (t : Nat) (mv : Int) : Int × Int × Nat :=
  match dirs with
  | [] => (alpha, mv, t)
  | i :: rest =>
      let tl := tiltDir b i
      if tl.moved = false then abMaxiLoop d' b rest alpha beta t mv
      else
        let r := abMini d' tl.out alpha beta t
        if o r.2 then (INT_MIN, mv, r.2 + 1)
        else
          let alpha' := if r.1 > alpha then r.1 else alpha
          let mv' := if r.1 > alpha then (i : Int) else mv
          if alpha' ≥ beta then (alpha', mv', r.2 + 1)
          else abMaxiLoop d' b rest alpha' beta (r.2 + 1) mv'
  termination_by (d', 3, dirs.length)

def abMini (e : Nat) (b : List Nat) (alpha beta : Int) (t : Nat) :
    Int × Nat :=
  match e with
  | 0 => abMiniLoop 0 b (List.range 16) alpha beta t
  | e' + 1 => abMiniLoop e' b (List.range 16) alpha beta t
  termination_by (e, 2, 0)

def abMiniLoop (e' : Nat) (b : List Nat) (cells : List Nat)
    (alpha beta : Int) (t : Nat) : Int × Nat :=
  match cells with
  | [] => (beta, t)
  | i :: rest =>
      if b.getD i 0 ≠ 0 then abMiniLoop e' b rest alpha beta t
      else
        let r1 := abMaxi e' (b.set i 1) alpha beta t
        let beta1 := if r1.1 < beta then r1.1 else beta
        if o r1.2.2 then (INT_MAX, r1.2.2 + 1)
        else if alpha ≥ beta1 then (beta1, r1.2.2 + 1)
        else
          let r2 := abMaxi e' (b.set i 2) alpha beta1 (r1.2.2 + 1)
          let beta2 := if r2.1 < beta1 then r2.1 else beta1
          if o r2.2.2 then (INT_MAX, r2.2.2 + 1)
          else if alpha ≥ beta2 then (beta2, r2.2.2 + 1)
          else abMiniLoop e' b rest alpha beta2 (r2.2.2 + 1)
  termination_by (e', 0, cells.length)

end

/-- `SearcherAlphaBeta::do_search`: full window, doubled lookahead. -/
def searchAB (b : List Nat) (rng : RNG) (lookahead t : Nat) :
    Int × Int × Nat :=
  searchWrapper (fun b _ L t => abMaxi ev o (L * 2) b INT_MIN INT_MAX t) o
    b rng lookahead t

/-! ### SearcherCachingMinimax (tiles2048.cpp lines 891-971) -/

/-- `SearcherCachingMinimax::Info`. -/
structure InfoMM where
  lookahead : Nat
  score : Int
deriving Repr, DecidableEq

/-- `calloc` zero of `Info`. -/
def InfoMM.zero : InfoMM := ⟨0, 0⟩

/-- Result of one caching-minimax node. -/
structure CmmR where
  score : Int
  mv : Int
  t : Nat
  c : BoardCache InfoMM

/-- Result of one caching-minimax loop: `completed = false` means the
loop returned early on a cancellation check (no `cache.put` happens). -/
structure CmmLoopR where
  score : Int
  mv : Int
  t : Nat
  c : BoardCache InfoMM
  completed : Bool

mutual

def cmmGo (d : Nat) (b : List Nat) (t : Nat) (c : BoardCache InfoMM) : CmmR :=
  let k := pack_board_state b
  match h : cache_get c k with
  | some info =>
      if info.lookahead = d then ⟨info.score, -1, t, c⟩
      else cmmBody d b t c k
  | none => cmmBody d b t c k
  termination_by (d, 1, 0)

def cmmBody (d : Nat) (b : List Nat) (t : Nat) (c : BoardCache InfoMM)
    (k : Nat) : CmmR :=
  match d with
  | 0 =>
      if o t then ⟨INT_MIN, -1, t + 1, c⟩
      else
        let s := ev b
        ⟨s, -1, t + 1, cache_put c k ⟨0, s⟩⟩
  | d' + 1 =>
      if (d' + 1) % 2 = 1 then
        let r := cmmMiniLoop d' b (List.range 16) t INT_MAX c
        if r.completed then
          ⟨r.score, -1, r.t, cache_put r.c k ⟨d' + 1, r.score⟩⟩
        else ⟨r.score, -1, r.t, r.c⟩
      else
        let r := cmmMaxiLoop d' b [0, 1, 2, 3] t INT_MIN (-1) c
        if r.completed then
          ⟨r.score, r.mv, r.t, cache_put r.c k ⟨d' + 1, r.score⟩⟩
        else ⟨r.score, r.mv, r.t, r.c⟩
  termination_by (d, 0, 1)

def cmmMiniLoop (d' : Nat) (b : List Nat) (cells : List Nat) (t : Nat)
    (best : Int) (c : BoardCache InfoMM) : CmmLoopR :=
  match cells with
  | [] => ⟨best, -1, t, c, true⟩
  | i :: rest =>
      if b.getD i 0 ≠ 0 then cmmMiniLoop d' b rest t best c
      else
        let r1 := cmmGo d' (b.set i 1) t c
        if o r1.t then ⟨INT_MAX, -1, r1.t + 1, r1.c, false⟩
        else
          let best1 := if r1.score < best then r1.score else best
          let r2 := cmmGo d' (b.set i 2) (r1.t + 1) r1.c
          if o r2.t then ⟨INT_MAX, -1, r2.t + 1, r2.c, false⟩
          else
            let best2 := if r2.score < best1 then r2.score else best1
            cmmMiniLoop d' b rest (r2.t + 1) best2 r2.c
  termination_by (d', 2, cells.length)

def cmmMaxiLoop (d' : Nat) (b : List Nat) (dirs : List Nat) (t : Nat)
    (best mv : Int) (c : BoardCache InfoMM) : CmmLoopR :=
  match dirs with
  | [] => ⟨best, mv, t, c, true⟩
  | i :: rest =>
      let tl := tiltDir b i
      if tl.moved = false then cmmMaxiLoop d' b rest t best mv c
      else
        let r := cmmGo d' tl.out t c
        if o r.t then ⟨INT_MIN, mv, r.t + 1, r.c, false⟩
        else if r.score > best then cmmMaxiLoop d' b rest (r.t + 1) r.score i r.c
        else cmmMaxiLoop d' b rest (r.t + 1) best mv r.c
  termination_by (d', 2, dirs.length)

end

/-- `SearcherCachingMinimax::do_search`: reset the cache, run at doubled
lookahead. -/
def searchCMM (b : List Nat) (rng : RNG) (lookahead t : Nat) :
    Int × Int × Nat :=
  searchWrapper
    (fun b _ L t =>
      let r := cmmGo ev o (L * 2) b t (emptyCache InfoMM.zero)
      (r.score, r.mv, r.t))
    o b rng lookahead t

/-! ### SearcherCachingAlphaBeta (tiles2048.cpp lines 973-1096) -/

end Searchers

/-- `SearcherCachingAlphaBeta::Info`; `type` is the enum
`SCORE_UNKNOWN = 0, SCORE_EXACT = 1, SCORE_LOWER_BOUND = 2,
SCORE_UPPER_BOUND = 3`. -/
structure InfoAB where
  lookahead : Nat
  type : Nat
  score : Int
deriving Repr, DecidableEq

/-- `calloc` zero of `Info`. -/
def InfoAB.zero : InfoAB := ⟨0, 0, 0⟩

/-- `check_cached` (tiles2048.cpp lines 986-1000): a hit is valid if the
stored lookahead matches and the bound kind allows reuse at this
window. -/
def check_cached (cached : Option InfoAB) (alpha beta : Int) (d : Nat) :
    Option Int :=
  match cached with
  | none => none
  | some info =>
      if info.lookahead = d then
        if info.type = 1 then some info.score
        else if info.type = 3 then
          if info.score ≤ alpha then some info.score else none
        else if info.type = 2 then
          if info.score ≥ beta then some info.score else none
        else none
      else none

/-- Result of one caching-alpha-beta maxi node. -/
structure CabR where
  score : Int
  mv : Int
  t : Nat
  c : BoardCache InfoAB

/-- Result of one caching-alpha-beta mini node. -/
structure CabMR where
  score : Int
  t : Nat
  c : BoardCache InfoAB

/-- Result of the maxi loop body (up to `prune:`); `completed = false`
on a cancellation return (no `cache.put`). -/
structure CabLoopR where
  score : Int
  mv : Int
  ctype : Nat
  t : Nat
  c : BoardCache InfoAB
  completed : Bool

/-- Result of the mini loop body. -/
structure CabMLoopR where
  score : Int
  ctype : Nat
  t : Nat
  c : BoardCache InfoAB
  completed : Bool

section Searchers2

variable (ev : Evaluator) (o : Nat → Bool)

mutual

def cabMaxi (d : Nat) (b : List Nat) (alpha beta : Int) (t : Nat)
    (c : BoardCache InfoAB) : CabR :=
  let k := pack_board_state b
  match check_cached (cache_get c k) alpha beta d with
  | some s => ⟨s, -1, t, c⟩
  | none =>
      match d with
      | 0 =>
          if o t then ⟨INT_MIN, -1, t + 1, c⟩
          else
            let s := ev b
            ⟨s, -1, t + 1, cache_put c k ⟨0, 1, s⟩⟩
      | d' + 1 =>
          let r := cabMaxiLoop d' b [0, 1, 2, 3] alpha beta t (-1) 3 c
          if r.completed then
            ⟨r.score, r.mv, r.t, cache_put r.c k ⟨d' + 1, r.ctype, r.score⟩⟩
          else ⟨r.score, r.mv, r.t, r.c⟩
  termination_by (d, 0, 0)

def cabMaxiLoop (d' : Nat) (b : List Nat) (dirs : List Nat)
    (alpha beta : Int) (t : Nat) (mv : Int) (ctype : Nat)
    (c : BoardCache InfoAB) : CabLoopR :=
  match dirs with
  | [] => ⟨alpha, mv, ctype, t, c, true⟩
  | i :: rest =>
      let tl := tiltDir b i
      if tl.moved = false then cabMaxiLoop d' b rest alpha beta t mv ctype c
      else
        let r := cabMini d' tl.out alpha beta t c
        if o r.t then ⟨INT_MIN, mv, ctype, r.t + 1, r.c, false⟩
        else
          let alpha' := if r.score > alpha then r.score else alpha
          let mv' := if r.score > alpha then (i : Int) else mv
          let ctype' := if r.score > alpha then 1 else ctype
          if alpha' ≥ beta then ⟨alpha', mv', 2, r.t + 1, r.c, true⟩
          else cabMaxiLoop d' b rest alpha' beta (r.t + 1) mv' ctype' r.c
  termination_by (d', 3, dirs.length)

def cabMini (e : Nat) (b : List Nat) (alpha beta : Int) (t : Nat)
    (c : BoardCache InfoAB) : CabMR :=
  let k := pack_board_state b
  match check_cached (cache_get c k) alpha beta e with
  | some s => ⟨s, t, c⟩
  | none =>
      let r := match e with
        | 0 => cabMiniLoop 0 b (List.range 16) alpha beta t 2 c
        | e' + 1 => cabMiniLoop e' b (List.range 16) alpha beta t 2 c
      if r.completed then
        ⟨r.score, r.t, cache_put r.c k ⟨e, r.ctype, r.score⟩⟩
      else ⟨r.score, r.t, r.c⟩
  termination_by (e, 2, 0)

def cabMiniLoop (e' : Nat) (b : List Nat) (cells : List Nat)
    (alpha beta : Int) (t : Nat) (ctype : Nat) (c : BoardCache InfoAB) :
    CabMLoopR :=
  match cells with
  | [] => ⟨beta, ctype, t, c, true⟩
  | i :: rest =>
      if b.getD i 0 ≠ 0 then cabMiniLoop e' b rest alpha beta t ctype c
      else
        let r1 := cabMaxi e' (b.set i 1) alpha beta t c
        if o r1.t then ⟨INT_MAX, ctype, r1.t + 1, r1.c, false⟩
        else
          let beta1 := if r1.score < beta then r1.score else beta
          let ctype1 := if r1.score < beta then 1 else ctype
          if alpha ≥ beta1 then ⟨beta1, 3, r1.t + 1, r1.c, true⟩
          else
            let r2 := cabMaxi e' (b.set i 2) alpha beta1 (r1.t + 1) r1.c
            if o r2.t then ⟨INT_MAX, ctype1, r2.t + 1, r2.c, false⟩
            else
              let beta2 := if r2.score < beta1 then r2.score else beta1
              let ctype2 := if r2.score < beta1 then 1 else ctype1
              if alpha ≥ beta2 then ⟨beta2, 3, r2.t + 1, r2.c, true⟩
              else cabMiniLoop e' b rest alpha beta2 (r2.t + 1) ctype2 r2.c
  termination_by (e', 1, cells.length)

end

/-- `SearcherCachingAlphaBeta::do_search`: reset the cache, full window,
doubled lookahead. -/
def searchCAB (b : List Nat) (rng : RNG) (lookahead t : Nat) :
    Int × Int × Nat :=
  searchWrapper
    (fun b _ L t =>
      let r := cabMaxi ev o (L * 2) b INT_MIN INT_MAX t (emptyCache InfoAB.zero)
      (r.score, r.mv, r.t))
    o b rng lookahead t

/-! ### SearcherCheat (tiles2048.cpp lines 754-785): descends the real
board and generator, one concrete placement per ply. -/

mutual

def cheatGo (d : Nat) (b : List Nat) (rng : RNG) (t : Nat) :
    Int × Int × Nat :=
  match d with
  | 0 => if o t then (INT_MIN, -1, t + 1) else (ev b, -1, t + 1)
  | d' + 1 => cheatLoop d' b rng [0, 1, 2, 3] t INT_MIN (-1)
  termination_by (d, 0, 0)

def cheatLoop (d' : Nat) (b : List Nat) (rng : RNG) (dirs : List Nat)
    (t : Nat) (best mv : Int) : Int × Int × Nat :=
  match dirs with
  | [] => (best, mv, t)
  | i :: rest =>
      let m := move b i rng
      if m.2.1 = false then cheatLoop d' b rng rest t best mv
      else
        let r := cheatGo d' m.1 m.2.2.2 t
        if o r.2.2 then (INT_MIN, mv, r.2.2 + 1)
        else if r.1 > best then cheatLoop d' b rng rest (r.2.2 + 1) r.1 i
        else cheatLoop d' b rng rest (r.2.2 + 1) best mv
  termination_by (d', 1, dirs.length)

end

/-- `SearcherCheat::do_search` (lookahead not doubled). -/
def searchCheat (b : List Nat) (rng : RNG) (lookahead t : Nat) :
    Int × Int × Nat :=
  searchWrapper (fun b rng L t => cheatGo ev o L b rng t) o b rng lookahead t

end Searchers2

/-! Pure minimax value of the search tree explored by all four searcher
variants: even depths maximise over non-null tilts, odd depths minimise
over tile placements (value 1 then 2 in each free cell, ascending). -/

mutual

def mval (ev : Evaluator) (d : Nat) (b : List Nat) : Int :=
  match d with
  | 0 => ev b
  | d' + 1 =>
      if (d' + 1) % 2 = 1 then mvalMinList ev d' b (List.range 16) INT_MAX
      else (mvalMaxList ev d' b [0, 1, 2, 3] INT_MIN (-1)).1
  termination_by (d, 0, 0)

def mvalMinList (ev : Evaluator) (d' : Nat) (b : List Nat)
    (cells : List Nat) (best : Int) : Int :=
  match cells with
  | [] => best
  | i :: rest =>
      if b.getD i 0 ≠ 0 then mvalMinList ev d' b rest best
      else
        let s1 := mval ev d' (b.set i 1)
        let best1 := if s1 < best then s1 else best
        let s2 := mval ev d' (b.set i 2)
        mvalMinList ev d' b rest (if s2 < best1 then s2 else best1)
  termination_by (d', 1, cells.length)

def mvalMaxList (ev : Evaluator) (d' : Nat) (b : List Nat)
    (dirs : List Nat) (best mv : Int) : Int × Int :=
  match dirs with
  | [] => (best, mv)
  | i :: rest =>
      let tl := tiltDir b i
      if tl.moved = false then mvalMaxList ev d' b rest best mv
      else
        let s := mval ev d' tl.out
        if s > best then mvalMaxList ev d' b rest s i
        else mvalMaxList ev d' b rest best mv
  termination_by (d', 1, dirs.length)

end


theorem mval_bounds (ev : Evaluator)
    (hev : ∀ b, INT_MIN ≤ ev b ∧ ev b ≤ INT_MAX) :
    ∀ d b, INT_MIN ≤ mval ev d b ∧ mval ev d b ≤ INT_MAX := by
  intro d
  induction d using Nat.strong_induction_on with
  | _ d ih =>
    match d with
    | 0 => intro b; rw [mval]; exact hev b
    | d' + 1 =>
      intro b
      have hch : ∀ b', INT_MIN ≤ mval ev d' b' ∧ mval ev d' b' ≤ INT_MAX :=
        ih d' (Nat.lt_succ_self d')
      have hmin : ∀ cells best, INT_MIN ≤ best → best ≤ INT_MAX →
          INT_MIN ≤ mvalMinList ev d' b cells best ∧
            mvalMinList ev d' b cells best ≤ INT_MAX := by
        intro cells
        induction cells with
        | nil => intro best h1 h2; rw [mvalMinList]; exact ⟨h1, h2⟩
        | cons i rest ihc =>
          intro best h1 h2
          rw [mvalMinList]
          by_cases hz : b.getD i 0 ≠ 0
          · simp only [if_pos hz]; exact ihc best h1 h2
          · simp only [if_neg hz]
            refine ihc _ ?_ ?_
            · rcases hch (b.set i 1) with ⟨a1, _⟩
              rcases hch (b.set i 2) with ⟨a2, _⟩
              split <;> [skip; split] <;> omega
            · rcases hch (b.set i 1) with ⟨_, a1⟩
              rcases hch (b.set i 2) with ⟨_, a2⟩
              split <;> [skip; split] <;> omega
      have hmax : ∀ dirs best mv, INT_MIN ≤ best → best ≤ INT_MAX →
          INT_MIN ≤ (mvalMaxList ev d' b dirs best mv).1 ∧
            (mvalMaxList ev d' b dirs best mv).1 ≤ INT_MAX := by
        intro dirs
        induction dirs with
        | nil => intro best mv h1 h2; rw [mvalMaxList]; exact ⟨h1, h2⟩
        | cons i rest ihc =>
          intro best mv h1 h2
          rw [mvalMaxList]
          by_cases hm : (tiltDir b i).moved = false
          · simp only [if_pos hm]; exact ihc best mv h1 h2
          · simp only [if_neg hm]
            rcases hch (tiltDir b i).out with ⟨a1, a2⟩
            split
            · exact ihc _ _ (by omega) (by omega)
            · exact ihc best mv h1 h2
      rw [mval]
      split
      · exact hmin (List.range 16) INT_MAX (by decide) (by decide)
      · exact hmax [0, 1, 2, 3] INT_MIN (-1) (by decide) (by decide)

theorem mvalMinList_le_best (ev : Evaluator) (d' : Nat) (b : List Nat) :
    ∀ cells best, mvalMinList ev d' b cells best ≤ best := by
  intro cells
  induction cells with
  | nil => intro best; rw [mvalMinList]
  | cons i rest ih =>
    intro best
    rw [mvalMinList]
    by_cases hz : b.getD i 0 ≠ 0
    · simp only [if_pos hz]; exact ih best
    · simp only [if_neg hz]
      refine le_trans (ih _) ?_
      split <;> [skip; split] <;> omega

theorem mvalMinList_mono (ev : Evaluator) (d' : Nat) (b : List Nat) :
    ∀ cells x y, x ≤ y →
      mvalMinList ev d' b cells x ≤ mvalMinList ev d' b cells y := by
  intro cells
  induction cells with
  | nil => intro x y h; rw [mvalMinList, mvalMinList]; exact h
  | cons i rest ih =>
    intro x y h
    rw [mvalMinList, mvalMinList]
    by_cases hz : b.getD i 0 ≠ 0
    · simp only [if_pos hz]; exact ih x y h
    · simp only [if_neg hz]
      refine ih _ _ ?_
      split_ifs <;> omega

theorem mvalMinList_min_shift (ev : Evaluator) (d' : Nat) (b : List Nat) :
    ∀ cells x y, mvalMinList ev d' b cells (min x y) =
      min x (mvalMinList ev d' b cells y) := by
  intro cells
  induction cells with
  | nil => intro x y; rw [mvalMinList, mvalMinList]
  | cons i rest ih =>
    intro x y
    rw [mvalMinList, mvalMinList]
    by_cases hz : b.getD i 0 ≠ 0
    · simp only [if_pos hz]; exact ih x y
    · simp only [if_neg hz]
      have h1 : (if mval ev d' (b.set i 2) <
            (if mval ev d' (b.set i 1) < min x y then mval ev d' (b.set i 1)
              else min x y) then mval ev d' (b.set i 2)
            else (if mval ev d' (b.set i 1) < min x y
              then mval ev d' (b.set i 1) else min x y)) =
          min x (if mval ev d' (b.set i 2) <
            (if mval ev d' (b.set i 1) < y then mval ev d' (b.set i 1) else y)
            then mval ev d' (b.set i 2)
            else (if mval ev d' (b.set i 1) < y then mval ev d' (b.set i 1)
              else y)) := by
        simp only [min_def]; split_ifs <;> omega
      rw [h1, ih]

theorem mvalMaxList_ge (ev : Evaluator) (d' : Nat) (b : List Nat) :
    ∀ dirs best mv, best ≤ (mvalMaxList ev d' b dirs best mv).1 := by
  intro dirs
  induction dirs with
  | nil => intro best mv; rw [mvalMaxList]
  | cons i rest ih =>
    intro best mv
    rw [mvalMaxList]
    by_cases hm : (tiltDir b i).moved = false
    · simp only [if_pos hm]; exact ih best mv
    · simp only [if_neg hm]
      split
      · exact le_trans (by omega) (ih _ _)
      · exact ih best mv

theorem mvalMaxList_fst_mv (ev : Evaluator) (d' : Nat) (b : List Nat) :
    ∀ dirs best mv mv2, (mvalMaxList ev d' b dirs best mv).1 =
      (mvalMaxList ev d' b dirs best mv2).1 := by
  intro dirs
  induction dirs with
  | nil => intro best mv mv2; rw [mvalMaxList, mvalMaxList]
  | cons i rest ih =>
    intro best mv mv2
    rw [mvalMaxList, mvalMaxList]
    by_cases hm : (tiltDir b i).moved = false
    · simp only [if_pos hm]; exact ih best mv mv2
    · simp only [if_neg hm]
      split
      · rfl
      · exact ih best mv mv2

theorem mvalMaxList_max_shift (ev : Evaluator) (d' : Nat) (b : List Nat) :
    ∀ dirs x y mv mv2, (mvalMaxList ev d' b dirs (max x y) mv).1 =
      max x (mvalMaxList ev d' b dirs y mv2).1 := by
  intro dirs
  induction dirs with
  | nil => intro x y mv mv2; rw [mvalMaxList, mvalMaxList]
  | cons i rest ih =>
    intro x y mv mv2
    rw [mvalMaxList, mvalMaxList]
    by_cases hm : (tiltDir b i).moved = false
    · simp only [if_pos hm]; exact ih x y mv mv2
    · simp only [if_neg hm]
      set s := mval ev d' (tiltDir b i).out with hs
      by_cases h1 : s > max x y
      · have h2 : s > y := lt_of_le_of_lt (le_max_right x y) h1
        simp only [if_pos h1, if_pos h2]
        have hL := mvalMaxList_ge ev d' b rest s (i : Int)
        have hx : x < s := lt_of_le_of_lt (le_max_left x y) h1
        omega
      · by_cases h2 : s > y
        · have hsx : s ≤ x := by
            rcases max_cases x y with ⟨he, _⟩ | ⟨he, _⟩ <;> omega
          simp only [if_neg h1, if_pos h2]
          have e1 : (mvalMaxList ev d' b rest (max x y) mv).1 =
              max x (mvalMaxList ev d' b rest y mv2).1 := ih x y mv mv2
          have e3 : (mvalMaxList ev d' b rest (max s y) (i : Int)).1 =
              max s (mvalMaxList ev d' b rest y mv2).1 :=
            ih s y (i : Int) mv2
          have h4 : max s y = s := max_eq_left (le_of_lt h2)
          rw [h4] at e3
          omega
        · simp only [if_neg h1, if_neg h2]; exact ih x y mv mv2


/-- The move value a searcher may publish: either the `-1` sentinel or a
direction whose tilt on the root board moves. -/
def LegalMv (b : List Nat) (m : Int) : Prop :=
  m = -1 ∨ (0 ≤ m ∧ m < 4 ∧ (tiltDir b m.toNat).moved = true)

theorem move_snd_moved (b : List Nat) (dir : Nat) (rng : RNG) :
    (move b dir rng).2.1 = (tiltDir b dir).moved := by
  rw [move]
  split <;> simp_all

theorem naiveMaxiLoop_legal (ev : Evaluator) (o : Nat → Bool) (d' : Nat)
    (b : List Nat) : ∀ dirs t best mv, (∀ i ∈ dirs, i < 4) → LegalMv b mv →
    LegalMv b (naiveMaxiLoop ev o d' b dirs t best mv).2.1 := by
  intro dirs
  induction dirs with
  | nil => intro t best mv _ h; rw [naiveMaxiLoop]; exact h
  | cons i rest ih =>
    intro t best mv hd h
    rw [naiveMaxiLoop]
    have hi : i < 4 := hd i (List.mem_cons_self i rest)
    have hr : ∀ j ∈ rest, j < 4 := fun j hj => hd j (List.mem_cons_of_mem i hj)
    by_cases hm : (tiltDir b i).moved = false
    · simp only [if_pos hm]; exact ih t best mv hr h
    · simp only [if_neg hm]
      split
      · exact h
      · split
        · refine ih _ _ _ hr (Or.inr ⟨by omega, by exact_mod_cast hi, ?_⟩)
          simpa using eq_true_of_ne_false hm
        · exact ih _ _ _ hr h

theorem naiveGo_legal (ev : Evaluator) (o : Nat → Bool) :
    ∀ d b t, LegalMv b (naiveGo ev o d b t).2.1 := by
  intro d b t
  match d with
  | 0 =>
    rw [naiveGo]
    split <;> exact Or.inl rfl
  | d' + 1 =>
    rw [naiveGo]
    split
    · exact Or.inl rfl
    · exact naiveMaxiLoop_legal ev o d' b [0, 1, 2, 3] t INT_MIN (-1)
        (by decide) (Or.inl rfl)


theorem abMaxiLoop_legal (ev : Evaluator) (o : Nat → Bool) (d' : Nat)
    (b : List Nat) : ∀ dirs alpha beta t mv, (∀ i ∈ dirs, i < 4) →
    LegalMv b mv → LegalMv b (abMaxiLoop ev o d' b dirs alpha beta t mv).2.1 := by
  intro dirs
  induction dirs with
  | nil => intro alpha beta t mv _ h; rw [abMaxiLoop]; exact h
  | cons i rest ih =>
    intro alpha beta t mv hd h
    rw [abMaxiLoop]
    have hi : i < 4 := hd i (List.mem_cons_self i rest)
    have hr : ∀ j ∈ rest, j < 4 := fun j hj => hd j (List.mem_cons_of_mem i hj)
    by_cases hm : (tiltDir b i).moved = false
    · simp only [if_pos hm]; exact ih alpha beta t mv hr h
    · simp only [if_neg hm]
      have hleg : LegalMv b (i : Int) := by
        refine Or.inr ⟨by omega, by exact_mod_cast hi, ?_⟩
        simpa using eq_true_of_ne_false hm
      split
      · exact h
      · split
        · split
          · exact hleg
          · exact ih _ _ _ _ hr hleg
        · split
          · exact h
          · exact ih _ _ _ _ hr h

theorem abMaxi_legal (ev : Evaluator) (o : Nat → Bool) :
    ∀ d b alpha beta t, LegalMv b (abMaxi ev o d b alpha beta t).2.1 := by
  intro d b alpha beta t
  match d with
  | 0 => rw [abMaxi]; split <;> exact Or.inl rfl
  | d' + 1 =>
    rw [abMaxi]
    exact abMaxiLoop_legal ev o d' b [0, 1, 2, 3] alpha beta t (-1)
      (by decide) (Or.inl rfl)

theorem cmmMaxiLoop_legal (ev : Evaluator) (o : Nat → Bool) (d' : Nat)
    (b : List Nat) : ∀ dirs t best mv c, (∀ i ∈ dirs, i < 4) →
    LegalMv b mv → LegalMv b (cmmMaxiLoop ev o d' b dirs t best mv c).mv := by
  intro dirs
  induction dirs with
  | nil => intro t best mv c _ h; rw [cmmMaxiLoop]; exact h
  | cons i rest ih =>
    intro t best mv c hd h
    rw [cmmMaxiLoop]
    have hi : i < 4 := hd i (List.mem_cons_self i rest)
    have hr : ∀ j ∈ rest, j < 4 := fun j hj => hd j (List.mem_cons_of_mem i hj)
    by_cases hm : (tiltDir b i).moved = false
    · simp only [if_pos hm]; exact ih t best mv c hr h
    · simp only [if_neg hm]
      split
      · exact h
      · split
        · refine ih _ _ _ _ hr (Or.inr ⟨by omega, by exact_mod_cast hi, ?_⟩)
          simpa using eq_true_of_ne_false hm
        · exact ih _ _ _ _ hr h

theorem cmmGo_legal (ev : Evaluator) (o : Nat → Bool) :
    ∀ d b t c, LegalMv b (cmmGo ev o d b t c).mv := by
  intro d b t c
  rw [cmmGo]
  have hbody : LegalMv b (cmmBody ev o d b t c (pack_board_state b)).mv := by
    match d with
    | 0 =>
      rw [cmmBody]
      split <;> exact Or.inl rfl
    | d' + 1 =>
      rw [cmmBody]
      split
      · dsimp only
        split <;> exact Or.inl rfl
      · have hlp := cmmMaxiLoop_legal ev o d' b [0, 1, 2, 3] t INT_MIN (-1) c
          (by decide) (Or.inl rfl)
        dsimp only
        split <;> exact hlp
  split
  · split
    · exact Or.inl rfl
    · exact hbody
  · exact hbody

theorem cabMaxiLoop_legal (ev : Evaluator) (o : Nat → Bool) (d' : Nat)
    (b : List Nat) : ∀ dirs alpha beta t mv ty c, (∀ i ∈ dirs, i < 4) →
    LegalMv b mv →
    LegalMv b (cabMaxiLoop ev o d' b dirs alpha beta t mv ty c).mv := by
  intro dirs
  induction dirs with
  | nil => intro alpha beta t mv ty c _ h; rw [cabMaxiLoop]; exact h
  | cons i rest ih =>
    intro alpha beta t mv ty c hd h
    rw [cabMaxiLoop]
    have hi : i < 4 := hd i (List.mem_cons_self i rest)
    have hr : ∀ j ∈ rest, j < 4 := fun j hj => hd j (List.mem_cons_of_mem i hj)
    by_cases hm : (tiltDir b i).moved = false
    · simp only [if_pos hm]; exact ih alpha beta t mv ty c hr h
    · simp only [if_neg hm]
      have hleg : LegalMv b (i : Int) := by
        refine Or.inr ⟨by omega, by exact_mod_cast hi, ?_⟩
        simpa using eq_true_of_ne_false hm
      split
      · exact h
      · split
        · split
          · exact hleg
          · exact ih _ _ _ _ _ _ hr hleg
        · split
          · exact h
          · exact ih _ _ _ _ _ _ hr h

theorem cabMaxi_legal (ev : Evaluator) (o : Nat → Bool) :
    ∀ d b alpha beta t c, LegalMv b (cabMaxi ev o d b alpha beta t c).mv := by
  intro d b alpha beta t c
  match d with
  | 0 =>
    rw [cabMaxi.eq_def]
    dsimp only
    split
    · exact Or.inl rfl
    · split <;> exact Or.inl rfl
  | d' + 1 =>
    rw [cabMaxi.eq_def]
    dsimp only
    split
    · exact Or.inl rfl
    · have hlp := cabMaxiLoop_legal ev o d' b [0, 1, 2, 3] alpha beta t (-1) 3 c
        (by decide) (Or.inl rfl)
      split <;> exact hlp

theorem cheatLoop_legal (ev : Evaluator) (o : Nat → Bool) (d' : Nat)
    (b : List Nat) (rng : RNG) : ∀ dirs t best mv, (∀ i ∈ dirs, i < 4) →
    LegalMv b mv → LegalMv b (cheatLoop ev o d' b rng dirs t best mv).2.1 := by
  intro dirs
  induction dirs with
  | nil => intro t best mv _ h; rw [cheatLoop]; exact h
  | cons i rest ih =>
    intro t best mv hd h
    rw [cheatLoop]
    have hi : i < 4 := hd i (List.mem_cons_self i rest)
    have hr : ∀ j ∈ rest, j < 4 := fun j hj => hd j (List.mem_cons_of_mem i hj)
    by_cases hm : (move b i rng).2.1 = false
    · simp only [if_pos hm]; exact ih t best mv hr h
    · simp only [if_neg hm]
      split
      · exact h
      · split
        · refine ih _ _ _ hr (Or.inr ⟨by omega, by exact_mod_cast hi, ?_⟩)
          have := eq_true_of_ne_false hm
          rw [move_snd_moved] at this
          simpa using this
        · exact ih _ _ _ hr h

theorem cheatGo_legal (ev : Evaluator) (o : Nat → Bool) :
    ∀ d b rng t, LegalMv b (cheatGo ev o d b rng t).2.1 := by
  intro d b rng t
  match d with
  | 0 => rw [cheatGo]; split <;> exact Or.inl rfl
  | d' + 1 =>
    rw [cheatGo]
    exact cheatLoop_legal ev o d' b rng [0, 1, 2, 3] t INT_MIN (-1)
      (by decide) (Or.inl rfl)

theorem searchWrapper_legal (ds : List Nat → RNG → Nat → Nat → Int × Int × Nat)
    (o : Nat → Bool) (b : List Nat) (rng : RNG) (L t : Nat)
    (h : LegalMv b (ds b rng L t).2.1) :
    LegalMv b (searchWrapper ds o b rng L t).2.1 := by
  rw [searchWrapper]
  split
  · exact Or.inl rfl
  · exact h

theorem range16_eq :
    List.range 16 = [0, 1, 2, 3, 4, 5, 6, 7, 8, 9, 10, 11, 12, 13, 14, 15] := by
  rfl

/-- C10: for every searcher variant, board, RNG state, evaluator and
lookahead, if the published best first move is not the -1 sentinel then
it is a direction 0..3 whose tilt moves the root board. -/
theorem C10_best_first_move_legal (ev : Evaluator) (o : Nat → Bool)
    (b : List Nat) (rng : RNG) (L t : Nat) :
    ((searchNaive ev o b rng L t).2.1 ≠ -1 →
      0 ≤ (searchNaive ev o b rng L t).2.1 ∧ (searchNaive ev o b rng L t).2.1 < 4 ∧
        (tiltDir b ((searchNaive ev o b rng L t).2.1).toNat).moved = true) ∧
    ((searchAB ev o b rng L t).2.1 ≠ -1 →
      0 ≤ (searchAB ev o b rng L t).2.1 ∧ (searchAB ev o b rng L t).2.1 < 4 ∧
        (tiltDir b ((searchAB ev o b rng L t).2.1).toNat).moved = true) ∧
    ((searchCMM ev o b rng L t).2.1 ≠ -1 →
      0 ≤ (searchCMM ev o b rng L t).2.1 ∧ (searchCMM ev o b rng L t).2.1 < 4 ∧
        (tiltDir b ((searchCMM ev o b rng L t).2.1).toNat).moved = true) ∧
    ((searchCAB ev o b rng L t).2.1 ≠ -1 →
      0 ≤ (searchCAB ev o b rng L t).2.1 ∧ (searchCAB ev o b rng L t).2.1 < 4 ∧
        (tiltDir b ((searchCAB ev o b rng L t).2.1).toNat).moved = true) ∧
    ((searchCheat ev o b rng L t).2.1 ≠ -1 →
      0 ≤ (searchCheat ev o b rng L t).2.1 ∧ (searchCheat ev o b rng L t).2.1 < 4 ∧
        (tiltDir b ((searchCheat ev o b rng L t).2.1).toNat).moved = true) := by
  have hres : ∀ m, LegalMv b m → m ≠ -1 →
      0 ≤ m ∧ m < 4 ∧ (tiltDir b m.toNat).moved = true := by
    intro m hm hne
    rcases hm with h | h
    · exact absurd h hne
    · exact h
  refine ⟨hres _ ?_, hres _ ?_, hres _ ?_, hres _ ?_, hres _ ?_⟩
  · exact searchWrapper_legal _ o b rng L t (naiveGo_legal ev o (L * 2) b t)
  · exact searchWrapper_legal _ o b rng L t
      (abMaxi_legal ev o (L * 2) b INT_MIN INT_MAX t)
  · exact searchWrapper_legal _ o b rng L t
      (cmmGo_legal ev o (L * 2) b t (emptyCache InfoMM.zero))
  · exact searchWrapper_legal _ o b rng L t
      (cabMaxi_legal ev o (L * 2) b INT_MIN INT_MAX t (emptyCache InfoAB.zero))
  · exact searchWrapper_legal _ o b rng L t (cheatGo_legal ev o L b rng t)

set_option maxHeartbeats 2000000 in
/-- Witness for C10 at a concrete input where all five variants publish
move 0. -/
theorem C10_best_first_move_legal_witness :
    ((searchNaive (fun _ => (0 : Int)) noCancel
      [1, 1, 2, 3, 4, 5, 6, 7, 1, 2, 3, 4, 5, 6, 7, 0] (RNG.reset 12345) 1 0).2.1 ≠ -1 ∧
      0 ≤ (searchNaive (fun _ => (0 : Int)) noCancel
      [1, 1, 2, 3, 4, 5, 6, 7, 1, 2, 3, 4, 5, 6, 7, 0] (RNG.reset 12345) 1 0).2.1 ∧ (searchNaive (fun _ => (0 : Int)) noCancel
      [1, 1, 2, 3, 4, 5, 6, 7, 1, 2, 3, 4, 5, 6, 7, 0] (RNG.reset 12345) 1 0).2.1 < 4 ∧
        (tiltDir [1, 1, 2, 3, 4, 5, 6, 7, 1, 2, 3, 4, 5, 6, 7, 0]
          ((searchNaive (fun _ => (0 : Int)) noCancel
      [1, 1, 2, 3, 4, 5, 6, 7, 1, 2, 3, 4, 5, 6, 7, 0] (RNG.reset 12345) 1 0).2.1).toNat).moved = true) ∧
    ((searchAB (fun _ => (0 : Int)) noCancel
      [1, 1, 2, 3, 4, 5, 6, 7, 1, 2, 3, 4, 5, 6, 7, 0] (RNG.reset 12345) 1 0).2.1 ≠ -1 ∧
      0 ≤ (searchAB (fun _ => (0 : Int)) noCancel
      [1, 1, 2, 3, 4, 5, 6, 7, 1, 2, 3, 4, 5, 6, 7, 0] (RNG.reset 12345) 1 0).2.1 ∧ (searchAB (fun _ => (0 : Int)) noCancel
      [1, 1, 2, 3, 4, 5, 6, 7, 1, 2, 3, 4, 5, 6, 7, 0] (RNG.reset 12345) 1 0).2.1 < 4 ∧
        (tiltDir [1, 1, 2, 3, 4, 5, 6, 7, 1, 2, 3, 4, 5, 6, 7, 0]
          ((searchAB (fun _ => (0 : Int)) noCancel
      [1, 1, 2, 3, 4, 5, 6, 7, 1, 2, 3, 4, 5, 6, 7, 0] (RNG.reset 12345) 1 0).2.1).toNat).moved = true) ∧
    ((searchCMM (fun _ => (0 : Int)) noCancel
      [1, 1, 2, 3, 4, 5, 6, 7, 1, 2, 3, 4, 5, 6, 7, 0] (RNG.reset 12345) 1 0).2.1 ≠ -1 ∧
      0 ≤ (searchCMM (fun _ => (0 : Int)) noCancel
      [1, 1, 2, 3, 4, 5, 6, 7, 1, 2, 3, 4, 5, 6, 7, 0] (RNG.reset 12345) 1 0).2.1 ∧ (searchCMM (fun _ => (0 : Int)) noCancel
      [1, 1, 2, 3, 4, 5, 6, 7, 1, 2, 3, 4, 5, 6, 7, 0] (RNG.reset 12345) 1 0).2.1 < 4 ∧
        (tiltDir [1, 1, 2, 3, 4, 5, 6, 7, 1, 2, 3, 4, 5, 6, 7, 0]
          ((searchCMM (fun _ => (0 : Int)) noCancel
      [1, 1, 2, 3, 4, 5, 6, 7, 1, 2, 3, 4, 5, 6, 7, 0] (RNG.reset 12345) 1 0).2.1).toNat).moved = true) ∧
    ((searchCAB (fun _ => (0 : Int)) noCancel
      [1, 1, 2, 3, 4, 5, 6, 7, 1, 2, 3, 4, 5, 6, 7, 0] (RNG.reset 12345) 1 0).2.1 ≠ -1 ∧
      0 ≤ (searchCAB (fun _ => (0 : Int)) noCancel
      [1, 1, 2, 3, 4, 5, 6, 7, 1, 2, 3, 4, 5, 6, 7, 0] (RNG.reset 12345) 1 0).2.1 ∧ (searchCAB (fun _ => (0 : Int)) noCancel
      [1, 1, 2, 3, 4, 5, 6, 7, 1, 2, 3, 4, 5, 6, 7, 0] (RNG.reset 12345) 1 0).2.1 < 4 ∧
        (tiltDir [1, 1, 2, 3, 4, 5, 6, 7, 1, 2, 3, 4, 5, 6, 7, 0]
          ((searchCAB (fun _ => (0 : Int)) noCancel
      [1, 1, 2, 3, 4, 5, 6, 7, 1, 2, 3, 4, 5, 6, 7, 0] (RNG.reset 12345) 1 0).2.1).toNat).moved = true) ∧
    ((searchCheat (fun _ => (0 : Int)) noCancel
      [1, 1, 2, 3, 4, 5, 6, 7, 1, 2, 3, 4, 5, 6, 7, 0] (RNG.reset 12345) 1 0).2.1 ≠ -1 ∧
      0 ≤ (searchCheat (fun _ => (0 : Int)) noCancel
      [1, 1, 2, 3, 4, 5, 6, 7, 1, 2, 3, 4, 5, 6, 7, 0] (RNG.reset 12345) 1 0).2.1 ∧ (searchCheat (fun _ => (0 : Int)) noCancel
      [1, 1, 2, 3, 4, 5, 6, 7, 1, 2, 3, 4, 5, 6, 7, 0] (RNG.reset 12345) 1 0).2.1 < 4 ∧
        (tiltDir [1, 1, 2, 3, 4, 5, 6, 7, 1, 2, 3, 4, 5, 6, 7, 0]
          ((searchCheat (fun _ => (0 : Int)) noCancel
      [1, 1, 2, 3, 4, 5, 6, 7, 1, 2, 3, 4, 5, 6, 7, 0] (RNG.reset 12345) 1 0).2.1).toNat).moved = true) := by
  have hC := C10_best_first_move_legal (fun _ => (0 : Int)) noCancel
    [1, 1, 2, 3, 4, 5, 6, 7, 1, 2, 3, 4, 5, 6, 7, 0] (RNG.reset 12345) 1 0
  have hne0 : (searchNaive (fun _ => (0 : Int)) noCancel
      [1, 1, 2, 3, 4, 5, 6, 7, 1, 2, 3, 4, 5, 6, 7, 0] (RNG.reset 12345) 1 0).2.1 ≠ -1 := by
    simp +decide [searchNaive, searchWrapper, naiveGo, naiveMaxiLoop, naiveMiniLoop, noCancel, range16_eq]
  have hne1 : (searchAB (fun _ => (0 : Int)) noCancel
      [1, 1, 2, 3, 4, 5, 6, 7, 1, 2, 3, 4, 5, 6, 7, 0] (RNG.reset 12345) 1 0).2.1 ≠ -1 := by
    simp +decide [searchAB, searchWrapper, abMaxi, abMaxiLoop, abMini, abMiniLoop, noCancel, range16_eq]
  have hne2 : (searchCMM (fun _ => (0 : Int)) noCancel
      [1, 1, 2, 3, 4, 5, 6, 7, 1, 2, 3, 4, 5, 6, 7, 0] (RNG.reset 12345) 1 0).2.1 ≠ -1 := by
    simp +decide [searchCMM, searchWrapper, cmmGo, cmmBody, cmmMaxiLoop, cmmMiniLoop, noCancel, range16_eq, cache_get, cache_put, emptyCache, InfoMM.zero]
  have hne3 : (searchCAB (fun _ => (0 : Int)) noCancel
      [1, 1, 2, 3, 4, 5, 6, 7, 1, 2, 3, 4, 5, 6, 7, 0] (RNG.reset 12345) 1 0).2.1 ≠ -1 := by
    simp +decide [searchCAB, searchWrapper, cabMaxi, cabMaxiLoop, cabMini, cabMiniLoop, noCancel, range16_eq, cache_get, cache_put, emptyCache, InfoAB.zero, check_cached]
  have hne4 : (searchCheat (fun _ => (0 : Int)) noCancel
      [1, 1, 2, 3, 4, 5, 6, 7, 1, 2, 3, 4, 5, 6, 7, 0] (RNG.reset 12345) 1 0).2.1 ≠ -1 := by
    simp +decide [searchCheat, searchWrapper, cheatGo, cheatLoop, noCancel, range16_eq]
  exact ⟨⟨hne0, hC.1 hne0⟩, ⟨hne1, hC.2.1 hne1⟩, ⟨hne2, hC.2.2.1 hne2⟩,
    ⟨hne3, hC.2.2.2.1 hne3⟩, ⟨hne4, hC.2.2.2.2 hne4⟩⟩


/-- The move the naive searcher publishes at the root. -/
def nmove (ev : Evaluator) (d : Nat) (b : List Nat) : Int :=
  match d with
  | 0 => -1
  | d' + 1 =>
      if (d' + 1) % 2 = 1 then -1
      else (mvalMaxList ev d' b [0, 1, 2, 3] INT_MIN (-1)).2

theorem naiveGo_noCancel (ev : Evaluator) :
    ∀ d b t, (naiveGo ev noCancel d b t).1 = mval ev d b ∧
      (naiveGo ev noCancel d b t).2.1 = nmove ev d b := by
  intro d
  induction d using Nat.strong_induction_on with
  | _ d ih =>
    match d with
    | 0 =>
      intro b t
      rw [naiveGo, mval, nmove]
      simp [noCancel]
    | d' + 1 =>
      intro b t
      have hch : ∀ b' t', (naiveGo ev noCancel d' b' t').1 = mval ev d' b' :=
        fun b' t' => (ih d' (Nat.lt_succ_self d') b' t').1
      have hmin : ∀ cells t best,
          (naiveMiniLoop ev noCancel d' b cells t best).1 =
            mvalMinList ev d' b cells best := by
        intro cells
        induction cells with
        | nil => intro t best; rw [naiveMiniLoop, mvalMinList]
        | cons i rest ihc =>
          intro t best
          rw [naiveMiniLoop, mvalMinList]
          by_cases hz : b.getD i 0 ≠ 0
          · simp only [if_pos hz]; exact ihc t best
          · simp only [if_neg hz]
            simp only [noCancel, Bool.false_eq_true, if_false]
            rw [hch (b.set i 1), hch (b.set i 2)]
            exact ihc _ _
      have hmax : ∀ dirs t best mv,
          (naiveMaxiLoop ev noCancel d' b dirs t best mv).1 =
            (mvalMaxList ev d' b dirs best mv).1 ∧
          (naiveMaxiLoop ev noCancel d' b dirs t best mv).2.1 =
            (mvalMaxList ev d' b dirs best mv).2 := by
        intro dirs
        induction dirs with
        | nil => intro t best mv; rw [naiveMaxiLoop, mvalMaxList]; exact ⟨rfl, rfl⟩
        | cons i rest ihc =>
          intro t best mv
          rw [naiveMaxiLoop, mvalMaxList]
          by_cases hm : (tiltDir b i).moved = false
          · simp only [if_pos hm]; exact ihc t best mv
          · simp only [if_neg hm]
            simp only [noCancel, Bool.false_eq_true, if_false]
            rw [hch (tiltDir b i).out]
            split
            · exact ihc _ _ _
            · exact ihc _ _ _
      rw [naiveGo, mval, nmove]
      split
      · constructor
        · exact hmin (List.range 16) t INT_MAX
        · rfl
      · exact hmax [0, 1, 2, 3] t INT_MIN (-1)

theorem searchNaive_noCancel (ev : Evaluator) (b : List Nat) (rng : RNG)
    (L t : Nat) :
    (searchNaive ev noCancel b rng L t).1 = mval ev (L * 2) b ∧
    (searchNaive ev noCancel b rng L t).2.1 = nmove ev (L * 2) b := by
  rw [searchNaive, searchWrapper]
  simp only [noCancel, Bool.false_eq_true, if_false]
  exact naiveGo_noCancel ev (L * 2) b t


theorem if_lt_min (x y : Int) : (if x < y then x else y) = min x y := by
  split_ifs <;> omega

theorem if_gt_max (x y : Int) : (if x > y then x else y) = max x y := by
  split_ifs <;> omega

/-- Fail-soft alpha-beta result contract: results at or below alpha are
upper bounds on the true value, results at or above beta are lower
bounds, results strictly inside the window are exact. -/
def weakC (alpha beta v r : Int) : Prop :=
  (r ≤ alpha → v ≤ r) ∧ (beta ≤ r → r ≤ v) ∧ (alpha < r → r < beta → r = v)

theorem ab_contract (ev : Evaluator) :
    ∀ d,
      (d % 2 = 0 → ∀ b alpha beta t, INT_MIN ≤ alpha → alpha < beta →
        beta ≤ INT_MAX →
        weakC alpha beta (mval ev d b) (abMaxi ev noCancel d b alpha beta t).1) ∧
      (d % 2 = 1 → ∀ b alpha beta t, INT_MIN ≤ alpha → alpha < beta →
        beta ≤ INT_MAX →
        weakC alpha beta (mval ev d b) (abMini ev noCancel d b alpha beta t).1) := by
  intro d
  induction d using Nat.strong_induction_on with
  | _ d ih =>
    constructor
    · -- abMaxi at even depth
      intro hpar b alpha beta t h1 h2 h3
      match d, hpar with
      | 0, _ =>
        rw [abMaxi, mval]
        simp only [noCancel, Bool.false_eq_true, if_false]
        exact ⟨fun _ => le_rfl, fun _ => le_rfl, fun _ _ => rfl⟩
      | d' + 1, hpar =>
        have hd'o : d' % 2 = 1 := by omega
        have hmini : ∀ b' α' t', INT_MIN ≤ α' → α' < beta →
            weakC α' beta (mval ev d' b') (abMini ev noCancel d' b' α' beta t').1 :=
          fun b' α' t' u1 u2 => (ih d' (by omega)).2 hd'o b' α' beta t' u1 u2 h3
        have hloop : ∀ rest α mv t2, INT_MIN ≤ α → α < beta →
            α ≤ (abMaxiLoop ev noCancel d' b rest α beta t2 mv).1 ∧
            ((abMaxiLoop ev noCancel d' b rest α beta t2 mv).1 < beta →
              (abMaxiLoop ev noCancel d' b rest α beta t2 mv).1 =
                (mvalMaxList ev d' b rest α mv).1) ∧
            (beta ≤ (abMaxiLoop ev noCancel d' b rest α beta t2 mv).1 →
              (abMaxiLoop ev noCancel d' b rest α beta t2 mv).1 ≤
                (mvalMaxList ev d' b rest α mv).1) := by
          intro rest
          induction rest with
          | nil =>
            intro α mv t2 u1 u2
            rw [abMaxiLoop, mvalMaxList]
            exact ⟨le_rfl, fun _ => rfl,
              fun hb => absurd (lt_of_lt_of_le u2 hb) (lt_irrefl α)⟩
          | cons i rest2 ihr =>
            intro α mv t2 u1 u2
            rw [abMaxiLoop, mvalMaxList]
            by_cases hm : (tiltDir b i).moved = false
            · simp only [if_pos hm]; exact ihr α mv t2 u1 u2
            · simp only [if_neg hm]
              simp only [noCancel, Bool.false_eq_true, if_false]
              set s := (abMini ev noCancel d' (tiltDir b i).out α beta t2).1 with hs
              set v := mval ev d' (tiltDir b i).out with hv
              have hw : weakC α beta v s := hmini (tiltDir b i).out α t2 u1 u2
              rcases hw with ⟨hw1, hw2, hw3⟩
              by_cases hra : s > α
              · simp only [if_pos hra]
                by_cases hpr : s ≥ beta
                · rw [if_pos (by omega : (s : Int) ≥ beta)]
                  have hsv : s ≤ v := hw2 hpr
                  have hvgt : v > α := by omega
                  simp only [if_pos hvgt]
                  have hge := mvalMaxList_ge ev d' b rest2 v (i : Int)
                  exact ⟨by omega, fun hlt => absurd hpr (by omega), fun _ => by omega⟩
                · rw [if_neg (by omega : ¬ (s : Int) ≥ beta)]
                  have hsv : s = v := hw3 hra (by omega)
                  have hvgt : v > α := by omega
                  simp only [if_pos hvgt]
                  rw [← hsv]
                  exact ⟨le_trans (le_of_lt hra)
                      ((ihr s (i : Int) _ (by omega) (by omega)).1),
                    (ihr s (i : Int) _ (by omega) (by omega)).2.1,
                    (ihr s (i : Int) _ (by omega) (by omega)).2.2⟩
              · simp only [if_neg hra]
                push_neg at hra
                have hvle : v ≤ α := le_trans (hw1 hra) hra
                have hnpr : ¬ (α : Int) ≥ beta := by omega
                rw [if_neg hnpr]
                have hnv : ¬(v > α) := by omega
                simp only [if_neg hnv]
                exact ihr α mv _ u1 u2
        rw [abMaxi]
        rcases hloop [0, 1, 2, 3] alpha (-1) t h1 h2 with ⟨hA, hB, hC⟩
        have hV : mval ev (d' + 1) b =
            (mvalMaxList ev d' b [0, 1, 2, 3] INT_MIN (-1)).1 := by
          rw [mval]
          simp only [hpar]
          rfl
        have hshift : (mvalMaxList ev d' b [0, 1, 2, 3] alpha (-1)).1 =
            max alpha (mvalMaxList ev d' b [0, 1, 2, 3] INT_MIN (-1)).1 := by
          have h5 := mvalMaxList_max_shift ev d' b [0, 1, 2, 3] alpha INT_MIN (-1) (-1)
          rw [max_eq_left h1] at h5
          exact h5
        rw [hV]
        refine ⟨?_, ?_, ?_⟩
        · intro hle
          have hBB := hB (by omega)
          rw [hshift] at hBB
          omega
        · intro hbe
          have hCC := hC hbe
          rw [hshift] at hCC
          omega
        · intro hgt hlt
          have hBB := hB hlt
          rw [hshift] at hBB
          omega
    · -- abMini at odd depth
      intro hpar b alpha beta t h1 h2 h3
      match d, hpar with
      | e' + 1, hpar =>
        have he'e : e' % 2 = 0 := by omega
        have hmaxi : ∀ b' β' t', alpha < β' → β' ≤ INT_MAX →
            weakC alpha β' (mval ev e' b') (abMaxi ev noCancel e' b' alpha β' t').1 :=
          fun b' β' t' u2 u3 => (ih e' (by omega)).1 he'e b' alpha β' t' h1 u2 u3
        have hloop : ∀ cells β t2, alpha < β → β ≤ INT_MAX →
            (abMiniLoop ev noCancel e' b cells alpha β t2).1 ≤ β ∧
            (alpha < (abMiniLoop ev noCancel e' b cells alpha β t2).1 →
              (abMiniLoop ev noCancel e' b cells alpha β t2).1 =
                mvalMinList ev e' b cells β) ∧
            ((abMiniLoop ev noCancel e' b cells alpha β t2).1 ≤ alpha →
              mvalMinList ev e' b cells INT_MAX ≤
                (abMiniLoop ev noCancel e' b cells alpha β t2).1) := by
          intro cells
          induction cells with
          | nil =>
            intro β t2 u2 u3
            rw [abMiniLoop, mvalMinList, mvalMinList]
            exact ⟨le_rfl, fun _ => rfl,
              fun hle => absurd (lt_of_lt_of_le u2 hle) (lt_irrefl alpha)⟩
          | cons i rest2 ihr =>
            intro β t2 u2 u3
            rw [abMiniLoop, mvalMinList, mvalMinList]
            by_cases hz : b.getD i 0 ≠ 0
            · simp only [if_pos hz]; exact ihr β t2 u2 u3
            · simp only [if_neg hz]
              simp only [noCancel, Bool.false_eq_true, if_false]
              simp only [if_lt_min]
              set s1 := (abMaxi ev noCancel e' (b.set i 1) alpha β t2).1 with hs1
              set v1 := mval ev e' (b.set i 1) with hv1
              set v2 := mval ev e' (b.set i 2) with hv2
              rcases hmaxi (b.set i 1) β t2 u2 u3 with ⟨ha1, ha2, ha3⟩
              by_cases hpr1 : alpha ≥ min s1 β
              · rw [if_pos hpr1]
                have hmin1 : min s1 β = s1 := by omega
                have hvs1 : v1 ≤ s1 := ha1 (by omega)
                have hW := mvalMinList_le_best ev e' b rest2
                  (min v2 (min v1 INT_MAX))
                refine ⟨by omega, fun hgt => absurd hpr1 (by omega), fun _ => ?_⟩
                omega
              · rw [if_neg hpr1]
                push_neg at hpr1
                have hb1 : min s1 β = min v1 β := by
                  by_cases hc : s1 < β
                  · have : s1 = v1 := ha3 (by omega) hc
                    omega
                  · have hvge : β ≤ v1 := le_trans (by omega) (ha2 (by omega))
                    omega
                set s2 := (abMaxi ev noCancel e' (b.set i 2) alpha (min s1 β)
                  ((abMaxi ev noCancel e' (b.set i 1) alpha β t2).2.2 + 1)).1 with hs2
                rcases hmaxi (b.set i 2) (min s1 β)
                    ((abMaxi ev noCancel e' (b.set i 1) alpha β t2).2.2 + 1)
                    (by omega) (by omega) with ⟨hb1w, hb2w, hb3w⟩
                by_cases hpr2 : alpha ≥ min s2 (min s1 β)
                · rw [if_pos hpr2]
                  have hmin2 : min s2 (min s1 β) = s2 := by omega
                  have hvs2 : v2 ≤ s2 := hb1w (by omega)
                  have hW := mvalMinList_le_best ev e' b rest2
                    (min v2 (min v1 INT_MAX))
                  refine ⟨by omega, fun hgt => absurd hpr2 (by omega), fun _ => ?_⟩
                  omega
                · rw [if_neg hpr2]
                  push_neg at hpr2
                  have hb2 : min s2 (min s1 β) = min v2 (min v1 β) := by
                    by_cases hc : s2 < min s1 β
                    · have : s2 = v2 := hb3w (by omega) hc
                      omega
                    · have hvge : min s1 β ≤ v2 := le_trans (by omega) (hb2w (by omega))
                      omega
                  rcases ihr (min s2 (min s1 β))
                      ((abMaxi ev noCancel e' (b.set i 2) alpha (min s1 β)
                        ((abMaxi ev noCancel e' (b.set i 1) alpha β t2).2.2 + 1)).2.2 + 1)
                      (by omega) (by omega)
                    with ⟨hc1, hc2, hc3⟩
                  refine ⟨by omega, ?_, ?_⟩
                  · intro hgt
                    rw [hc2 hgt, hb2]
                  · intro hle
                    refine le_trans ?_ (hc3 hle)
                    exact mvalMinList_mono ev e' b rest2 _ _ (by omega)
        rw [abMini]
        rcases hloop (List.range 16) beta t h2 h3 with ⟨hA, hB, hC⟩
        have hW : mval ev (e' + 1) b =
            mvalMinList ev e' b (List.range 16) INT_MAX := by
          rw [mval]
          simp only [hpar]
          rfl
        have hshift : mvalMinList ev e' b (List.range 16) beta =
            min beta (mvalMinList ev e' b (List.range 16) INT_MAX) := by
          have h5 := mvalMinList_min_shift ev e' b (List.range 16) beta INT_MAX
          rw [min_eq_left h3] at h5
          exact h5
        rw [hW]
        refine ⟨?_, ?_, ?_⟩
        · intro hle
          have hCC := hC hle
          omega
        · intro hbe
          have heq : (abMiniLoop ev noCancel e' b (List.range 16) alpha beta t).1 = beta :=
            le_antisymm hA hbe
          have hBB := hB (by omega)
          rw [heq, hshift] at hBB
          omega
        · intro hgt hlt
          have hBB := hB hgt
          rw [hshift] at hBB
          omega


theorem mvalMaxList_stays (ev : Evaluator)
    (hev : ∀ b, INT_MIN ≤ ev b ∧ ev b ≤ INT_MAX) (d' : Nat) (b : List Nat) :
    ∀ dirs mv, mvalMaxList ev d' b dirs INT_MAX mv = (INT_MAX, mv) := by
  intro dirs
  induction dirs with
  | nil => intro mv; rw [mvalMaxList]
  | cons i rest ih =>
    intro mv
    rw [mvalMaxList]
    by_cases hm : (tiltDir b i).moved = false
    · simp only [if_pos hm]; exact ih mv
    · simp only [if_neg hm]
      have hb := (mval_bounds ev hev d' (tiltDir b i).out).2
      rw [if_neg (by omega)]
      exact ih mv

theorem abMaxiLoop_root (ev : Evaluator)
    (hev : ∀ b, INT_MIN ≤ ev b ∧ ev b ≤ INT_MAX) (d' : Nat)
    (hd' : d' % 2 = 1) (b : List Nat) :
    ∀ rest α mv t, INT_MIN ≤ α → α < INT_MAX →
    (abMaxiLoop ev noCancel d' b rest α INT_MAX t mv).1 =
      (mvalMaxList ev d' b rest α mv).1 ∧
    (abMaxiLoop ev noCancel d' b rest α INT_MAX t mv).2.1 =
      (mvalMaxList ev d' b rest α mv).2 := by
  intro rest
  induction rest with
  | nil =>
    intro α mv t u1 u2
    rw [abMaxiLoop, mvalMaxList]
    exact ⟨rfl, rfl⟩
  | cons i rest2 ihr =>
    intro α mv t u1 u2
    rw [abMaxiLoop, mvalMaxList]
    by_cases hm : (tiltDir b i).moved = false
    · simp only [if_pos hm]; exact ihr α mv t u1 u2
    · simp only [if_neg hm]
      simp only [noCancel, Bool.false_eq_true, if_false]
      set s := (abMini ev noCancel d' (tiltDir b i).out α INT_MAX t).1 with hs
      set v := mval ev d' (tiltDir b i).out with hv
      have hw : weakC α INT_MAX v s :=
        (ab_contract ev d').2 hd' (tiltDir b i).out α INT_MAX t u1 u2 le_rfl
      rcases hw with ⟨hw1, hw2, hw3⟩
      have hvb := mval_bounds ev hev d' (tiltDir b i).out
      rw [← hv] at hvb
      by_cases hra : s > α
      · simp only [if_pos hra]
        by_cases hpr : s ≥ INT_MAX
        · rw [if_pos (by omega : (s : Int) ≥ INT_MAX)]
          have hsv : s ≤ v := hw2 hpr
          have hveq : v = INT_MAX := by omega
          have hseq : s = INT_MAX := by omega
          have hvgt : v > α := by omega
          simp only [if_pos hvgt]
          rw [hveq, mvalMaxList_stays ev hev d' b rest2 (i : Int)]
          exact ⟨by omega, rfl⟩
        · rw [if_neg (by omega : ¬ (s : Int) ≥ INT_MAX)]
          have hsv : s = v := hw3 hra (by omega)
          have hvgt : v > α := by omega
          simp only [if_pos hvgt]
          rw [← hsv]
          exact ihr s (i : Int) _ (by omega) (by omega)
      · simp only [if_neg hra]
        push_neg at hra
        have hvle : v ≤ α := le_trans (hw1 hra) hra
        rw [if_neg (by omega : ¬ (α : Int) ≥ INT_MAX)]
        have hnv : ¬(v > α) := by omega
        simp only [if_neg hnv]
        exact ihr α mv _ u1 u2

theorem searchAB_noCancel (ev : Evaluator)
    (hev : ∀ b, INT_MIN ≤ ev b ∧ ev b ≤ INT_MAX) (b : List Nat) (rng : RNG)
    (L t : Nat) :
    (searchAB ev noCancel b rng L t).1 = mval ev (L * 2) b ∧
    (searchAB ev noCancel b rng L t).2.1 = nmove ev (L * 2) b := by
  rw [searchAB, searchWrapper]
  simp only [noCancel, Bool.false_eq_true, if_false]
  match hL : L * 2 with
  | 0 =>
    rw [abMaxi, mval, nmove]
    simp [noCancel]
  | d' + 1 =>
    have hd' : d' % 2 = 1 := by omega
    rw [abMaxi]
    have hroot := abMaxiLoop_root ev hev d' hd' b [0, 1, 2, 3] INT_MIN (-1) t
      le_rfl (by decide)
    rw [mval, nmove]
    have hpar : ¬ ((d' + 1) % 2 = 1) := by omega
    simp only [if_neg hpar]
    exact hroot


theorem lor16 (k c : Nat) (h : c < 16) : (16 * k) ||| c = 16 * k + c := by
  have h4 : c < 2 ^ 4 := h
  have h2 := Nat.mul_add_lt_is_or h4 k
  calc (16 * k) ||| c = 2 ^ 4 * k ||| c := by norm_num
    _ = 2 ^ 4 * k + c := h2.symm
    _ = 16 * k + c := by norm_num

/-- Base-16 value of a digit list (most significant first): the pure
arithmetic content of `pack_board_state`. -/
def packVal (cells : List Nat) : Nat :=
  cells.foldl (fun k c => k * 16 + c) 0

theorem packVal_fold : ∀ (cells : List Nat) (a : Nat),
    cells.foldl (fun k c => k * 16 + c) a =
      a * 16 ^ cells.length + packVal cells := by
  intro cells
  induction cells with
  | nil => intro a; simp [packVal]
  | cons c cs ih =>
    intro a
    have h1 : packVal (c :: cs) = c * 16 ^ cs.length + packVal cs := by
      rw [packVal, List.foldl_cons]
      rw [show (0 : Nat) * 16 + c = c by omega]
      exact ih c
    rw [List.foldl_cons, ih (a * 16 + c), h1]
    simp [List.length_cons, pow_succ]
    ring

theorem packVal_lt : ∀ (cells : List Nat), (∀ c ∈ cells, c < 16) →
    packVal cells < 16 ^ cells.length := by
  intro cells
  induction cells with
  | nil => intro _; simp [packVal]
  | cons c cs ih =>
    intro h
    have h1 : packVal (c :: cs) = c * 16 ^ cs.length + packVal cs := by
      rw [packVal, List.foldl_cons]
      rw [show (0 : Nat) * 16 + c = c by omega]
      exact packVal_fold cs c
    rw [h1, List.length_cons, pow_succ]
    have hc : c < 16 := h c (List.mem_cons_self c cs)
    have hcs : packVal cs < 16 ^ cs.length := ih fun x hx => h x (List.mem_cons_of_mem c hx)
    calc c * 16 ^ cs.length + packVal cs
        < c * 16 ^ cs.length + 16 ^ cs.length := by omega
      _ = (c + 1) * 16 ^ cs.length := by ring
      _ ≤ 16 ^ cs.length * 16 := by
          rw [Nat.mul_comm (16 ^ cs.length) 16]
          exact Nat.mul_le_mul_right _ (by omega)

theorem pack_fold_eq : ∀ (cells : List Nat) (a m : Nat),
    (∀ c ∈ cells, c < 16) → a < 16 ^ m → m + cells.length ≤ 16 →
    cells.foldl (fun k c => ((k * 16) % U64) ||| c) a =
      a * 16 ^ cells.length + packVal cells := by
  intro cells
  induction cells with
  | nil => intro a m _ _ _; simp [packVal]
  | cons c cs ih =>
    intro a m h ha hm
    have hc : c < 16 := h c (List.mem_cons_self c cs)
    have ha16 : a * 16 < 16 ^ (m + 1) := by
      rw [pow_succ]
      exact Nat.mul_lt_mul_of_pos_right ha (by omega)
    have hlt : a * 16 < U64 := by
      have h16 : (16 : Nat) ^ (m + 1) ≤ 16 ^ 16 := by
        apply Nat.pow_le_pow_right (by omega)
        have hlc : (c :: cs).length = cs.length + 1 := List.length_cons c cs
        omega
      have : (16 : Nat) ^ 16 = U64 := by rw [U64]; norm_num
      omega
    have hstep : ((a * 16) % U64) ||| c = a * 16 + c := by
      rw [Nat.mod_eq_of_lt hlt, Nat.mul_comm a 16, lor16 a c hc, Nat.mul_comm 16 a]
    rw [List.foldl_cons, hstep]
    have hnext : a * 16 + c < 16 ^ (m + 1) := by
      have : c < 16 ^ (m+1) - a * 16 := by
        have h1 : (a + 1) * 16 ≤ 16 ^ (m + 1) := by
          rw [pow_succ]
          exact Nat.mul_le_mul_right _ (by omega)
        omega
      omega
    rw [ih (a * 16 + c) (m + 1) (fun x hx => h x (List.mem_cons_of_mem c hx))
      hnext (by
        have hlc : (c :: cs).length = cs.length + 1 := List.length_cons c cs
        omega)]
    have h1 : packVal (c :: cs) = c * 16 ^ cs.length + packVal cs := by
      rw [packVal, List.foldl_cons]
      rw [show (0 : Nat) * 16 + c = c by omega]
      exact packVal_fold cs c
    rw [h1]
    simp [List.length_cons, pow_succ]
    ring

theorem packVal_inj : ∀ (cs ds : List Nat), cs.length = ds.length →
    (∀ c ∈ cs, c < 16) → (∀ d ∈ ds, d < 16) →
    packVal cs = packVal ds → cs = ds := by
  intro cs
  induction cs with
  | nil =>
    intro ds hlen _ _ _
    exact (List.length_eq_zero.mp hlen.symm).symm
  | cons c cs ih =>
    intro ds hlen hc hd heq
    match ds with
    | [] => simp at hlen
    | d :: ds =>
      have hlen2 : cs.length = ds.length := by simpa using hlen
      have e1 : packVal (c :: cs) = c * 16 ^ cs.length + packVal cs := by
        rw [packVal, List.foldl_cons, show (0 : Nat) * 16 + c = c by omega]
        exact packVal_fold cs c
      have e2 : packVal (d :: ds) = d * 16 ^ ds.length + packVal ds := by
        rw [packVal, List.foldl_cons, show (0 : Nat) * 16 + d = d by omega]
        exact packVal_fold ds d
      have hc1 : packVal cs < 16 ^ cs.length :=
        packVal_lt cs fun x hx => hc x (List.mem_cons_of_mem c hx)
      have hd0 : packVal ds < 16 ^ ds.length :=
        packVal_lt ds fun x hx => hd x (List.mem_cons_of_mem d hx)
      have hd1 : packVal ds < 16 ^ cs.length := by rw [hlen2]; exact hd0
      rw [e1, e2, ← hlen2] at heq
      have hcd : c = d ∧ packVal cs = packVal ds := by
        constructor
        · have b1 : (c * 16 ^ cs.length + packVal cs) / 16 ^ cs.length = c := by
            rw [Nat.mul_comm c, Nat.mul_add_div (Nat.pos_pow_of_pos _ (by omega)),
              Nat.div_eq_of_lt hc1]
            omega
          have b2 : (d * 16 ^ cs.length + packVal ds) / 16 ^ cs.length = d := by
            rw [Nat.mul_comm d, Nat.mul_add_div (Nat.pos_pow_of_pos _ (by omega)),
              Nat.div_eq_of_lt hd1]
            omega
          rw [← b1, ← b2, heq]
        · have b1 : (c * 16 ^ cs.length + packVal cs) % 16 ^ cs.length = packVal cs := by
            rw [Nat.mul_comm c, Nat.mul_add_mod, Nat.mod_eq_of_lt hc1]
          have b2 : (d * 16 ^ cs.length + packVal ds) % 16 ^ cs.length = packVal ds := by
            rw [Nat.mul_comm d, Nat.mul_add_mod, Nat.mod_eq_of_lt hd1]
          rw [← b1, ← b2, heq]
      rcases hcd with ⟨rfl, h2⟩
      rw [ih ds hlen2 (fun x hx => hc x (List.mem_cons_of_mem c hx))
        (fun x hx => hd x (List.mem_cons_of_mem c hx)) h2]

theorem packVal_eq_zero : ∀ (cs : List Nat),
    packVal cs = 0 ↔ ∀ c ∈ cs, c = 0 := by
  intro cs
  induction cs with
  | nil => simp [packVal]
  | cons c cs ih =>
    have e1 : packVal (c :: cs) = c * 16 ^ cs.length + packVal cs := by
      rw [packVal, List.foldl_cons, show (0 : Nat) * 16 + c = c by omega]
      exact packVal_fold cs c
    rw [e1]
    constructor
    · intro h x hx
      have hc : c * 16 ^ cs.length = 0 ∧ packVal cs = 0 := by omega
      have hpow : 0 < 16 ^ cs.length := Nat.pos_pow_of_pos _ (by omega)
      rcases List.mem_cons.mp hx with rfl | hx2
      · rcases Nat.mul_eq_zero.mp hc.1 with h0 | h0
        · exact h0
        · omega
      · exact (ih.mp hc.2) x hx2
    · intro h
      have hc : c = 0 := h c (List.mem_cons_self c cs)
      have hcs : packVal cs = 0 := ih.mpr fun x hx => h x (List.mem_cons_of_mem c hx)
      rw [hc, hcs]
      omega

theorem getCells_range16 (b : List Nat) (hb : b.length = 16) :
    getCells b (List.range 16) = b := by
  apply List.ext_getElem
  · simp [getCells, hb]
  · intro i h1 h2
    simp only [getCells, List.getElem_map, List.getElem_range]
    rw [List.getD_eq_getElem _ 0 h2]

theorem pack_eq_packVal (b : List Nat) (hb : b.length = 16)
    (hlt : ∀ v ∈ b, v < 16) : pack_board_state b = packVal b := by
  rw [pack_board_state]
  have h1 : (List.range 16).foldl (fun k i => ((k * 16) % U64) ||| b.getD i 0) 0 =
      (getCells b (List.range 16)).foldl (fun k c => ((k * 16) % U64) ||| c) 0 := by
    rw [getCells, List.foldl_map]
  rw [h1, getCells_range16 b hb]
  have := pack_fold_eq b 0 0 hlt (by norm_num) (by rw [hb])
  simpa using this

theorem pack_inj (b b' : List Nat) (hb : b.length = 16) (hb' : b'.length = 16)
    (hlt : ∀ v ∈ b, v < 16) (hlt' : ∀ v ∈ b', v < 16)
    (heq : pack_board_state b = pack_board_state b') : b = b' := by
  rw [pack_eq_packVal b hb hlt, pack_eq_packVal b' hb' hlt'] at heq
  exact packVal_inj b b' (by omega) hlt hlt' heq

theorem pack_ne_zero (b : List Nat) (hb : b.length = 16)
    (hlt : ∀ v ∈ b, v < 16) (hne : ∃ v ∈ b, v ≠ 0) :
    pack_board_state b ≠ 0 := by
  rw [pack_eq_packVal b hb hlt]
  intro h0
  rcases hne with ⟨v, hv, hvne⟩
  exact hvne ((packVal_eq_zero b).mp h0 v hv)


/-- Values in a slid/merged line come from the input line: unchanged,
merged (`(v+1) % 256`), or zero fill. -/
theorem tiltLineGo_mem :
    ∀ (l : List Nat) (f : Nat) (pending : Option (Nat × Nat))
      (acc : List Nat) (m : Bool) (s : Nat) (g : List Nat),
    ∀ x ∈ (tiltLineGo l f pending acc m s g).out,
      x ∈ acc ∨ x ∈ l ∨
      (∃ lv lf, pending = some (lv, lf) ∧ (x = lv ∨ x = (lv + 1) % 256)) ∨
      (∃ c ∈ l, x = (c + 1) % 256) := by
  intro l
  induction l with
  | nil =>
    intro f pending acc m s g x hx
    match pending with
    | some (lv, lf) =>
      simp only [tiltLineGo] at hx
      rcases List.mem_append.mp hx with h | h
      · exact Or.inl h
      · simp at h
        exact Or.inr (Or.inr (Or.inl ⟨lv, lf, rfl, Or.inl h⟩))
    | none =>
      simp only [tiltLineGo] at hx
      exact Or.inl hx
  | cons c rest ih =>
    intro f pending acc m s g x hx
    simp only [tiltLineGo] at hx
    by_cases hc : c ≠ 0
    · rw [if_pos hc] at hx
      match pending with
      | some (lv, lf) =>
        dsimp only at hx
        by_cases hlv : lv = c
        · rw [if_pos hlv] at hx
          rcases ih (f + 1) none (acc ++ [(lv + 1) % 256]) true
              (s + 2 ^ (lv + 1)) (g ++ [lv]) x hx with h | h | h | h
          · rcases List.mem_append.mp h with h2 | h2
            · exact Or.inl h2
            · simp at h2
              exact Or.inr (Or.inr (Or.inl ⟨lv, lf, rfl, Or.inr h2⟩))
          · exact Or.inr (Or.inl (List.mem_cons_of_mem c h))
          · rcases h with ⟨a, b2, hab, h4⟩; exact absurd hab (by simp)
          · rcases h with ⟨y, hy, hxy⟩
            exact Or.inr (Or.inr (Or.inr ⟨y, List.mem_cons_of_mem c hy, hxy⟩))
        · rw [if_neg hlv] at hx
          rcases ih (f + 1) (some (c, f)) (acc ++ [lv])
              (m || decide (lf ≠ acc.length)) s g x hx with h | h | h | h
          · rcases List.mem_append.mp h with h2 | h2
            · exact Or.inl h2
            · simp at h2
              exact Or.inr (Or.inr (Or.inl ⟨lv, lf, rfl, Or.inl h2⟩))
          · exact Or.inr (Or.inl (List.mem_cons_of_mem c h))
          · rcases h with ⟨a, b2, hab, hor⟩
            have : a = c := by
              have := Option.some.inj hab
              exact ((Prod.mk.injEq _ _ _ _ ▸ this).1).symm
            subst this
            rcases hor with h2 | h2
            · exact Or.inr (Or.inl (h2 ▸ List.mem_cons_self a rest))
            · exact Or.inr (Or.inr (Or.inr ⟨a, List.mem_cons_self a rest, h2⟩))
          · rcases h with ⟨y, hy, hxy⟩
            exact Or.inr (Or.inr (Or.inr ⟨y, List.mem_cons_of_mem c hy, hxy⟩))
      | none =>
        dsimp only at hx
        rcases ih (f + 1) (some (c, f)) acc m s g x hx with h | h | h | h
        · exact Or.inl h
        · exact Or.inr (Or.inl (List.mem_cons_of_mem c h))
        · rcases h with ⟨a, b2, hab, hor⟩
          have : a = c := by
            have := Option.some.inj hab
            exact ((Prod.mk.injEq _ _ _ _ ▸ this).1).symm
          subst this
          rcases hor with h2 | h2
          · exact Or.inr (Or.inl (h2 ▸ List.mem_cons_self a rest))
          · exact Or.inr (Or.inr (Or.inr ⟨a, List.mem_cons_self a rest, h2⟩))
        · rcases h with ⟨y, hy, hxy⟩
          exact Or.inr (Or.inr (Or.inr ⟨y, List.mem_cons_of_mem c hy, hxy⟩))
    · rw [if_neg hc] at hx
      rcases ih (f + 1) pending acc m s g x hx with h | h | h | h
      · exact Or.inl h
      · exact Or.inr (Or.inl (List.mem_cons_of_mem c h))
      · exact Or.inr (Or.inr (Or.inl h))
      · rcases h with ⟨y, hy, hxy⟩
        exact Or.inr (Or.inr (Or.inr ⟨y, List.mem_cons_of_mem c hy, hxy⟩))

theorem tiltLine_mem (l : List Nat) :
    ∀ x ∈ (tiltLine l).out, x = 0 ∨ x ∈ l ∨ ∃ c ∈ l, x = (c + 1) % 256 := by
  intro x hx
  rw [tiltLine] at hx
  rcases List.mem_append.mp hx with h | h
  · rcases tiltLineGo_mem l 0 none [] false 0 [] x h with h2 | h2 | h2 | h2
    · simp at h2
    · exact Or.inr (Or.inl h2)
    · rcases h2 with ⟨lv, lf, hab, h4⟩; exact absurd hab (by simp)
    · exact Or.inr (Or.inr h2)
  · exact Or.inl (List.eq_of_mem_replicate h)

/-- Every value on a tilted board is zero, an original value, or a
merged original value. -/
theorem tiltDir_mem (b : List Nat) (dir : Nat) (hdir : dir < 4)
    (hb : b.length = 16) :
    ∀ x ∈ (tiltDir b dir).out, x = 0 ∨ x ∈ b ∨ ∃ v ∈ b, x = (v + 1) % 256 := by
  intro x hx
  obtain ⟨h1, h2, -, -, -⟩ := tiltDir_spec b dir hdir hb
  obtain ⟨hperm, -, hbd⟩ := lineIdxs_facts dir hdir
  obtain ⟨p, hp⟩ := List.mem_iff_getElem.mp hx
  rcases hp with ⟨hplen, hpx⟩
  have hp16 : p < 16 := by rwa [h1] at hplen
  have hpf : p ∈ (lineIdxs (DIR_DX dir) (DIR_DY dir)).flatten :=
    hperm.mem_iff.mpr (List.mem_range.mpr hp16)
  obtain ⟨l, hl, hpl⟩ := List.mem_flatten.mp hpf
  have hxin : x ∈ getCells (tiltDir b dir).out l := by
    rw [getCells]
    refine List.mem_map.mpr ⟨p, hpl, ?_⟩
    rw [List.getD_eq_getElem _ 0 hplen, hpx]
  rw [h2 l hl] at hxin
  rcases tiltLine_mem (getCells b l) x hxin with h | h | h
  · exact Or.inl h
  · rcases List.mem_map.mp h with ⟨q, hq, hqx⟩
    have hq16 : q < 16 := hbd q (List.mem_flatten.mpr ⟨l, hl, hq⟩)
    refine Or.inr (Or.inl ?_)
    rw [← hqx, List.getD_eq_getElem _ 0 (by omega)]
    exact List.getElem_mem _
  · rcases h with ⟨c, hc, hxc⟩
    rcases List.mem_map.mp hc with ⟨q, hq, hqc⟩
    have hq16 : q < 16 := hbd q (List.mem_flatten.mpr ⟨l, hl, hq⟩)
    refine Or.inr (Or.inr ⟨c, ?_, hxc⟩)
    rw [← hqc, List.getD_eq_getElem _ 0 (by omega)]
    exact List.getElem_mem _


/-- A board that packs injectively: full length, nibble-sized cells, at
least one tile. -/
def GoodB (b : List Nat) : Prop :=
  b.length = 16 ∧ (∀ v ∈ b, v ≤ 15) ∧ ∃ v ∈ b, v ≠ 0

/-- A board valid for `d` remaining search plies: cells small enough
that the at most `d / 2` remaining merges stay below 16 (no nibble
aliasing in `pack_board_state`, no `uint8_t` wrap), and nonempty. -/
def ValidB (d : Nat) (b : List Nat) : Prop :=
  b.length = 16 ∧ d ≤ 28 ∧ (∀ v ∈ b, v + d / 2 ≤ 15) ∧ ∃ v ∈ b, v ≠ 0

theorem ValidB_good (d : Nat) (b : List Nat) (h : ValidB d b) : GoodB b := by
  obtain ⟨h1, h2, h3, h4⟩ := h
  exact ⟨h1, fun v hv => by have := h3 v hv; omega, h4⟩

theorem massList_pos (l : List Nat) : 0 < massList l ↔ ∃ v ∈ l, v ≠ 0 := by
  induction l with
  | nil => simp [massList]
  | cons v vs ih =>
    rw [massList, List.map_cons, List.sum_cons]
    constructor
    · intro h
      by_cases hv : v = 0
      · rw [if_pos hv] at h
        obtain ⟨x, hx, hxne⟩ := ih.mp (by rw [massList]; omega)
        exact ⟨x, List.mem_cons_of_mem v hx, hxne⟩
      · exact ⟨v, List.mem_cons_self v vs, hv⟩
    · rintro ⟨x, hx, hxne⟩
      rcases List.mem_cons.mp hx with rfl | hx2
      · rw [if_neg hxne]
        have := Nat.pos_pow_of_pos x (show 0 < 2 by omega)
        omega
      · have h5 := ih.mpr ⟨x, hx2, hxne⟩
        rw [massList] at h5
        exact Nat.lt_of_lt_of_le h5 (Nat.le_add_left _ _)

theorem massBoard_pos (b : List Nat) (hb : b.length = 16) :
    0 < massBoard b ↔ ∃ v ∈ b, v ≠ 0 := by
  rw [massBoard, getCells_range16 b hb]
  exact massList_pos b

/-- Tilting preserves validity for the next (mini) ply. -/
theorem ValidB_tilt (d' : Nat) (b : List Nat) (i : Nat) (hi : i < 4)
    (hv : ValidB (d' + 1) b) (hpar : (d' + 1) % 2 = 0) :
    ValidB d' (tiltDir b i).out := by
  obtain ⟨h1, h2, h3, h4⟩ := hv
  obtain ⟨hlen, -, -, -, -⟩ := tiltDir_spec b i hi h1
  have hhalf : (d' + 1) / 2 = d' / 2 + 1 := by omega
  refine ⟨hlen, by omega, ?_, ?_⟩
  · intro x hx
    rcases tiltDir_mem b i hi h1 x hx with rfl | hxb | ⟨v, hvb, rfl⟩
    · omega
    · have := h3 x hxb; omega
    · have hvb2 := h3 v hvb
      have hv14 : v + 1 < 256 := by omega
      rw [Nat.mod_eq_of_lt hv14]
      omega
  · have h254 : ∀ v ∈ b, v ≤ 254 := fun v hv => by have := h3 v hv; omega
    obtain ⟨hm, -, -⟩ := tiltDir_conservation b i hi h1 h254
    refine (massBoard_pos _ hlen).mp ?_
    rw [hm]
    exact (massBoard_pos b h1).mpr h4

/-- Placing a forced tile preserves validity for the next (maxi) ply. -/
theorem ValidB_set (e' : Nat) (b : List Nat) (i w : Nat) (hi : i < 16)
    (hw : w = 1 ∨ w = 2) (hv : ValidB (e' + 1) b) :
    ValidB e' (b.set i w) := by
  obtain ⟨h1, h2, h3, h4⟩ := hv
  have hlen : (b.set i w).length = 16 := by rw [List.length_set]; exact h1
  refine ⟨hlen, by omega, ?_, ?_⟩
  · intro x hx
    rcases List.mem_or_eq_of_mem_set hx with hxb | rfl
    · have := h3 x hxb; omega
    · omega
  · have hilt : i < (b.set i w).length := by omega
    refine ⟨(b.set i w)[i], List.getElem_mem hilt, ?_⟩
    rw [List.getElem_set_self]
    omega

/-! ### Cache entry provenance -/

theorem mem_overwriteFirst {V : Type} (k : Nat) (v : V) :
    ∀ (bu : List (Nat × V)) (p : Nat × V), p ∈ overwriteFirst bu k v →
      p = (k, v) ∨ p ∈ bu := by
  intro bu
  induction bu with
  | nil => intro p hp; rw [overwriteFirst] at hp; exact absurd hp (by simp)
  | cons e rest ih =>
    intro p hp
    rw [overwriteFirst] at hp
    by_cases he : e.1 = k
    · rw [if_pos he] at hp
      rcases List.mem_cons.mp hp with rfl | h2
      · exact Or.inl rfl
      · exact Or.inr (List.mem_cons_of_mem e h2)
    · rw [if_neg he] at hp
      rcases List.mem_cons.mp hp with rfl | h2
      · exact Or.inr (List.mem_cons_self p rest)
      · rcases ih p h2 with h3 | h3
        · exact Or.inl h3
        · exact Or.inr (List.mem_cons_of_mem e h3)

theorem mem_bucket_put {V : Type} (bu : List (Nat × V)) (k : Nat) (v : V)
    (p : Nat × V) (hp : p ∈ bucket_put bu k v) : p = (k, v) ∨ p ∈ bu := by
  rw [bucket_put] at hp
  split at hp
  · exact mem_overwriteFirst k v bu p hp
  · have := List.take_subset BUCKET_SIZE ((k, v) :: bu) hp
    rcases List.mem_cons.mp this with rfl | h2
    · exact Or.inl rfl
    · exact Or.inr h2

theorem cache_put_mem {V : Type} (c : BoardCache V) (k : Nat) (v : V)
    (idx : Nat) (p : Nat × V) (hp : p ∈ cache_put c k v idx) :
    p = (k, v) ∨ p ∈ c idx := by
  rw [cache_put] at hp
  split at hp
  · rename_i h
    rcases mem_bucket_put _ k v p hp with h2 | h2
    · exact Or.inl h2
    · rw [h]; exact Or.inr h2
  · exact Or.inr hp

theorem cache_get_mem {V : Type} (c : BoardCache V) (k : Nat) (info : V)
    (h : cache_get c k = some info) : (k, info) ∈ c (cacheWhere k) := by
  rw [cache_get, bucket_get] at h
  rcases Option.map_eq_some'.mp h with ⟨e, he, he2⟩
  have hmem := List.mem_of_find?_eq_some he
  have hk := List.find?_some he
  have : e.1 = k := by simpa using hk
  have : e = (k, info) := by
    rcases e with ⟨e1, e2⟩
    simp at this he2
    rw [this, he2]
  rwa [this] at hmem

theorem cache_get_empty {V : Type} (nil : V) (k : Nat) (hk : k ≠ 0) :
    cache_get (emptyCache nil) k = none := by
  rw [cache_get, emptyCache, bucket_get]
  rw [Option.map_eq_none']
  rw [List.find?_eq_none]
  intro p hp
  have := List.eq_of_mem_replicate hp
  rw [this]
  simpa using fun h => hk h.symm


/-- A set-once cancellation flag: reads are monotone in time. -/
def Mono (o : Nat → Bool) : Prop := ∀ i j, i ≤ j → o i = true → o j = true

theorem noCancel_mono : Mono noCancel := fun _ _ _ h => h

theorem mono_false_below (o : Nat → Bool) (hm : Mono o) (T : Nat)
    (hT : o T = false) : ∀ s, s < T → o s = false := by
  intro s hs
  by_contra h
  have := hm s T (by omega) (by simpa using h)
  rw [hT] at this
  exact Bool.false_ne_true this

/-- Soundness of one caching-minimax cache entry: a non-zero key only
stores the exact minimax value, at the stored lookahead, of any good
board packing to that key. -/
def EntryMM (ev : Evaluator) (p : Nat × InfoMM) : Prop :=
  p.1 ≠ 0 → ∀ b, GoodB b → pack_board_state b = p.1 →
    p.2.score = mval ev p.2.lookahead b

/-- All entries of the caching-minimax transposition cache are sound. -/
def InvMM (ev : Evaluator) (c : BoardCache InfoMM) : Prop :=
  ∀ idx p, p ∈ c idx → EntryMM ev p

theorem InvMM_empty (ev : Evaluator) : InvMM ev (emptyCache InfoMM.zero) := by
  intro idx p hp hk
  have := List.eq_of_mem_replicate hp
  rw [this] at hk
  exact absurd rfl hk

theorem InvMM_put (ev : Evaluator) (c : BoardCache InfoMM) (k : Nat)
    (info : InfoMM) (hc : InvMM ev c) (he : EntryMM ev (k, info)) :
    InvMM ev (cache_put c k info) := by
  intro idx p hp
  rcases cache_put_mem c k info idx p hp with rfl | h2
  · exact he
  · exact hc idx p h2

theorem EntryMM_self (ev : Evaluator) (d : Nat) (b : List Nat) (score : Int)
    (hg : GoodB b) (hs : score = mval ev d b) :
    EntryMM ev (pack_board_state b, ⟨d, score⟩) := by
  intro _ b' hg' hp
  have hb' : b' = b := by
    apply pack_inj b' b hg'.1 hg.1
      (fun v hv => by have := hg'.2.1 v hv; omega)
      (fun v hv => by have := hg.2.1 v hv; omega)
    exact hp
  rw [hb']
  exact hs

theorem InvMM_read (ev : Evaluator) (c : BoardCache InfoMM) (b : List Nat)
    (info : InfoMM) (hInv : InvMM ev c) (hg : GoodB b)
    (hget : cache_get c (pack_board_state b) = some info) :
    info.score = mval ev info.lookahead b := by
  have hmem := cache_get_mem c (pack_board_state b) info hget
  exact hInv _ _ hmem
    (pack_ne_zero b hg.1 (fun v hv => by have := hg.2.1 v hv; omega) hg.2.2)
    b hg rfl

theorem cmm_master (ev : Evaluator) (o : Nat → Bool) (hm : Mono o) :
    ∀ d b t c, ValidB d b → InvMM ev c →
      InvMM ev (cmmGo ev o d b t c).c ∧
      ((∀ s, s < (cmmGo ev o d b t c).t → o s = false) →
        (cmmGo ev o d b t c).score = mval ev d b) := by
  intro d
  induction d using Nat.strong_induction_on with
  | _ d ih =>
    have hbody : ∀ b t c, ValidB d b → InvMM ev c →
        InvMM ev (cmmBody ev o d b t c (pack_board_state b)).c ∧
        ((∀ s, s < (cmmBody ev o d b t c (pack_board_state b)).t → o s = false) →
          (cmmBody ev o d b t c (pack_board_state b)).score = mval ev d b) := by
      intro b t c hvb hic
      match d with
      | 0 =>
        rw [cmmBody]
        by_cases ho : o t = true
        · simp only [if_pos ho]
          refine ⟨hic, fun hfa => ?_⟩
          have := hfa t (by omega)
          rw [this] at ho
          exact absurd ho (by simp)
        · simp only [if_neg ho]
          refine ⟨InvMM_put ev c _ _ hic ?_, fun _ => by rw [mval]⟩
          exact EntryMM_self ev 0 b (ev b) (ValidB_good 0 b hvb) (by rw [mval])
      | d' + 1 =>
        -- loop lemmas at depth d'
        have hchild : ∀ b' t' c', ValidB d' b' → InvMM ev c' →
            InvMM ev (cmmGo ev o d' b' t' c').c ∧
            ((∀ s, s < (cmmGo ev o d' b' t' c').t → o s = false) →
              (cmmGo ev o d' b' t' c').score = mval ev d' b') :=
          fun b' t' c' hv' hc' => ih d' (Nat.lt_succ_self d') b' t' c' hv' hc'
        by_cases hpar : (d' + 1) % 2 = 1
        · -- mini
          have hminiLoop : ∀ cells t2 best c2, (∀ i ∈ cells, i < 16) →
              InvMM ev c2 →
              InvMM ev (cmmMiniLoop ev o d' b cells t2 best c2).c ∧
              ((cmmMiniLoop ev o d' b cells t2 best c2).completed = true →
                (cmmMiniLoop ev o d' b cells t2 best c2).score =
                  mvalMinList ev d' b cells best) ∧
              ((∀ s, s < (cmmMiniLoop ev o d' b cells t2 best c2).t →
                  o s = false) →
                (cmmMiniLoop ev o d' b cells t2 best c2).completed = true) := by
            intro cells
            induction cells with
            | nil =>
              intro t2 best c2 _ hc2
              rw [cmmMiniLoop, mvalMinList]
              exact ⟨hc2, fun _ => rfl, fun _ => rfl⟩
            | cons i rest ihc =>
              intro t2 best c2 hcell hc2
              rw [cmmMiniLoop, mvalMinList]
              by_cases hz : b.getD i 0 ≠ 0
              · simp only [if_pos hz]
                exact ihc t2 best c2
                  (fun j hj => hcell j (List.mem_cons_of_mem i hj)) hc2
              · simp only [if_neg hz]
                have hi16 : i < 16 := hcell i (List.mem_cons_self i rest)
                have hv1 : ValidB d' (b.set i 1) :=
                  ValidB_set d' b i 1 hi16 (Or.inl rfl) hvb
                have hv2 : ValidB d' (b.set i 2) :=
                  ValidB_set d' b i 2 hi16 (Or.inr rfl) hvb
                obtain ⟨hc1i, hc1s⟩ := hchild (b.set i 1) t2 c2 hv1 hc2
                by_cases ho1 : o (cmmGo ev o d' (b.set i 1) t2 c2).t = true
                · simp only [if_pos ho1]
                  refine ⟨hc1i, fun hcp => by simp at hcp, fun hfa => ?_⟩
                  have := hfa (cmmGo ev o d' (b.set i 1) t2 c2).t (by omega)
                  rw [this] at ho1
                  exact absurd ho1 (by simp)
                · simp only [if_neg ho1]
                  have hs1 : (cmmGo ev o d' (b.set i 1) t2 c2).score =
                      mval ev d' (b.set i 1) :=
                    hc1s (mono_false_below o hm _ (by simpa using ho1))
                  obtain ⟨hc2i, hc2s⟩ := hchild (b.set i 2)
                    ((cmmGo ev o d' (b.set i 1) t2 c2).t + 1)
                    (cmmGo ev o d' (b.set i 1) t2 c2).c hv2 hc1i
                  by_cases ho2 : o (cmmGo ev o d' (b.set i 2)
                      ((cmmGo ev o d' (b.set i 1) t2 c2).t + 1)
                      (cmmGo ev o d' (b.set i 1) t2 c2).c).t = true
                  · simp only [if_pos ho2]
                    refine ⟨hc2i, fun hcp => by simp at hcp, fun hfa => ?_⟩
                    have := hfa (cmmGo ev o d' (b.set i 2)
                      ((cmmGo ev o d' (b.set i 1) t2 c2).t + 1)
                      (cmmGo ev o d' (b.set i 1) t2 c2).c).t (by omega)
                    rw [this] at ho2
                    exact absurd ho2 (by simp)
                  · simp only [if_neg ho2]
                    have hs2 : (cmmGo ev o d' (b.set i 2)
                        ((cmmGo ev o d' (b.set i 1) t2 c2).t + 1)
                        (cmmGo ev o d' (b.set i 1) t2 c2).c).score =
                        mval ev d' (b.set i 2) :=
                      hc2s (mono_false_below o hm _ (by simpa using ho2))
                    rw [hs1, hs2]
                    exact ihc _ _ _
                      (fun j hj => hcell j (List.mem_cons_of_mem i hj)) hc2i
          rw [cmmBody]
          simp only [if_pos hpar]
          obtain ⟨hLc, hLs, hLcp⟩ := hminiLoop (List.range 16) t INT_MAX c
            (fun j hj => List.mem_range.mp hj) hic
          by_cases hcp : (cmmMiniLoop ev o d' b (List.range 16) t INT_MAX c).completed = true
          · simp only [if_pos hcp]
            have hvalu : mval ev (d' + 1) b =
                mvalMinList ev d' b (List.range 16) INT_MAX := by
              rw [mval]; simp only [if_pos hpar]
            refine ⟨InvMM_put ev _ _ _ hLc ?_, fun _ => by rw [hLs hcp, hvalu]⟩
            exact EntryMM_self ev (d' + 1) b _ (ValidB_good _ b hvb)
              (by rw [hLs hcp, hvalu])
          · simp only [if_neg hcp]
            exact ⟨hLc, fun hfa => absurd (hLcp hfa) hcp⟩
        · -- maxi
          have hmaxiLoop : ∀ dirs t2 best mv c2 (mvsp : Int), (∀ i ∈ dirs, i < 4) →
              InvMM ev c2 →
              InvMM ev (cmmMaxiLoop ev o d' b dirs t2 best mv c2).c ∧
              ((cmmMaxiLoop ev o d' b dirs t2 best mv c2).completed = true →
                (cmmMaxiLoop ev o d' b dirs t2 best mv c2).score =
                  (mvalMaxList ev d' b dirs best mvsp).1) ∧
              ((∀ s, s < (cmmMaxiLoop ev o d' b dirs t2 best mv c2).t →
                  o s = false) →
                (cmmMaxiLoop ev o d' b dirs t2 best mv c2).completed = true) := by
            intro dirs
            induction dirs with
            | nil =>
              intro t2 best mv c2 mvsp _ hc2
              rw [cmmMaxiLoop, mvalMaxList]
              exact ⟨hc2, fun _ => rfl, fun _ => rfl⟩
            | cons i rest ihc =>
              intro t2 best mv c2 mvsp hdir hc2
              rw [cmmMaxiLoop, mvalMaxList]
              have hrest : ∀ j ∈ rest, j < 4 :=
                fun j hj => hdir j (List.mem_cons_of_mem i hj)
              by_cases hmv : (tiltDir b i).moved = false
              · simp only [if_pos hmv]
                exact ihc t2 best mv c2 mvsp hrest hc2
              · simp only [if_neg hmv]
                have hi4 : i < 4 := hdir i (List.mem_cons_self i rest)
                have hpar0 : (d' + 1) % 2 = 0 := by omega
                have hvt : ValidB d' (tiltDir b i).out :=
                  ValidB_tilt d' b i hi4 hvb hpar0
                obtain ⟨hc1i, hc1s⟩ := hchild (tiltDir b i).out t2 c2 hvt hc2
                by_cases ho1 : o (cmmGo ev o d' (tiltDir b i).out t2 c2).t = true
                · simp only [if_pos ho1]
                  refine ⟨hc1i, fun hcp => by simp at hcp, fun hfa => ?_⟩
                  have := hfa (cmmGo ev o d' (tiltDir b i).out t2 c2).t (by omega)
                  rw [this] at ho1
                  exact absurd ho1 (by simp)
                · simp only [if_neg ho1]
                  have hs1 : (cmmGo ev o d' (tiltDir b i).out t2 c2).score =
                      mval ev d' (tiltDir b i).out :=
                    hc1s (mono_false_below o hm _ (by simpa using ho1))
                  by_cases hgt : (cmmGo ev o d' (tiltDir b i).out t2 c2).score > best
                  · simp only [if_pos hgt]
                    rw [hs1] at hgt
                    simp only [if_pos hgt]
                    rw [← hs1]
                    exact ihc _ _ _ _ (i : Int) hrest hc1i
                  · simp only [if_neg hgt]
                    rw [hs1] at hgt
                    simp only [if_neg hgt]
                    exact ihc _ _ _ _ mvsp hrest hc1i
          rw [cmmBody]
          simp only [if_neg hpar]
          obtain ⟨hLc, hLs, hLcp⟩ := hmaxiLoop [0, 1, 2, 3] t INT_MIN (-1) c (-1)
            (by decide) hic
          by_cases hcp : (cmmMaxiLoop ev o d' b [0, 1, 2, 3] t INT_MIN (-1) c).completed = true
          · simp only [if_pos hcp]
            have hvalu : mval ev (d' + 1) b =
                (mvalMaxList ev d' b [0, 1, 2, 3] INT_MIN (-1)).1 := by
              rw [mval]; simp only [if_neg hpar]
            refine ⟨InvMM_put ev _ _ _ hLc ?_, fun _ => by rw [hLs hcp, hvalu]⟩
            exact EntryMM_self ev (d' + 1) b _ (ValidB_good _ b hvb)
              (by rw [hLs hcp, hvalu])
          · simp only [if_neg hcp]
            exact ⟨hLc, fun hfa => absurd (hLcp hfa) hcp⟩
    intro b t c hvb hic
    rw [cmmGo]
    have hgb : GoodB b := ValidB_good d b hvb
    match hget : cache_get c (pack_board_state b) with
    | some info =>
      dsimp only
      by_cases hla : info.lookahead = d
      · simp only [if_pos hla]
        refine ⟨hic, fun _ => ?_⟩
        have := InvMM_read ev c b info hic hgb hget
        rw [hla] at this
        exact this
      · simp only [if_neg hla]
        exact hbody b t c hvb hic
    | none =>
      exact hbody b t c hvb hic


theorem cmmMaxiLoop_root (ev : Evaluator) (d' : Nat) (b : List Nat)
    (hvb : ValidB (d' + 1) b) (hpar0 : (d' + 1) % 2 = 0) :
    ∀ dirs t best mv c, (∀ i ∈ dirs, i < 4) → InvMM ev c →
    (cmmMaxiLoop ev noCancel d' b dirs t best mv c).score =
      (mvalMaxList ev d' b dirs best mv).1 ∧
    (cmmMaxiLoop ev noCancel d' b dirs t best mv c).mv =
      (mvalMaxList ev d' b dirs best mv).2 := by
  intro dirs
  induction dirs with
  | nil =>
    intro t best mv c _ hc
    rw [cmmMaxiLoop, mvalMaxList]
    exact ⟨rfl, rfl⟩
  | cons i rest ihc =>
    intro t best mv c hdir hc
    rw [cmmMaxiLoop, mvalMaxList]
    have hrest : ∀ j ∈ rest, j < 4 :=
      fun j hj => hdir j (List.mem_cons_of_mem i hj)
    by_cases hmv : (tiltDir b i).moved = false
    · simp only [if_pos hmv]
      exact ihc t best mv c hrest hc
    · simp only [if_neg hmv]
      simp only [noCancel, Bool.false_eq_true, if_false]
      have hi4 : i < 4 := hdir i (List.mem_cons_self i rest)
      have hvt : ValidB d' (tiltDir b i).out :=
        ValidB_tilt d' b i hi4 hvb hpar0
      obtain ⟨hc1i, hc1s⟩ := cmm_master ev noCancel noCancel_mono d'
        (tiltDir b i).out t c hvt hc
      have hs1 : (cmmGo ev noCancel d' (tiltDir b i).out t c).score =
          mval ev d' (tiltDir b i).out := hc1s (fun s _ => rfl)
      by_cases hgt : (cmmGo ev noCancel d' (tiltDir b i).out t c).score > best
      · simp only [if_pos hgt]
        rw [hs1] at hgt
        simp only [if_pos hgt]
        rw [← hs1]
        exact ihc _ _ _ _ hrest hc1i
      · simp only [if_neg hgt]
        rw [hs1] at hgt
        simp only [if_neg hgt]
        exact ihc _ _ _ _ hrest hc1i

theorem searchCMM_noCancel (ev : Evaluator) (b : List Nat) (rng : RNG)
    (L t : Nat) (hvb : ValidB (L * 2) b) :
    (searchCMM ev noCancel b rng L t).1 = mval ev (L * 2) b ∧
    (searchCMM ev noCancel b rng L t).2.1 = nmove ev (L * 2) b := by
  rw [searchCMM, searchWrapper]
  simp only [noCancel, Bool.false_eq_true, if_false]
  have hgb : GoodB b := ValidB_good _ b hvb
  have hget : cache_get (emptyCache InfoMM.zero) (pack_board_state b) = none :=
    cache_get_empty InfoMM.zero _
      (pack_ne_zero b hgb.1 (fun v hv => by have := hgb.2.1 v hv; omega) hgb.2.2)
  rw [cmmGo]
  split
  · rename_i info heq
    rw [hget] at heq
    exact absurd heq (by simp)
  · match hL : L * 2 with
    | 0 =>
      rw [cmmBody, mval, nmove]
      simp [noCancel]
    | d' + 1 =>
      have hpar0 : (d' + 1) % 2 = 0 := by omega
      have hpar : ¬ ((d' + 1) % 2 = 1) := by omega
      rw [cmmBody]
      simp only [if_neg hpar]
      rw [mval, nmove]
      simp only [if_neg hpar]
      rw [hL] at hvb
      obtain ⟨hsc, hmv⟩ := cmmMaxiLoop_root ev d' b hvb hpar0
        [0, 1, 2, 3] t INT_MIN (-1) (emptyCache InfoMM.zero)
        (by decide) (InvMM_empty ev)
      split
      · exact ⟨hsc, hmv⟩
      · exact ⟨hsc, hmv⟩


/-- Soundness of one caching-alpha-beta cache entry: for any good board
packing to a non-zero key, an EXACT entry stores the minimax value, a
LOWER_BOUND entry a lower bound, an UPPER_BOUND entry an upper bound, at
the stored lookahead. -/
def EntryAB (ev : Evaluator) (p : Nat × InfoAB) : Prop :=
  p.1 ≠ 0 → ∀ b, GoodB b → pack_board_state b = p.1 →
    (p.2.type = 1 → p.2.score = mval ev p.2.lookahead b) ∧
    (p.2.type = 2 → p.2.score ≤ mval ev p.2.lookahead b) ∧
    (p.2.type = 3 → mval ev p.2.lookahead b ≤ p.2.score)

def InvAB (ev : Evaluator) (c : BoardCache InfoAB) : Prop :=
  ∀ idx p, p ∈ c idx → EntryAB ev p

theorem InvAB_empty (ev : Evaluator) : InvAB ev (emptyCache InfoAB.zero) := by
  intro idx p hp hk
  have := List.eq_of_mem_replicate hp
  rw [this] at hk
  exact absurd rfl hk

theorem InvAB_put (ev : Evaluator) (c : BoardCache InfoAB) (k : Nat)
    (info : InfoAB) (hc : InvAB ev c) (he : EntryAB ev (k, info)) :
    InvAB ev (cache_put c k info) := by
  intro idx p hp
  rcases cache_put_mem c k info idx p hp with rfl | h2
  · exact he
  · exact hc idx p h2

theorem EntryAB_self (ev : Evaluator) (d ty : Nat) (b : List Nat) (score : Int)
    (hg : GoodB b)
    (hs : (ty = 1 → score = mval ev d b) ∧ (ty = 2 → score ≤ mval ev d b) ∧
      (ty = 3 → mval ev d b ≤ score)) :
    EntryAB ev (pack_board_state b, ⟨d, ty, score⟩) := by
  intro _ b' hg' hp
  have hb' : b' = b := by
    apply pack_inj b' b hg'.1 hg.1
      (fun v hv => by have := hg'.2.1 v hv; omega)
      (fun v hv => by have := hg.2.1 v hv; omega)
    exact hp
  rw [hb']
  exact hs

theorem check_cached_some (oc : Option InfoAB) (alpha beta : Int) (d : Nat)
    (s : Int) (h : check_cached oc alpha beta d = some s) :
    ∃ info, oc = some info ∧ info.lookahead = d ∧ s = info.score ∧
      (info.type = 1 ∨ (info.type = 3 ∧ s ≤ alpha) ∨
        (info.type = 2 ∧ beta ≤ s)) := by
  match oc with
  | none => rw [check_cached] at h; exact absurd h (by simp)
  | some info =>
    rw [check_cached] at h
    refine ⟨info, rfl, ?_⟩
    by_cases h1 : info.lookahead = d
    · rw [if_pos h1] at h
      refine ⟨h1, ?_⟩
      by_cases h2 : info.type = 1
      · rw [if_pos h2] at h
        exact ⟨(Option.some.inj h).symm, Or.inl h2⟩
      · rw [if_neg h2] at h
        by_cases h3 : info.type = 3
        · rw [if_pos h3] at h
          by_cases h4 : info.score ≤ alpha
          · rw [if_pos h4] at h
            have := (Option.some.inj h).symm
            exact ⟨this, Or.inr (Or.inl ⟨h3, by omega⟩)⟩
          · rw [if_neg h4] at h
            exact absurd h (by simp)
        · rw [if_neg h3] at h
          by_cases h5 : info.type = 2
          · rw [if_pos h5] at h
            by_cases h6 : info.score ≥ beta
            · rw [if_pos h6] at h
              have := (Option.some.inj h).symm
              exact ⟨this, Or.inr (Or.inr ⟨h5, by omega⟩)⟩
            · rw [if_neg h6] at h
              exact absurd h (by simp)
          · rw [if_neg h5] at h
            exact absurd h (by simp)
    · rw [if_neg h1] at h
      exact absurd h (by simp)

/-- A validated cache hit obeys the fail-soft contract. -/
theorem check_cached_weakC (ev : Evaluator) (c : BoardCache InfoAB)
    (b : List Nat) (alpha beta : Int) (d : Nat) (s : Int)
    (hInv : InvAB ev c) (hg : GoodB b) (hab : alpha < beta)
    (h : check_cached (cache_get c (pack_board_state b)) alpha beta d = some s) :
    weakC alpha beta (mval ev d b) s := by
  obtain ⟨info, hget, hla, hsc, hty⟩ := check_cached_some _ alpha beta d s h
  have hmem := cache_get_mem c (pack_board_state b) info hget
  have hent := hInv _ _ hmem
    (pack_ne_zero b hg.1 (fun v hv => by have := hg.2.1 v hv; omega) hg.2.2)
    b hg rfl
  rw [hla] at hent
  rcases hty with h1 | ⟨h3, hsa⟩ | ⟨h2, hbs⟩
  · have hfact : info.score = mval ev d b := hent.1 h1
    exact ⟨fun _ => by omega, fun _ => by omega, fun _ _ => by omega⟩
  · have hfact : mval ev d b ≤ info.score := hent.2.2 h3
    exact ⟨fun _ => by omega, fun hc2 => absurd (lt_of_lt_of_le hab hc2)
      (by omega), fun hc2 _ => absurd hc2 (by omega)⟩
  · have hfact : info.score ≤ mval ev d b := hent.2.1 h2
    exact ⟨fun hc2 => absurd (lt_of_le_of_lt hc2 hab) (by omega),
      fun _ => by omega, fun _ hc2 => absurd hc2 (by omega)⟩


theorem cab_master (ev : Evaluator) (o : Nat → Bool)
    (hev : ∀ b, INT_MIN ≤ ev b ∧ ev b ≤ INT_MAX) (hm : Mono o) :
    ∀ d,
      (d % 2 = 0 → ∀ b alpha beta t c, ValidB d b → InvAB ev c →
        INT_MIN ≤ alpha → alpha < beta → beta ≤ INT_MAX →
        InvAB ev (cabMaxi ev o d b alpha beta t c).c ∧
        ((∀ s, s < (cabMaxi ev o d b alpha beta t c).t → o s = false) →
          weakC alpha beta (mval ev d b) (cabMaxi ev o d b alpha beta t c).score)) ∧
      (d % 2 = 1 → ∀ b alpha beta t c, ValidB d b → InvAB ev c →
        INT_MIN ≤ alpha → alpha < beta → beta ≤ INT_MAX →
        InvAB ev (cabMini ev o d b alpha beta t c).c ∧
        ((∀ s, s < (cabMini ev o d b alpha beta t c).t → o s = false) →
          weakC alpha beta (mval ev d b) (cabMini ev o d b alpha beta t c).score)) := by
  intro d
  induction d using Nat.strong_induction_on with
  | _ d ih =>
    constructor
    · -- cabMaxi at even depth
      intro hpar b alpha beta t c hvb hic h1 h2 h3
      have hgb : GoodB b := ValidB_good d b hvb
      match d, hpar with
      | 0, _ =>
        rw [cabMaxi.eq_def]
        dsimp only
        split
        · rename_i s heq
          refine ⟨hic, fun _ => ?_⟩
          exact check_cached_weakC ev c b alpha beta 0 s hic hgb h2 heq
        · by_cases ho : o t = true
          · simp only [if_pos ho]
            refine ⟨hic, fun hfa => ?_⟩
            have := hfa t (by omega)
            rw [this] at ho
            exact absurd ho (by simp)
          · simp only [if_neg ho]
            refine ⟨InvAB_put ev c _ _ hic ?_, fun _ => ?_⟩
            · refine EntryAB_self ev 0 1 b (ev b) hgb ⟨fun _ => by rw [mval], ?_, ?_⟩
              · intro h; omega
              · intro h; omega
            · rw [mval]
              exact ⟨fun _ => le_rfl, fun _ => le_rfl, fun _ _ => rfl⟩
      | d' + 1, hpar =>
        have hd'o : d' % 2 = 1 := by omega
        have hmini : ∀ b' α' β' t' c', ValidB d' b' → InvAB ev c' →
            INT_MIN ≤ α' → α' < β' → β' ≤ INT_MAX →
            InvAB ev (cabMini ev o d' b' α' β' t' c').c ∧
            ((∀ s, s < (cabMini ev o d' b' α' β' t' c').t → o s = false) →
              weakC α' β' (mval ev d' b') (cabMini ev o d' b' α' β' t' c').score) :=
          fun b' α' β' t' c' u1 u2 u3 u4 u5 =>
            (ih d' (by omega)).2 hd'o b' α' β' t' c' u1 u2 u3 u4 u5
        have hloop : ∀ rest α mv ty t2 c2 (mvsp : Int), (∀ i ∈ rest, i < 4) →
            InvAB ev c2 → INT_MIN ≤ α → α < beta →
            InvAB ev (cabMaxiLoop ev o d' b rest α beta t2 mv ty c2).c ∧
            ((cabMaxiLoop ev o d' b rest α beta t2 mv ty c2).completed = true →
              ((cabMaxiLoop ev o d' b rest α beta t2 mv ty c2).score = α ∧
                (cabMaxiLoop ev o d' b rest α beta t2 mv ty c2).ctype = ty ∧
                (mvalMaxList ev d' b rest α mvsp).1 = α) ∨
              (α < (cabMaxiLoop ev o d' b rest α beta t2 mv ty c2).score ∧
                (cabMaxiLoop ev o d' b rest α beta t2 mv ty c2).score < beta ∧
                (cabMaxiLoop ev o d' b rest α beta t2 mv ty c2).ctype = 1 ∧
                (cabMaxiLoop ev o d' b rest α beta t2 mv ty c2).score =
                  (mvalMaxList ev d' b rest α mvsp).1) ∨
              (beta ≤ (cabMaxiLoop ev o d' b rest α beta t2 mv ty c2).score ∧
                (cabMaxiLoop ev o d' b rest α beta t2 mv ty c2).ctype = 2 ∧
                (cabMaxiLoop ev o d' b rest α beta t2 mv ty c2).score ≤
                  (mvalMaxList ev d' b rest α mvsp).1)) ∧
            ((∀ s, s < (cabMaxiLoop ev o d' b rest α beta t2 mv ty c2).t →
                o s = false) →
              (cabMaxiLoop ev o d' b rest α beta t2 mv ty c2).completed = true) := by
          intro rest
          induction rest with
          | nil =>
            intro α mv ty t2 c2 mvsp _ hc2 u1 u2
            rw [cabMaxiLoop, mvalMaxList]
            exact ⟨hc2, fun _ => Or.inl ⟨by trivial, by trivial, by trivial⟩,
              fun _ => by trivial⟩
          | cons i rest2 ihr =>
            intro α mv ty t2 c2 mvsp hdir hc2 u1 u2
            rw [cabMaxiLoop, mvalMaxList]
            have hrest : ∀ j ∈ rest2, j < 4 :=
              fun j hj => hdir j (List.mem_cons_of_mem i hj)
            by_cases hmv : (tiltDir b i).moved = false
            · simp only [if_pos hmv]
              exact ihr α mv ty t2 c2 mvsp hrest hc2 u1 u2
            · simp only [if_neg hmv]
              have hi4 : i < 4 := hdir i (List.mem_cons_self i rest2)
              have hpar0 : (d' + 1) % 2 = 0 := by omega
              have hvt : ValidB d' (tiltDir b i).out :=
                ValidB_tilt d' b i hi4 hvb hpar0
              obtain ⟨hcmi, hcms⟩ := hmini (tiltDir b i).out α beta t2 c2 hvt hc2
                u1 u2 h3
              by_cases ho1 : o (cabMini ev o d' (tiltDir b i).out α beta t2 c2).t = true
              · simp only [if_pos ho1]
                refine ⟨hcmi, fun hcp => by simp at hcp, fun hfa => ?_⟩
                have := hfa (cabMini ev o d' (tiltDir b i).out α beta t2 c2).t
                  (by omega)
                rw [this] at ho1
                exact absurd ho1 (by simp)
              · simp only [if_neg ho1]
                have hw : weakC α beta (mval ev d' (tiltDir b i).out)
                    (cabMini ev o d' (tiltDir b i).out α beta t2 c2).score :=
                  hcms (mono_false_below o hm _ (by simpa using ho1))
                set s := (cabMini ev o d' (tiltDir b i).out α beta t2 c2).score with hs
                set v := mval ev d' (tiltDir b i).out with hv
                rcases hw with ⟨hw1, hw2, hw3⟩
                have hvbd := mval_bounds ev hev d' (tiltDir b i).out
                rw [← hv] at hvbd
                by_cases hra : s > α
                · simp only [if_pos hra]
                  by_cases hpr : s ≥ beta
                  · rw [if_pos (by omega : (s : Int) ≥ beta)]
                    have hsv : s ≤ v := hw2 hpr
                    have hvgt : v > α := by omega
                    simp only [if_pos hvgt]
                    have hge := mvalMaxList_ge ev d' b rest2 v (i : Int)
                    exact ⟨hcmi, fun _ => Or.inr (Or.inr ⟨by omega, by trivial,
                      by omega⟩), fun _ => by trivial⟩
                  · rw [if_neg (by omega : ¬ (s : Int) ≥ beta)]
                    have hsv : s = v := hw3 hra (by omega)
                    have hvgt : v > α := by omega
                    simp only [if_pos hvgt]
                    obtain ⟨hr1, hr2, hr3⟩ := ihr s (i : Int) 1
                      ((cabMini ev o d' (tiltDir b i).out α beta t2 c2).t + 1)
                      (cabMini ev o d' (tiltDir b i).out α beta t2 c2).c (i : Int)
                      hrest hcmi (by omega) (by omega)
                    refine ⟨hr1, fun hcp => ?_, hr3⟩
                    rcases hr2 hcp with ⟨e1, e2, e3⟩ | ⟨e1, e2, e3, e4⟩ | ⟨e1, e2, e3⟩
                    · exact Or.inr (Or.inl ⟨by omega, by omega, e2,
                        e1.trans (e3.symm.trans (by rw [hsv]))⟩)
                    · exact Or.inr (Or.inl ⟨by omega, e2, e3,
                        e4.trans (by rw [hsv])⟩)
                    · exact Or.inr (Or.inr ⟨e1, e2,
                        le_trans e3 (le_of_eq (by rw [hsv]))⟩)
                · simp only [if_neg hra]
                  push_neg at hra
                  have hvle : v ≤ α := le_trans (hw1 hra) hra
                  rw [if_neg (by omega : ¬ (α : Int) ≥ beta)]
                  have hnv : ¬(v > α) := by omega
                  simp only [if_neg hnv]
                  exact ihr α mv ty _ _ mvsp hrest hcmi u1 u2
        rw [cabMaxi.eq_def]
        dsimp only
        split
        · rename_i s heq
          refine ⟨hic, fun _ => ?_⟩
          exact check_cached_weakC ev c b alpha beta (d' + 1) s hic hgb h2 heq
        · obtain ⟨hL1, hL2, hL3⟩ := hloop [0, 1, 2, 3] alpha (-1) 3 t c (-1)
            (by decide) hic h1 h2
          have hVe : mval ev (d' + 1) b =
              (mvalMaxList ev d' b [0, 1, 2, 3] INT_MIN (-1)).1 := by
            rw [mval]
            have : ¬ ((d' + 1) % 2 = 1) := by omega
            simp only [if_neg this]
          have hshift : (mvalMaxList ev d' b [0, 1, 2, 3] alpha (-1)).1 =
              max alpha (mvalMaxList ev d' b [0, 1, 2, 3] INT_MIN (-1)).1 := by
            have h5 := mvalMaxList_max_shift ev d' b [0, 1, 2, 3] alpha INT_MIN (-1) (-1)
            rw [max_eq_left h1] at h5
            exact h5
          by_cases hcp : (cabMaxiLoop ev o d' b [0, 1, 2, 3] alpha beta t (-1) 3 c).completed = true
          · simp only [if_pos hcp]
            rcases hL2 hcp with ⟨e1, e2, e3⟩ | ⟨e1, e2, e3, e4⟩ | ⟨e1, e2, e3⟩
            · -- no raise: UPPER entry
              rw [hshift] at e3
              refine ⟨InvAB_put ev _ _ _ hL1 ?_, fun _ => ?_⟩
              · refine EntryAB_self ev (d' + 1) _ b _ hgb ⟨?_, ?_, ?_⟩
                · intro h; rw [e2] at h; omega
                · intro h; rw [e2] at h; omega
                · intro _; rw [hVe, e1]; omega
              · rw [hVe, e1]
                exact ⟨fun _ => by omega, fun hc2 => by omega, fun hgt _ => by omega⟩
            · -- raise: EXACT entry
              rw [hshift] at e4
              refine ⟨InvAB_put ev _ _ _ hL1 ?_, fun _ => ?_⟩
              · refine EntryAB_self ev (d' + 1) _ b _ hgb ⟨?_, ?_, ?_⟩
                · intro _; rw [hVe, e4]; omega
                · intro h; rw [e3] at h; omega
                · intro h; rw [e3] at h; omega
              · rw [hVe]
                exact ⟨fun hc2 => by omega, fun hc2 => by omega,
                  fun _ _ => by omega⟩
            · -- prune: LOWER entry
              rw [hshift] at e3
              refine ⟨InvAB_put ev _ _ _ hL1 ?_, fun _ => ?_⟩
              · refine EntryAB_self ev (d' + 1) _ b _ hgb ⟨?_, ?_, ?_⟩
                · intro h; rw [e2] at h; omega
                · intro _; rw [hVe]; omega
                · intro h; rw [e2] at h; omega
              · rw [hVe]
                exact ⟨fun hc2 => by omega, fun _ => by omega,
                  fun _ hc2 => by omega⟩
          · simp only [if_neg hcp]
            exact ⟨hL1, fun hfa => absurd (hL3 hfa) hcp⟩
    · -- cabMini at odd depth
      intro hpar b alpha beta t c hvb hic h1 h2 h3
      have hgb : GoodB b := ValidB_good d b hvb
      match d, hpar with
      | e' + 1, hpar =>
        have he'e : e' % 2 = 0 := by omega
        have hmaxi : ∀ b' α' β' t' c', ValidB e' b' → InvAB ev c' →
            INT_MIN ≤ α' → α' < β' → β' ≤ INT_MAX →
            InvAB ev (cabMaxi ev o e' b' α' β' t' c').c ∧
            ((∀ s, s < (cabMaxi ev o e' b' α' β' t' c').t → o s = false) →
              weakC α' β' (mval ev e' b') (cabMaxi ev o e' b' α' β' t' c').score) :=
          fun b' α' β' t' c' u1 u2 u3 u4 u5 =>
            (ih e' (by omega)).1 he'e b' α' β' t' c' u1 u2 u3 u4 u5
        have hloop : ∀ cells β ty t2 c2, (∀ i ∈ cells, i < 16) →
            InvAB ev c2 → alpha < β → β ≤ INT_MAX →
            InvAB ev (cabMiniLoop ev o e' b cells alpha β t2 ty c2).c ∧
            ((cabMiniLoop ev o e' b cells alpha β t2 ty c2).completed = true →
              (alpha < (cabMiniLoop ev o e' b cells alpha β t2 ty c2).score ∧
                (cabMiniLoop ev o e' b cells alpha β t2 ty c2).score =
                  mvalMinList ev e' b cells β ∧
                (((cabMiniLoop ev o e' b cells alpha β t2 ty c2).score < β ∧
                    (cabMiniLoop ev o e' b cells alpha β t2 ty c2).ctype = 1) ∨
                  ((cabMiniLoop ev o e' b cells alpha β t2 ty c2).score = β ∧
                    (cabMiniLoop ev o e' b cells alpha β t2 ty c2).ctype = ty))) ∨
              ((cabMiniLoop ev o e' b cells alpha β t2 ty c2).score ≤ alpha ∧
                (cabMiniLoop ev o e' b cells alpha β t2 ty c2).ctype = 3 ∧
                mvalMinList ev e' b cells INT_MAX ≤
                  (cabMiniLoop ev o e' b cells alpha β t2 ty c2).score)) ∧
            ((∀ s, s < (cabMiniLoop ev o e' b cells alpha β t2 ty c2).t →
                o s = false) →
              (cabMiniLoop ev o e' b cells alpha β t2 ty c2).completed = true) := by
          intro cells
          induction cells with
          | nil =>
            intro β ty t2 c2 _ hc2 u2 u3
            rw [cabMiniLoop, mvalMinList, mvalMinList]
            exact ⟨hc2, fun _ => Or.inl ⟨u2, by trivial,
              Or.inr ⟨by trivial, by trivial⟩⟩, fun _ => by trivial⟩
          | cons i rest2 ihr =>
            intro β ty t2 c2 hcell hc2 u2 u3
            rw [cabMiniLoop, mvalMinList, mvalMinList]
            have hrest : ∀ j ∈ rest2, j < 16 :=
              fun j hj => hcell j (List.mem_cons_of_mem i hj)
            by_cases hz : b.getD i 0 ≠ 0
            · simp only [if_pos hz]
              exact ihr β ty t2 c2 hrest hc2 u2 u3
            · simp only [if_neg hz]
              simp only [if_lt_min]
              have hi16 : i < 16 := hcell i (List.mem_cons_self i rest2)
              have hv1 : ValidB e' (b.set i 1) :=
                ValidB_set e' b i 1 hi16 (Or.inl rfl) hvb
              have hv2 : ValidB e' (b.set i 2) :=
                ValidB_set e' b i 2 hi16 (Or.inr rfl) hvb
              obtain ⟨hcm1, hcs1⟩ := hmaxi (b.set i 1) alpha β t2 c2 hv1 hc2
                h1 u2 u3
              by_cases ho1 : o (cabMaxi ev o e' (b.set i 1) alpha β t2 c2).t = true
              · simp only [if_pos ho1]
                refine ⟨hcm1, fun hcp => by simp at hcp, fun hfa => ?_⟩
                have := hfa (cabMaxi ev o e' (b.set i 1) alpha β t2 c2).t (by omega)
                rw [this] at ho1
                exact absurd ho1 (by simp)
              · simp only [if_neg ho1]
                have hw1 : weakC alpha β (mval ev e' (b.set i 1))
                    (cabMaxi ev o e' (b.set i 1) alpha β t2 c2).score :=
                  hcs1 (mono_false_below o hm _ (by simpa using ho1))
                set s1 := (cabMaxi ev o e' (b.set i 1) alpha β t2 c2).score with hs1
                set v1 := mval ev e' (b.set i 1) with hv1e
                set v2 := mval ev e' (b.set i 2) with hv2e
                rcases hw1 with ⟨hw11, hw12, hw13⟩
                have hWle := mvalMinList_le_best ev e' b rest2
                  (min v2 (min v1 INT_MAX))
                by_cases hpr1 : alpha ≥ min s1 β
                · rw [if_pos hpr1]
                  have hmin1 : min s1 β = s1 := by omega
                  have hvs1 : v1 ≤ s1 := hw11 (by omega)
                  dsimp only
                  exact ⟨hcm1, fun _ => Or.inr ⟨by omega, by trivial, by omega⟩,
                    fun _ => by trivial⟩
                · rw [if_neg hpr1]
                  push_neg at hpr1
                  have hb1 : min s1 β = min v1 β := by
                    by_cases hc : s1 < β
                    · have : s1 = v1 := hw13 (by omega) hc
                      omega
                    · have hvge : β ≤ v1 := le_trans (by omega) (hw12 (by omega))
                      omega
                  obtain ⟨hcm2, hcs2⟩ := hmaxi (b.set i 2) alpha (min s1 β)
                    ((cabMaxi ev o e' (b.set i 1) alpha β t2 c2).t + 1)
                    (cabMaxi ev o e' (b.set i 1) alpha β t2 c2).c hv2 hcm1
                    h1 (by omega) (by omega)
                  by_cases ho2 : o (cabMaxi ev o e' (b.set i 2) alpha (min s1 β)
                      ((cabMaxi ev o e' (b.set i 1) alpha β t2 c2).t + 1)
                      (cabMaxi ev o e' (b.set i 1) alpha β t2 c2).c).t = true
                  · simp only [if_pos ho2]
                    refine ⟨hcm2, fun hcp => by simp at hcp, fun hfa => ?_⟩
                    have := hfa (cabMaxi ev o e' (b.set i 2) alpha (min s1 β)
                      ((cabMaxi ev o e' (b.set i 1) alpha β t2 c2).t + 1)
                      (cabMaxi ev o e' (b.set i 1) alpha β t2 c2).c).t (by omega)
                    rw [this] at ho2
                    exact absurd ho2 (by simp)
                  · simp only [if_neg ho2]
                    have hw2 : weakC alpha (min s1 β) v2
                        (cabMaxi ev o e' (b.set i 2) alpha (min s1 β)
                          ((cabMaxi ev o e' (b.set i 1) alpha β t2 c2).t + 1)
                          (cabMaxi ev o e' (b.set i 1) alpha β t2 c2).c).score :=
                      hcs2 (mono_false_below o hm _ (by simpa using ho2))
                    set s2 := (cabMaxi ev o e' (b.set i 2) alpha (min s1 β)
                      ((cabMaxi ev o e' (b.set i 1) alpha β t2 c2).t + 1)
                      (cabMaxi ev o e' (b.set i 1) alpha β t2 c2).c).score with hs2
                    rcases hw2 with ⟨hw21, hw22, hw23⟩
                    by_cases hpr2 : alpha ≥ min s2 (min s1 β)
                    · rw [if_pos hpr2]
                      have hmin2 : min s2 (min s1 β) = s2 := by omega
                      have hvs2 : v2 ≤ s2 := hw21 (by omega)
                      dsimp only
                      exact ⟨hcm2, fun _ => Or.inr ⟨by omega, by trivial, by omega⟩,
                        fun _ => by trivial⟩
                    · rw [if_neg hpr2]
                      push_neg at hpr2
                      have hb2 : min s2 (min s1 β) = min v2 (min v1 β) := by
                        by_cases hc : s2 < min s1 β
                        · have : s2 = v2 := hw23 (by omega) hc
                          omega
                        · have hvge : min s1 β ≤ v2 :=
                            le_trans (by omega) (hw22 (by omega))
                          omega
                      obtain ⟨hr1, hr2, hr3⟩ := ihr (min s2 (min s1 β))
                        (if s2 < min s1 β then 1 else (if s1 < β then 1 else ty))
                        ((cabMaxi ev o e' (b.set i 2) alpha (min s1 β)
                          ((cabMaxi ev o e' (b.set i 1) alpha β t2 c2).t + 1)
                          (cabMaxi ev o e' (b.set i 1) alpha β t2 c2).c).t + 1)
                        (cabMaxi ev o e' (b.set i 2) alpha (min s1 β)
                          ((cabMaxi ev o e' (b.set i 1) alpha β t2 c2).t + 1)
                          (cabMaxi ev o e' (b.set i 1) alpha β t2 c2).c).c
                        hrest hcm2 (by omega) (by omega)
                      refine ⟨hr1, fun hcp => ?_, hr3⟩
                      rcases hr2 hcp with ⟨f1, f2, f3 | f3⟩ | ⟨f1, f2, f3⟩
                      · -- strictly lowered inside the tail
                        refine Or.inl ⟨f1, ?_, Or.inl ⟨by omega, f3.2⟩⟩
                        rw [f2, hb2]
                      · -- tail returned its beta unchanged
                        by_cases hfb : min s2 (min s1 β) < β
                        · refine Or.inl ⟨f1, by rw [f2, hb2], Or.inl ⟨by omega, ?_⟩⟩
                          rw [f3.2]
                          by_cases hc1 : s2 < min s1 β
                          · rw [if_pos hc1]
                          · rw [if_neg hc1, if_pos (by omega : s1 < β)]
                        · refine Or.inl ⟨f1, by rw [f2, hb2], Or.inr ⟨by omega, ?_⟩⟩
                          rw [f3.2]
                          rw [if_neg (by omega : ¬ s2 < min s1 β),
                            if_neg (by omega : ¬ s1 < β)]
                      · refine Or.inr ⟨f1, f2, ?_⟩
                        have hmono := mvalMinList_mono ev e' b rest2
                          (min v2 (min v1 INT_MAX)) INT_MAX (by omega)
                        omega
        rw [cabMini.eq_def]
        dsimp only
        split
        · rename_i s heq
          refine ⟨hic, fun _ => ?_⟩
          exact check_cached_weakC ev c b alpha beta (e' + 1) s hic hgb h2 heq
        · obtain ⟨hL1, hL2, hL3⟩ := hloop (List.range 16) beta 2 t c
            (fun j hj => List.mem_range.mp hj) hic h2 h3
          have hVe : mval ev (e' + 1) b =
              mvalMinList ev e' b (List.range 16) INT_MAX := by
            rw [mval]
            simp only [if_pos hpar]
          have hshift : mvalMinList ev e' b (List.range 16) beta =
              min beta (mvalMinList ev e' b (List.range 16) INT_MAX) := by
            have h5 := mvalMinList_min_shift ev e' b (List.range 16) beta INT_MAX
            rw [min_eq_left h3] at h5
            exact h5
          by_cases hcp : (cabMiniLoop ev o e' b (List.range 16) alpha beta t 2 c).completed = true
          · dsimp only
            simp only [if_pos hcp]
            rcases hL2 hcp with ⟨e1, e2, ⟨e3, e4⟩ | ⟨e3, e4⟩⟩ | ⟨e1, e2, e3⟩
            · -- lowered: EXACT
              rw [hshift] at e2
              refine ⟨InvAB_put ev _ _ _ hL1 ?_, fun _ => ?_⟩
              · refine EntryAB_self ev (e' + 1) _ b _ hgb ⟨?_, ?_, ?_⟩
                · intro _; rw [hVe]; omega
                · intro h; rw [e4] at h; omega
                · intro h; rw [e4] at h; omega
              · rw [hVe]
                exact ⟨fun hc2 => by omega, fun hc2 => by omega, fun _ _ => by omega⟩
            · -- stayed at beta: LOWER
              rw [hshift] at e2
              refine ⟨InvAB_put ev _ _ _ hL1 ?_, fun _ => ?_⟩
              · refine EntryAB_self ev (e' + 1) _ b _ hgb ⟨?_, ?_, ?_⟩
                · intro h; rw [e4] at h; omega
                · intro _; rw [hVe]; omega
                · intro h; rw [e4] at h; omega
              · rw [hVe]
                exact ⟨fun hc2 => by omega, fun _ => by omega, fun _ hc2 => by omega⟩
            · -- pruned: UPPER
              rw [← hVe] at e3
              refine ⟨InvAB_put ev _ _ _ hL1 ?_, fun _ => ?_⟩
              · refine EntryAB_self ev (e' + 1) _ b _ hgb ⟨?_, ?_, ?_⟩
                · intro h; rw [e2] at h; omega
                · intro h; rw [e2] at h; omega
                · intro _; omega
              · exact ⟨fun _ => by omega, fun hc2 => by omega, fun hgt _ => by omega⟩
          · dsimp only
            simp only [if_neg hcp]
            exact ⟨hL1, fun hfa => absurd (hL3 hfa) hcp⟩

end Tiles2048
